import Mathlib

/-!
Verification of the format-conversion engine of the transform-go repository.

The development shallowly embeds the Go sources of `pkg/convert`
(`formatting.go`, `formats.go`, the struct-definition parser and the
conversion hub) over `List Char` as the string representation.  Go byte
strings hold UTF-8; for the ASCII data the claims exercise, a `List Char`
of code points is an exact model, and UTF-8 byte order coincides with code
point order, so lexicographic sorting matches Go's `sort.Strings`.

Modelling conventions:
  * Go `string` becomes `Str := List Char`; string literals appear as
    `("...").data`.
  * fallible Go functions returning `(T, error)` become `Except Str T`
    or `Option T`.
  * mutually recursive parsing loops take an explicit fuel argument so
    every definition is a computable structural recursion; top-level
    wrappers choose fuel large enough that the fuel guard is never hit
    on the executions the theorems talk about.
-/

set_option maxRecDepth 4000

/-- Go strings are modelled as lists of characters. -/
abbrev Str := List Char

/-- Convenience: the character list of a Lean string literal. -/
def strL (s : String) : Str := s.data

/-- Left-brace character, written numerically. -/
def lbr : Char := Char.ofNat 123

/-- Right-brace character, written numerically. -/
def rbr : Char := Char.ofNat 125

/-- Character test used by Go's `unicode.IsSpace` on the characters that can
actually occur in the ASCII/Latin-1 texts handled here (Go additionally
treats some exotic Unicode spaces as space; none of the claims involve
them). -/
def isSpaceGo (c : Char) : Bool :=
  c = ' ' || c = '\t' || c = '\n' || c = '\r' ||
  c = Char.ofNat 11 || c = Char.ofNat 12 ||
  c = Char.ofNat 0x85 || c = Char.ofNat 0xA0

/-- Membership test on a character list, mirroring Go's
`strings.ContainsRune`. -/
def containsChar (s : Str) (c : Char) : Bool :=
  s.any (fun x => x = c)

/-- Go's `strings.ContainsAny(s, chars)`. -/
def containsAnyOf (s : Str) (chars : Str) : Bool :=
  s.any (fun x => containsChar chars x)

/-- Go's `strings.HasPrefix(s, pre)`. -/
def strHasPre : Str → Str → Bool
  | _, [] => true
  | [], _ :: _ => false
  | c :: s, d :: p => c = d && strHasPre s p

/-- Go's `strings.HasSuffix(s, suf)`. -/
def strHasSuf (s suf : Str) : Bool :=
  strHasPre s.reverse suf.reverse

/-- Go's `strings.TrimSpace` (over the space characters of `isSpaceGo`). -/
def trimSpace (s : Str) : Str :=
  ((s.dropWhile isSpaceGo).reverse.dropWhile isSpaceGo).reverse

/-- Go's `strings.Trim(s, cutset)`: strip leading and trailing characters
belonging to `cutset`. -/
def trimCutset (s cutset : Str) : Str :=
  ((s.dropWhile (fun c => containsChar cutset c)).reverse.dropWhile
      (fun c => containsChar cutset c)).reverse

/-- Go's `strings.TrimPrefix(s, pre)`: remove one leading copy of `pre`
when present. -/
def trimPre (s pre : Str) : Str :=
  if strHasPre s pre then s.drop pre.length else s

/-- Go's `strings.TrimSuffix(s, suf)`. -/
def trimSuf (s suf : Str) : Str :=
  if strHasSuf s suf then s.take (s.length - suf.length) else s

/-- Digit test of the regular-expression class `\d` (ASCII only, as in Go's
`regexp` for this pattern). -/
def isDigitGo (c : Char) : Bool :=
  '0' ≤ c && c ≤ '9'

/-- Integer part `(?:0|[1-9]\d*)` of the numeric-literal pattern: on success
returns the remaining input. -/
def numIntPart : Str → Option Str
  | [] => none
  | c :: r =>
    if c = '0' then some r
    else if '1' ≤ c && c ≤ '9' then some (r.dropWhile isDigitGo)
    else none

/-- Nonempty all-digit tail, the `\d+$` at the end of the exponent. -/
def allDigits1 (s : Str) : Bool :=
  !s.isEmpty && s.all isDigitGo

/-- Exponent part `(?:[eE][+-]?\d+)?$` of the numeric-literal pattern. -/
def numExpPart : Str → Bool
  | [] => true
  | c :: r =>
    if c = 'e' || c = 'E' then
      match r with
      | '+' :: r2 => allDigits1 r2
      | '-' :: r2 => allDigits1 r2
      | r2 => allDigits1 r2
    else false

/-- Fractional part `(?:\.\d+)?` followed by the exponent part. -/
def numFracPart : Str → Bool
  | '.' :: r =>
    let ds := r.takeWhile isDigitGo
    !ds.isEmpty && numExpPart (r.dropWhile isDigitGo)
  | r => numExpPart r

/-- The compiled regular expression
`^-?(?:0|[1-9]\d*)(?:\.\d+)?(?:[eE][+-]?\d+)?$` of `formatting.go`
(`numberPattern.MatchString`). -/
def numberPattern (s : Str) : Bool :=
  let s1 := match s with
    | '-' :: r => r
    | r => r
  match numIntPart s1 with
  | none => false
  | some r => numFracPart r

/-- Character set `: " \ [ ] { }` quoted against in `needsQuote`. -/
def quoteTriggers : Str :=
  [':', '"', '\\', '[', ']', lbr, rbr]

/-- Direct embedding of `needsQuote` from `formatting.go`.  The Go function
is a chain of early `return true` tests; the chain is written as one
boolean disjunction in the same order. -/
def needsQuote (s : Str) (delim : Char) : Bool :=
  (s.isEmpty || !(trimSpace s = s)) ||
  (s = strL ("true") || s = strL ("false") || s = strL ("null")) ||
  numberPattern s ||
  containsAnyOf s quoteTriggers ||
  (containsChar s '\n' || containsChar s '\r' || containsChar s '\t') ||
  containsChar s delim ||
  strHasPre s (strL ("-"))

@[simp] theorem containsChar_iff (s : Str) (c : Char) :
    containsChar s c = true ↔ c ∈ s := by
  unfold containsChar
  rw [List.any_eq_true]
  constructor
  · rintro ⟨x, hx, he⟩
    exact (of_decide_eq_true he) ▸ hx
  · intro h
    exact ⟨c, h, by simp⟩

theorem containsAnyOf_iff (s chars : Str) :
    containsAnyOf s chars = true ↔ ∃ c ∈ s, c ∈ chars := by
  simp [containsAnyOf, List.any_eq_true]

theorem containsAny_triggers (s : Str) :
    containsAnyOf s quoteTriggers = true ↔
      (':' ∈ s ∨ '"' ∈ s ∨ '\\' ∈ s ∨ '[' ∈ s ∨ ']' ∈ s ∨
       lbr ∈ s ∨ rbr ∈ s) := by
  rw [containsAnyOf_iff]
  constructor
  · rintro ⟨c, hc, hm⟩
    simp only [quoteTriggers, List.mem_cons, List.not_mem_nil, or_false] at hm
    rcases hm with rfl | rfl | rfl | rfl | rfl | rfl | rfl <;> tauto
  · intro h
    rcases h with h | h | h | h | h | h | h
    exacts [⟨_, h, by simp [quoteTriggers]⟩, ⟨_, h, by simp [quoteTriggers]⟩,
      ⟨_, h, by simp [quoteTriggers]⟩, ⟨_, h, by simp [quoteTriggers]⟩,
      ⟨_, h, by simp [quoteTriggers]⟩, ⟨_, h, by simp [quoteTriggers]⟩,
      ⟨_, h, by simp [quoteTriggers]⟩]

theorem needsQuote_iff (s : Str) (d : Char) :
    needsQuote s d = true ↔
      (s = [] ∨ trimSpace s ≠ s ∨
       s = strL ("true") ∨ s = strL ("false") ∨ s = strL ("null") ∨
       numberPattern s = true ∨
       (':' ∈ s ∨ '"' ∈ s ∨ '\\' ∈ s ∨ '[' ∈ s ∨ ']' ∈ s ∨
        lbr ∈ s ∨ rbr ∈ s) ∨
       ('\n' ∈ s ∨ '\r' ∈ s ∨ '\t' ∈ s) ∨
       d ∈ s ∨
       strHasPre s (strL ("-")) = true) := by
  simp only [needsQuote, Bool.or_eq_true, List.isEmpty_iff, Bool.not_eq_true',
    decide_eq_false_iff_not, decide_eq_true_eq, containsChar_iff,
    containsAny_triggers, ne_eq]
  tauto

/-- Claim C7: `needsQuote(s, d)` is true exactly when `s` is empty, has
leading or trailing whitespace, equals `true`/`false`/`null`, matches the
numeric-literal pattern, contains one of `: " \ [ ] { }`, contains a
newline, carriage return or tab, contains the delimiter, or starts with
`-`; and in particular `needsQuote("true") = true`,
`needsQuote("123") = true`, `needsQuote("hello") = false`,
`needsQuote("") = true`. -/
theorem C7_needsQuote_characterization :
    (∀ (s : Str) (d : Char),
      needsQuote s d = true ↔
        (s = [] ∨ trimSpace s ≠ s ∨
         s = strL ("true") ∨ s = strL ("false") ∨ s = strL ("null") ∨
         numberPattern s = true ∨
         (':' ∈ s ∨ '"' ∈ s ∨ '\\' ∈ s ∨ '[' ∈ s ∨ ']' ∈ s ∨
          lbr ∈ s ∨ rbr ∈ s) ∨
         ('\n' ∈ s ∨ '\r' ∈ s ∨ '\t' ∈ s) ∨
         d ∈ s ∨
         strHasPre s (strL ("-")) = true)) ∧
    needsQuote (strL ("true")) ',' = true ∧
    needsQuote (strL ("123")) ',' = true ∧
    needsQuote (strL ("hello")) ',' = false ∧
    needsQuote ([]) ',' = true :=
  ⟨needsQuote_iff, by decide, by decide, by decide, by decide⟩

/-!
## The primitive value model

`JValue` models the abstract JSON values that flow through the conversion
hub (`decodeJSONValue` with `UseNumber` on the way in, `json.Marshal` on
the way out).  Integer-valued JSON numbers are represented canonically by
`int` (Go holds them as `json.Number` on the encoder side and `int64` on
the TOON-decoder side; both marshal to the canonical decimal literal).
Non-integer numbers keep their literal text in `float`; IEEE float64
arithmetic itself is not modelled, and no claim below depends on it.
Objects are association lists; Go's `map[string]any` is key-unique and
renders with sorted keys, so well-formed values carry sorted,
duplicate-free key lists.
-/

inductive JValue where
  | null
  | bool (b : Bool)
  | int (n : Int)
  | float (lit : Str)
  | str (s : Str)
  | arr (elems : List JValue)
  | obj (fields : List (Str × JValue))

mutual
def jeq : JValue → JValue → Bool
  | .null, .null => true
  | .bool a, .bool b => a = b
  | .int a, .int b => a = b
  | .float a, .float b => a = b
  | .str a, .str b => a = b
  | .arr a, .arr b => jeqL a b
  | .obj a, .obj b => jeqP a b
  | _, _ => false
def jeqL : List JValue → List JValue → Bool
  | [], [] => true
  | a :: as, b :: bs => jeq a b && jeqL as bs
  | _, _ => false
def jeqP : List (Str × JValue) → List (Str × JValue) → Bool
  | [], [] => true
  | (k, a) :: as, (k', b) :: bs => k = k' && jeq a b && jeqP as bs
  | _, _ => false
end

mutual
theorem jeq_iff : (a b : JValue) → (jeq a b = true ↔ a = b)
  | .null, b => by cases b <;> simp [jeq]
  | .bool _, b => by cases b <;> simp [jeq]
  | .int _, b => by cases b <;> simp [jeq]
  | .float _, b => by cases b <;> simp [jeq]
  | .str _, b => by cases b <;> simp [jeq]
  | .arr a, .arr b => by simp [jeq, jeqL_iff a b]
  | .arr _, .null => by simp [jeq]
  | .arr _, .bool _ => by simp [jeq]
  | .arr _, .int _ => by simp [jeq]
  | .arr _, .float _ => by simp [jeq]
  | .arr _, .str _ => by simp [jeq]
  | .arr _, .obj _ => by simp [jeq]
  | .obj a, .obj b => by simp [jeq, jeqP_iff a b]
  | .obj _, .null => by simp [jeq]
  | .obj _, .bool _ => by simp [jeq]
  | .obj _, .int _ => by simp [jeq]
  | .obj _, .float _ => by simp [jeq]
  | .obj _, .str _ => by simp [jeq]
  | .obj _, .arr _ => by simp [jeq]
theorem jeqL_iff : (as bs : List JValue) → (jeqL as bs = true ↔ as = bs)
  | [], [] => by simp [jeqL]
  | [], _ :: _ => by simp [jeqL]
  | _ :: _, [] => by simp [jeqL]
  | a :: as, b :: bs => by simp [jeqL, jeq_iff a b, jeqL_iff as bs]
theorem jeqP_iff : (as bs : List (Str × JValue)) → (jeqP as bs = true ↔ as = bs)
  | [], [] => by simp [jeqP]
  | [], _ :: _ => by simp [jeqP]
  | _ :: _, [] => by simp [jeqP]
  | (k, a) :: as, (k', b) :: bs => by
      simp [jeqP, jeq_iff a b, jeqP_iff as bs, Prod.ext_iff, and_assoc]
end

instance : DecidableEq JValue := fun a b => decidable_of_iff _ (jeq_iff a b)

mutual
/-- Structural size of a value, used only to provide sufficient fuel for
the fuelled recursions below. -/
def jsize : JValue → Nat
  | .arr xs => 1 + jsizeL xs
  | .obj kvs => 1 + jsizeP kvs
  | _ => 1
def jsizeL : List JValue → Nat
  | [] => 0
  | x :: xs => jsize x + jsizeL xs
def jsizeP : List (Str × JValue) → Nat
  | [] => 0
  | (_, v) :: xs => jsize v + jsizeP xs
end

/-- Go's `item != nil` / `sample == nil` tests on a decoded JSON value:
the nil interface corresponds exactly to JSON null. -/
def isNullJ : JValue → Bool
  | .null => true
  | _ => false

/-- First binding of `key`, mirroring a Go map read `m[key]`. -/
def lookupKey : List (Str × JValue) → Str → Option JValue
  | [], _ => none
  | (k, v) :: r, key => if k = key then some v else lookupKey r key

/-- Go map assignment `m[k] = v` on an association list: replace the first
binding of `k`, else append. -/
def mapInsert (k : Str) (v : JValue) : List (Str × JValue) → List (Str × JValue)
  | [] => [(k, v)]
  | (k', v') :: r => if k' = k then (k, v) :: r else (k', v') :: mapInsert k v r

/-- Byte-wise (equivalently, code-point-wise) lexicographic strict order on
strings, as used by Go's `sort.Strings`. -/
def keyLt : Str → Str → Bool
  | [], [] => false
  | [], _ :: _ => true
  | _ :: _, [] => false
  | c :: s, d :: t => if c = d then keyLt s t else decide (c < d)

/-- Insertion step of a stable insertion sort keyed by `f`. -/
def insertBy (f : α → Str) (p : α) : List α → List α
  | [] => [p]
  | q :: qs => if keyLt (f q) (f p) then q :: insertBy f p qs else p :: q :: qs

/-- Stable insertion sort keyed by `f`; used to model Go's
`sort.Strings` over map keys (Go map keys are duplicate-free, for which
any comparison sort agrees). -/
def goSortBy (f : α → Str) (l : List α) : List α :=
  l.foldr (insertBy f) []

/-- The `orderedKeys` helper of `formatting.go`: the sorted key list of a
map. -/
def orderedKeys (kvs : List (Str × JValue)) : List Str :=
  goSortBy id (kvs.map Prod.fst)

/-- Scalar schema node `{"type": t}` as built all over `buildSchema`. -/
def typeOnlySchema (t : String) : JValue :=
  .obj [(strL ("type"), .str (strL t))]

/-- Fuelled embedding of `buildSchema` from `formats.go`.  The fuel only
bounds the recursion depth; `buildSchema` below instantiates it so the
`0` case is never reached.  Object properties are built by mapping over
the bindings and then sorting by key, which agrees with Go's
sorted-key-iteration because map keys are duplicate-free.  Schema objects
are produced with their keys already in the sorted order in which Go's
`json.MarshalIndent` renders them. -/
def buildSchemaF : Nat → JValue → JValue
  | 0, _ => .null
  | fuel + 1, v =>
    match v with
    | .obj kvs =>
      let props := goSortBy Prod.fst (kvs.map (fun p => (p.1, buildSchemaF fuel p.2)))
      let ks := goSortBy id (kvs.map Prod.fst)
      .obj ([(strL ("properties"), .obj props)] ++
        (if kvs.length > 0 then [(strL ("required"), .arr (ks.map .str))] else []) ++
        [(strL ("type"), .str (strL ("object")))])
    | .arr xs =>
      -- Go: scan for the first non-nil element; the later
      -- `sample = val[0]` assignment can only re-install nil, so the
      -- headD below reproduces it exactly.
      let sample : JValue :=
        match xs.find? (fun v => !isNullJ v) with
        | some s => s
        | none => xs.headD .null
      .obj ([(strL ("items"),
              if isNullJ sample then typeOnlySchema ("string")
              else buildSchemaF fuel sample)] ++
            [(strL ("type"), .str (strL ("array")))])
    | .int _ => typeOnlySchema ("number")
    | .float _ => typeOnlySchema ("number")
    | .str _ => typeOnlySchema ("string")
    | .bool _ => typeOnlySchema ("boolean")
    | .null => typeOnlySchema ("null")

/-- The `buildSchema` of `formats.go` (fuel instantiated; see
`buildSchemaF`). -/
def buildSchema (v : JValue) : JValue :=
  buildSchemaF (jsize v) v

/-- The `schemaType` helper of `formats.go`: tolerant resolution of the
`type` field of a schema node. -/
def schemaType (m : List (Str × JValue)) : Str :=
  match lookupKey m (strL ("type")) with
  | some (.str t) => t
  | some (.arr ts) =>
    match ts.find? (fun v => match v with
                             | .str s => !(s == strL ("null"))
                             | _ => false) with
    | some (.str s) => s
    | _ =>
      match ts with
      | (.str s) :: _ => s
      | _ => strL ("object")
  | _ => strL ("object")

/-- Fuelled embedding of `sampleFromSchema` from `formats.go`.  Go's
`return 0.0` for number schemas yields the JSON number zero, written
`.int 0` in the canonical value model. -/
def sampleFromSchemaF : Nat → JValue → JValue
  | 0, _ => .null
  | fuel + 1, v =>
    match v with
    | .obj s =>
      let t := schemaType s
      if t = strL ("array") then
        match lookupKey s (strL ("items")) with
        | none => .arr []
        | some items => .arr [sampleFromSchemaF fuel items]
      else if t = strL ("string") then
        match lookupKey s (strL ("default")) with
        | some d => d
        | none =>
          match lookupKey s (strL ("enum")) with
          | some (.arr (e :: _)) => e
          | _ => .str []
      else if t = strL ("number") || t = strL ("integer") then
        match lookupKey s (strL ("default")) with
        | some d => d
        | none => .int 0
      else if t = strL ("boolean") then
        match lookupKey s (strL ("default")) with
        | some d => d
        | none => .bool false
      else if t = strL ("null") then .null
      else if t = strL ("object") then
        match lookupKey s (strL ("properties")) with
        | some (.obj m) =>
          .obj (goSortBy Prod.fst (m.map (fun p => (p.1, sampleFromSchemaF fuel p.2))))
        | _ => .obj []
      else .obj []
    | .arr s =>
      match s with
      | [] => .null
      | x :: _ => sampleFromSchemaF fuel x
    | _ => .null

/-- The `sampleFromSchema` of `formats.go` (fuel instantiated). -/
def sampleFromSchema (v : JValue) : JValue :=
  sampleFromSchemaF (jsize v) v

theorem jsize_pos : (v : JValue) → 1 ≤ jsize v
  | .null | .bool _ | .int _ | .float _ | .str _ => le_refl 1
  | .arr _ => by simp [jsize]
  | .obj _ => by simp [jsize]

theorem jsizeL_mem : ∀ {xs : List JValue} {x : JValue}, x ∈ xs → jsize x ≤ jsizeL xs := by
  intro xs
  induction xs with
  | nil => intro x h; cases h
  | cons a as ih =>
    intro x h
    rcases List.mem_cons.mp h with rfl | h
    · simp [jsizeL]
    · have := ih h
      simp only [jsizeL]
      omega

theorem jsizeP_mem : ∀ {kvs : List (Str × JValue)} {p : Str × JValue},
    p ∈ kvs → jsize p.2 ≤ jsizeP kvs := by
  intro kvs
  induction kvs with
  | nil => intro p h; cases h
  | cons a as ih =>
    intro p h
    obtain ⟨k, v⟩ := a
    rcases List.mem_cons.mp h with h | h
    · subst h
      simp only [jsizeP]
      omega
    · have := ih h
      simp only [jsizeP]
      omega

theorem buildSchemaF_fuel : ∀ (f g : Nat) (v : JValue),
    jsize v ≤ f → jsize v ≤ g → buildSchemaF f v = buildSchemaF g v := by
  intro f
  induction f using Nat.strong_induction_on with
  | _ f ih =>
    intro g v hf hg
    have h1 := jsize_pos v
    obtain ⟨f', rfl⟩ : ∃ f', f = f' + 1 := ⟨f - 1, by omega⟩
    obtain ⟨g', rfl⟩ : ∃ g', g = g' + 1 := ⟨g - 1, by omega⟩
    cases v with
    | null => rfl
    | bool b => rfl
    | int n => rfl
    | float l => rfl
    | str s => rfl
    | obj kvs =>
      have hsz : jsizeP kvs ≤ f' ∧ jsizeP kvs ≤ g' := by
        simp only [jsize] at hf hg; omega
      have hmap : kvs.map (fun p => (p.1, buildSchemaF f' p.2)) =
          kvs.map (fun p => (p.1, buildSchemaF g' p.2)) := by
        apply List.map_congr_left
        intro p hp
        have hple := jsizeP_mem hp
        have := ih f' (by omega) g' p.2 (by omega) (by omega)
        simp [this]
      simp only [buildSchemaF]
      rw [hmap]
    | arr xs =>
      have hsz : jsizeL xs ≤ f' ∧ jsizeL xs ≤ g' := by
        simp only [jsize] at hf hg; omega
      simp only [buildSchemaF]
      cases hfind : xs.find? (fun v => !isNullJ v) with
      | some s =>
        have hmem := List.mem_of_find?_eq_some hfind
        have hle := jsizeL_mem hmem
        by_cases hn : isNullJ s = true
        · simp [hn]
        · simp only [Bool.not_eq_true] at hn
          simp [hn, ih f' (by omega) g' s (by omega) (by omega)]
      | none =>
        cases xs with
        | nil => rfl
        | cons x xs' =>
          have hx : isNullJ x = true := by
            have := List.find?_eq_none.mp hfind x (by simp)
            simpa using this
          simp [hx]

theorem buildSchema_eq_of_le {f : Nat} {v : JValue} (h : jsize v ≤ f) :
    buildSchemaF f v = buildSchema v :=
  buildSchemaF_fuel f (jsize v) v h (le_refl _)

theorem buildSchema_obj (kvs : List (Str × JValue)) :
    buildSchema (.obj kvs) =
      .obj ([(strL ("properties"),
              .obj (goSortBy Prod.fst (kvs.map (fun p => (p.1, buildSchema p.2)))))] ++
        (if kvs.length > 0 then
          [(strL ("required"), .arr ((goSortBy id (kvs.map Prod.fst)).map .str))]
         else []) ++
        [(strL ("type"), .str (strL ("object")))]) := by
  unfold buildSchema
  have hj : jsize (JValue.obj kvs) = jsizeP kvs + 1 := by
    simp only [jsize]; omega
  rw [hj]
  simp only [buildSchemaF]
  have hmap : kvs.map (fun p => (p.1, buildSchemaF (jsizeP kvs) p.2)) =
      kvs.map (fun p => (p.1, buildSchema p.2)) := by
    apply List.map_congr_left
    intro p hp
    rw [buildSchema_eq_of_le (jsizeP_mem hp)]
  rw [hmap]
  rfl

/-- Characterization of `buildSchema` on arrays: the items schema comes from
the first non-null element when one exists, and collapses to
`{"type":"string"}` when the array is empty or every element is null. -/
theorem buildSchema_arr (xs : List JValue) :
    buildSchema (.arr xs) =
      .obj [(strL ("items"),
             match xs.find? (fun v => !isNullJ v) with
             | some s => buildSchema s
             | none => typeOnlySchema ("string")),
            (strL ("type"), .str (strL ("array")))] := by
  unfold buildSchema
  have hj : jsize (JValue.arr xs) = jsizeL xs + 1 := by
    simp only [jsize]; omega
  rw [hj]
  simp only [buildSchemaF]
  cases hfind : xs.find? (fun v => !isNullJ v) with
  | some s =>
    have hmem := List.mem_of_find?_eq_some hfind
    have hp := List.find?_some hfind
    have hn : isNullJ s = false := by simpa using hp
    simp only [hn, Bool.false_eq_true, if_false]
    rw [buildSchema_eq_of_le (jsizeL_mem hmem)]
    rfl
  | none =>
    cases xs with
    | nil => rfl
    | cons x xs' =>
      have hx : isNullJ x = true := by
        have := List.find?_eq_none.mp hfind x (by simp)
        simpa using this
      simp [hx, typeOnlySchema]

theorem insertBy_perm (f : α → Str) (p : α) (l : List α) :
    List.Perm (insertBy f p l) (p :: l) := by
  induction l with
  | nil => exact List.Perm.refl _
  | cons q qs ih =>
    simp only [insertBy]
    by_cases h : keyLt (f q) (f p) = true
    · simp only [h, if_true]
      exact (ih.cons q).trans (List.Perm.swap p q qs)
    · simp [h]

theorem goSortBy_perm (f : α → Str) (l : List α) : List.Perm (goSortBy f l) l := by
  induction l with
  | nil => exact List.Perm.refl _
  | cons x xs ih =>
    simp only [goSortBy, List.foldr]
    exact (insertBy_perm f x _).trans (ih.cons x)

theorem insertBy_map_fst (p : Str × JValue) (l : List (Str × JValue)) :
    (insertBy Prod.fst p l).map Prod.fst = insertBy id p.1 (l.map Prod.fst) := by
  induction l with
  | nil => rfl
  | cons q qs ih =>
    simp only [insertBy, List.map_cons, id]
    by_cases h : keyLt q.1 p.1 = true
    · simp only [h, if_true, List.map_cons, ih, id]
    · simp [h]

theorem goSortBy_map_fst (l : List (Str × JValue)) :
    (goSortBy Prod.fst l).map Prod.fst = goSortBy id (l.map Prod.fst) := by
  induction l with
  | nil => rfl
  | cons x xs ih =>
    simp only [goSortBy, List.foldr, List.map_cons] at *
    rw [insertBy_map_fst, ih]

theorem lookup_perm : ∀ {l l' : List (Str × JValue)}, List.Perm l l' →
    (l.map Prod.fst).Nodup → ∀ k, lookupKey l k = lookupKey l' k := by
  intro l l' h
  induction h with
  | nil => intro _ _; rfl
  | cons a h ih =>
    intro hnd k
    simp only [List.map_cons, List.nodup_cons] at hnd
    simp only [lookupKey]
    by_cases he : a.1 = k
    · obtain ⟨ka, va⟩ := a
      simp only at he
      subst he
      simp
    · obtain ⟨ka, va⟩ := a
      simp only at he
      simp [he, ih hnd.2 k]
  | swap x y l =>
    intro hnd k
    obtain ⟨kx, vx⟩ := x
    obtain ⟨ky, vy⟩ := y
    simp only [List.map_cons, List.nodup_cons, List.mem_cons] at hnd
    have hne : ky ≠ kx := fun h => hnd.1 (Or.inl h)
    simp only [lookupKey]
    by_cases h1 : ky = k <;> by_cases h2 : kx = k
    · exact absurd (h1.trans h2.symm) hne
    · simp [h1, h2]
    · simp [h1, h2]
    · simp [h1, h2]
  | trans h1 h2 ih1 ih2 =>
    intro hnd k
    have hndm := ((h1.map Prod.fst).nodup_iff).mp hnd
    rw [ih1 hnd k, ih2 hndm k]

theorem lookup_map (F : JValue → JValue) (l : List (Str × JValue)) (k : Str) :
    lookupKey (l.map (fun p => (p.1, F p.2))) k = (lookupKey l k).map F := by
  induction l with
  | nil => rfl
  | cons a as ih =>
    obtain ⟨ka, va⟩ := a
    simp only [List.map_cons, lookupKey]
    by_cases h : ka = k
    · simp [h]
    · simp [h, ih]

theorem lookup_of_mem : ∀ {l : List (Str × JValue)} {p : Str × JValue},
    p ∈ l → (l.map Prod.fst).Nodup → lookupKey l p.1 = some p.2 := by
  intro l
  induction l with
  | nil => intro p h; cases h
  | cons a as ih =>
    intro p h hnd
    obtain ⟨ka, va⟩ := a
    simp only [List.map_cons, List.nodup_cons] at hnd
    rcases List.mem_cons.mp h with h | h
    · subst h
      simp [lookupKey]
    · have hk : ka ≠ p.1 := by
        intro he
        exact hnd.1 (he ▸ List.mem_map_of_mem Prod.fst h)
      simp [lookupKey, hk, ih h hnd.2]

/-- Reading a named field of a schema node (a Go `s[key]` map access on an
object value). -/
def schemaField (s : JValue) (key : String) : Option JValue :=
  match s with
  | .obj kvs => lookupKey kvs (strL key)
  | _ => none

/-- Claim C4, counterexample: for the all-null array `[null]` the claim
predicts `items = buildSchema(null) = {"type":"null"}`, but the code falls
through to the generic `{"type":"string"}` items schema (the
`sample = val[0]` branch can only re-install a nil sample). -/
theorem C4_counterexample :
    schemaField (buildSchema (.arr [JValue.null])) ("items") =
      some (typeOnlySchema ("string")) ∧
    buildSchema JValue.null = typeOnlySchema ("null") ∧
    schemaField (buildSchema (.arr [JValue.null])) ("items") ≠
      some (buildSchema JValue.null) := by
  refine ⟨by decide, by decide, by decide⟩

/-- Claim C4, amended: for every JSON array value, `buildSchema` returns an
`"array"`-typed schema whose `items` schema is `buildSchema` of the first
non-null element when one exists; when the array is empty or all elements
are null, `items` is `{"type":"string"}`. -/
theorem C4_buildSchema_array (xs : List JValue) :
    buildSchema (.arr xs) =
      .obj [(strL ("items"),
             match xs.find? (fun v => !isNullJ v) with
             | some s => buildSchema s
             | none => typeOnlySchema ("string")),
            (strL ("type"), .str (strL ("array")))] :=
  buildSchema_arr xs

/-- Concrete object of the spec's end-to-end schema scenario,
`{"id":1,"active":true,"name":"Test"}`, in JSON-text key order. -/
def exampleObjKvs : List (Str × JValue) :=
  [(strL ("id"), JValue.int 1), (strL ("active"), JValue.bool true),
   (strL ("name"), JValue.str (strL ("Test")))]

/-- Claim C5: for every JSON object value (Go maps have duplicate-free
keys), `buildSchema` produces a schema of type `"object"` with one
properties entry per key, and a `required` list equal to the full
lexicographically sorted key list, present exactly when the object has at
least one key. -/
theorem C5_buildSchema_object (kvs : List (Str × JValue))
    (hnd : (kvs.map Prod.fst).Nodup) :
    schemaField (buildSchema (.obj kvs)) ("type") =
      some (.str (strL ("object"))) ∧
    (∃ props, schemaField (buildSchema (.obj kvs)) ("properties") =
        some (.obj props) ∧
      props.map Prod.fst = goSortBy id (kvs.map Prod.fst) ∧
      ∀ p ∈ kvs, lookupKey props p.1 = some (buildSchema p.2)) ∧
    (kvs ≠ [] → schemaField (buildSchema (.obj kvs)) ("required") =
      some (.arr ((goSortBy id (kvs.map Prod.fst)).map .str))) ∧
    (kvs = [] → schemaField (buildSchema (.obj kvs)) ("required") = none) := by
  have h1 : strL ("properties") ≠ strL ("type") := by decide
  have h2 : strL ("required") ≠ strL ("type") := by decide
  have h3 : strL ("properties") ≠ strL ("required") := by decide
  have hkeys : (kvs.map (fun p => (p.1, buildSchema p.2))).map Prod.fst =
      kvs.map Prod.fst := by
    rw [List.map_map]
    apply List.map_congr_left
    intro p _
    rfl
  rw [buildSchema_obj]
  by_cases hk : kvs = []
  · subst hk
    refine ⟨by decide, ⟨[], by decide, by decide, ?_⟩,
      fun h => absurd rfl h, fun _ => by decide⟩
    intro p hp
    cases hp
  · have hlen : 0 < kvs.length := List.length_pos.mpr hk
    have hif : (if kvs.length > 0 then
        [(strL ("required"), JValue.arr ((goSortBy id (kvs.map Prod.fst)).map JValue.str))]
      else []) =
        [(strL ("required"), JValue.arr ((goSortBy id (kvs.map Prod.fst)).map JValue.str))] :=
      if_pos hlen
    rw [hif]
    refine ⟨?_,
      ⟨goSortBy Prod.fst (kvs.map (fun p => (p.1, buildSchema p.2))), ?_, ?_, ?_⟩,
      fun _ => ?_, fun h => absurd h hk⟩
    · simp [schemaField, lookupKey, h1, h2]
    · simp [schemaField, lookupKey]
    · rw [goSortBy_map_fst, hkeys]
    · intro p hp
      have hndm : ((kvs.map (fun p => (p.1, buildSchema p.2))).map Prod.fst).Nodup := by
        rw [hkeys]; exact hnd
      rw [← lookup_perm (goSortBy_perm Prod.fst _).symm hndm p.1]
      rw [lookup_map (fun v => buildSchema v) kvs p.1]
      rw [lookup_of_mem hp hnd]
      rfl
    · simp [schemaField, lookupKey, h3]

/-- Witness for C5: the spec scenario `{"id":1,"active":true,"name":"Test"}`
has duplicate-free keys, the theorem applies, and concretely the
`required` list is exactly `["active","id","name"]` while
`properties.active.type` is `"boolean"`. -/
theorem C5_buildSchema_object_witness :
    (exampleObjKvs.map Prod.fst).Nodup ∧
    schemaField (buildSchema (.obj exampleObjKvs)) ("type") =
      some (.str (strL ("object"))) ∧
    schemaField (buildSchema (.obj exampleObjKvs)) ("required") =
      some (.arr [.str (strL ("active")), .str (strL ("id")),
                  .str (strL ("name"))]) ∧
    schemaField (buildSchema (.obj exampleObjKvs)) ("properties") =
      some (.obj [(strL ("active"), typeOnlySchema ("boolean")),
                  (strL ("id"), typeOnlySchema ("number")),
                  (strL ("name"), typeOnlySchema ("string"))]) :=
  ⟨by decide, (C5_buildSchema_object exampleObjKvs (by decide)).1,
   by decide, by decide⟩

/-!
## Key-set profiles (claim C6)

The claim speaks of "the same key set at every nesting level".  The
profile of a value collects, for every mapping occurring in it, the pair
(nesting depth, key list); the claim then says the profile of
`sampleFromSchema (buildSchema v)` matches the profile of `v`.
-/

/-- Fuelled profile collector: `(depth, key list)` of every object node. -/
def profAtF : Nat → Nat → JValue → List (Nat × List Str)
  | 0, _, _ => []
  | fuel + 1, d, v =>
    match v with
    | .obj kvs => (d, kvs.map Prod.fst) ::
        kvs.flatMap (fun p => profAtF fuel (d + 1) p.2)
    | .arr xs => xs.flatMap (fun x => profAtF fuel (d + 1) x)
    | _ => []

/-- Profile of a value (fuel instantiated). -/
def keyProfile (v : JValue) : List (Nat × List Str) :=
  profAtF (jsize v) 0 v

/-- Strictly ascending key list (the canonical order of a rendered Go
map). -/
def ascKeys : List Str → Bool
  | [] => true
  | [_] => true
  | a :: b :: r => keyLt a b && ascKeys (b :: r)

/-- Fuelled canonicity test: every object inside has strictly ascending,
hence duplicate-free, keys.  This is the canonical representative of an
abstract JSON value in this model. -/
def canonicalF : Nat → JValue → Bool
  | 0, _ => false
  | fuel + 1, v =>
    match v with
    | .obj kvs => ascKeys (kvs.map Prod.fst) &&
        kvs.all (fun p => canonicalF fuel p.2)
    | .arr xs => xs.all (fun x => canonicalF fuel x)
    | _ => true

/-- Canonicity of a value (fuel instantiated). -/
def canonicalJ (v : JValue) : Prop :=
  canonicalF (jsize v) v = true

/-- Fuelled test that a value contains no arrays. -/
def arrayFreeF : Nat → JValue → Bool
  | 0, _ => false
  | fuel + 1, v =>
    match v with
    | .obj kvs => kvs.all (fun p => arrayFreeF fuel p.2)
    | .arr _ => false
    | _ => true

/-- Array-freeness of a value (fuel instantiated). -/
def arrayFreeJ (v : JValue) : Prop :=
  arrayFreeF (jsize v) v = true

theorem keyLt_asymm : ∀ {a b : Str}, keyLt a b = true → keyLt b a = false := by
  intro a
  induction a with
  | nil =>
    intro b h
    cases b with
    | nil => simp [keyLt] at h
    | cons d t => simp [keyLt]
  | cons c s ih =>
    intro b h
    cases b with
    | nil => simp [keyLt] at h
    | cons d t =>
      simp only [keyLt] at h ⊢
      by_cases hcd : c = d
      · subst hcd
        simp only [if_pos rfl] at h ⊢
        exact ih h
      · have hdc : ¬(d = c) := fun he => hcd he.symm
        simp only [if_neg hcd] at h
        simp only [if_neg hdc]
        have hlt : c < d := of_decide_eq_true h
        simpa using lt_asymm hlt

theorem ascKeys_tail : ∀ {a : Str} {r : List Str},
    ascKeys (a :: r) = true → ascKeys r = true := by
  intro a r h
  cases r with
  | nil => rfl
  | cons b t =>
    simp only [ascKeys, Bool.and_eq_true] at h
    exact h.2

theorem insertBy_sorted_head (f : α → Str) (x : α) (l : List α)
    (h : ascKeys ((x :: l).map f) = true) : insertBy f x l = x :: l := by
  cases l with
  | nil => rfl
  | cons y t =>
    simp only [List.map_cons, ascKeys, Bool.and_eq_true] at h
    have hxy : keyLt (f x) (f y) = true := h.1
    simp [insertBy, keyLt_asymm hxy]

theorem goSortBy_sorted (f : α → Str) :
    ∀ l : List α, ascKeys (l.map f) = true → goSortBy f l = l := by
  intro l
  induction l with
  | nil => intro _; rfl
  | cons x xs ih =>
    intro h
    have htail : ascKeys (xs.map f) = true := by
      simpa using ascKeys_tail (a := f x) (r := xs.map f) (by simpa using h)
    simp only [goSortBy, List.foldr] at *
    rw [ih htail]
    exact insertBy_sorted_head f x xs h

theorem lookup_mem : ∀ {l : List (Str × JValue)} {k : Str} {w : JValue},
    lookupKey l k = some w → (k, w) ∈ l := by
  intro l
  induction l with
  | nil => intro k w h; simp [lookupKey] at h
  | cons a as ih =>
    intro k w h
    obtain ⟨ka, va⟩ := a
    simp only [lookupKey] at h
    by_cases he : ka = k
    · subst he
      simp only [if_pos, Option.some.injEq, if_true] at h
      rw [← h]
      exact List.mem_cons_self _ _
    · simp only [if_neg he] at h
      exact List.mem_cons_of_mem _ (ih h)

theorem lookup_jsize_le {kvs : List (Str × JValue)} {k : Str} {w : JValue}
    (h : lookupKey kvs k = some w) : jsize w ≤ jsizeP kvs :=
  jsizeP_mem (lookup_mem h)

theorem flatMap_congr {α β : Type} {l : List α} {f g : α → List β}
    (h : ∀ a ∈ l, f a = g a) : l.flatMap f = l.flatMap g := by
  induction l with
  | nil => rfl
  | cons x xs ih =>
    simp only [List.flatMap_cons]
    rw [h x (by simp), ih (fun a ha => h a (List.mem_cons_of_mem _ ha))]

theorem sampleFromSchemaF_fuel : ∀ (f g : Nat) (v : JValue),
    jsize v ≤ f → jsize v ≤ g → sampleFromSchemaF f v = sampleFromSchemaF g v := by
  intro f
  induction f using Nat.strong_induction_on with
  | _ f ih =>
    intro g v hf hg
    have h1 := jsize_pos v
    obtain ⟨f', rfl⟩ : ∃ f', f = f' + 1 := ⟨f - 1, by omega⟩
    obtain ⟨g', rfl⟩ : ∃ g', g = g' + 1 := ⟨g - 1, by omega⟩
    cases v with
    | null => rfl
    | bool b => rfl
    | int n => rfl
    | float l => rfl
    | str s => rfl
    | arr xs =>
      cases xs with
      | nil => rfl
      | cons x t =>
        have hx : jsize x ≤ jsizeL (x :: t) := jsizeL_mem (by simp)
        have hsz : jsizeL (x :: t) ≤ f' ∧ jsizeL (x :: t) ≤ g' := by
          simp only [jsize] at hf hg; omega
        simp only [sampleFromSchemaF]
        exact ih f' (by omega) g' x (by omega) (by omega)
    | obj s =>
      have hsz : jsizeP s ≤ f' ∧ jsizeP s ≤ g' := by
        simp only [jsize] at hf hg; omega
      simp only [sampleFromSchemaF]
      by_cases ha : schemaType s = strL ("array")
      · simp only [ha, if_true]
        cases hit : lookupKey s (strL ("items")) with
        | none => rfl
        | some items =>
          have hle := lookup_jsize_le hit
          show JValue.arr [sampleFromSchemaF f' items] =
            JValue.arr [sampleFromSchemaF g' items]
          rw [ih f' (by omega) g' items (by omega) (by omega)]
      · simp only [ha, if_false]
        by_cases hs : schemaType s = strL ("string")
        · simp [hs]
        · simp only [hs, if_false]
          by_cases hn : schemaType s = strL ("number") ||
              schemaType s = strL ("integer")
          · simp [hn]
          · simp only [hn, if_false, Bool.false_eq_true]
            by_cases hb : schemaType s = strL ("boolean")
            · simp [hb]
            · simp only [hb, if_false]
              by_cases hnu : schemaType s = strL ("null")
              · simp [hnu]
              · simp only [hnu, if_false]
                by_cases ho : schemaType s = strL ("object")
                · simp only [ho, if_true]
                  cases hp : lookupKey s (strL ("properties")) with
                  | none => rfl
                  | some pv =>
                    cases pv with
                    | obj m =>
                      have hmle : jsize (JValue.obj m) ≤ jsizeP s :=
                        lookup_jsize_le hp
                      have hmP : jsizeP m + 1 ≤ jsizeP s := by
                        simp only [jsize] at hmle; omega
                      have hmap : m.map (fun p => (p.1, sampleFromSchemaF f' p.2)) =
                          m.map (fun p => (p.1, sampleFromSchemaF g' p.2)) := by
                        apply List.map_congr_left
                        intro p hpm
                        have := jsizeP_mem hpm
                        rw [ih f' (by omega) g' p.2 (by omega) (by omega)]
                      show JValue.obj (goSortBy Prod.fst
                          (m.map (fun p => (p.1, sampleFromSchemaF f' p.2)))) =
                        JValue.obj (goSortBy Prod.fst
                          (m.map (fun p => (p.1, sampleFromSchemaF g' p.2))))
                      rw [hmap]
                    | null => rfl
                    | bool _ => rfl
                    | int _ => rfl
                    | float _ => rfl
                    | str _ => rfl
                    | arr _ => rfl
                · simp [ho]

theorem sampleFromSchema_eq_of_le {f : Nat} {v : JValue} (h : jsize v ≤ f) :
    sampleFromSchemaF f v = sampleFromSchema v :=
  sampleFromSchemaF_fuel f (jsize v) v h (le_refl _)

theorem profAtF_fuel : ∀ (f g : Nat) (d : Nat) (v : JValue),
    jsize v ≤ f → jsize v ≤ g → profAtF f d v = profAtF g d v := by
  intro f
  induction f using Nat.strong_induction_on with
  | _ f ih =>
    intro g d v hf hg
    have h1 := jsize_pos v
    obtain ⟨f', rfl⟩ : ∃ f', f = f' + 1 := ⟨f - 1, by omega⟩
    obtain ⟨g', rfl⟩ : ∃ g', g = g' + 1 := ⟨g - 1, by omega⟩
    cases v with
    | null => rfl
    | bool b => rfl
    | int n => rfl
    | float l => rfl
    | str s => rfl
    | arr xs =>
      have hsz : jsizeL xs ≤ f' ∧ jsizeL xs ≤ g' := by
        simp only [jsize] at hf hg; omega
      simp only [profAtF]
      apply flatMap_congr
      intro x hx
      have := jsizeL_mem hx
      exact ih f' (by omega) g' (d + 1) x (by omega) (by omega)
    | obj kvs =>
      have hsz : jsizeP kvs ≤ f' ∧ jsizeP kvs ≤ g' := by
        simp only [jsize] at hf hg; omega
      simp only [profAtF]
      congr 1
      apply flatMap_congr
      intro p hp
      have := jsizeP_mem hp
      exact ih f' (by omega) g' (d + 1) p.2 (by omega) (by omega)

theorem profAt_eq_of_le {f : Nat} {d : Nat} {v : JValue} (h : jsize v ≤ f) :
    profAtF f d v = profAtF (jsize v) d v :=
  profAtF_fuel f (jsize v) d v h (le_refl _)

theorem all_congr_mem {α : Type} {l : List α} {f g : α → Bool}
    (h : ∀ a ∈ l, f a = g a) : l.all f = l.all g := by
  induction l with
  | nil => rfl
  | cons x xs ih =>
    simp only [List.all_cons]
    rw [h x (by simp), ih (fun a ha => h a (List.mem_cons_of_mem _ ha))]

theorem canonicalF_fuel : ∀ (f g : Nat) (v : JValue),
    jsize v ≤ f → jsize v ≤ g → canonicalF f v = canonicalF g v := by
  intro f
  induction f using Nat.strong_induction_on with
  | _ f ih =>
    intro g v hf hg
    have h1 := jsize_pos v
    obtain ⟨f', rfl⟩ : ∃ f', f = f' + 1 := ⟨f - 1, by omega⟩
    obtain ⟨g', rfl⟩ : ∃ g', g = g' + 1 := ⟨g - 1, by omega⟩
    cases v with
    | null => rfl
    | bool b => rfl
    | int n => rfl
    | float l => rfl
    | str s => rfl
    | arr xs =>
      have hsz : jsizeL xs ≤ f' ∧ jsizeL xs ≤ g' := by
        simp only [jsize] at hf hg; omega
      simp only [canonicalF]
      apply all_congr_mem
      intro x hx
      have := jsizeL_mem hx
      exact ih f' (by omega) g' x (by omega) (by omega)
    | obj kvs =>
      have hsz : jsizeP kvs ≤ f' ∧ jsizeP kvs ≤ g' := by
        simp only [jsize] at hf hg; omega
      simp only [canonicalF]
      congr 1
      apply all_congr_mem
      intro p hp
      have := jsizeP_mem hp
      exact ih f' (by omega) g' p.2 (by omega) (by omega)

theorem arrayFreeF_fuel : ∀ (f g : Nat) (v : JValue),
    jsize v ≤ f → jsize v ≤ g → arrayFreeF f v = arrayFreeF g v := by
  intro f
  induction f using Nat.strong_induction_on with
  | _ f ih =>
    intro g v hf hg
    have h1 := jsize_pos v
    obtain ⟨f', rfl⟩ : ∃ f', f = f' + 1 := ⟨f - 1, by omega⟩
    obtain ⟨g', rfl⟩ : ∃ g', g = g' + 1 := ⟨g - 1, by omega⟩
    cases v with
    | null => rfl
    | bool b => rfl
    | int n => rfl
    | float l => rfl
    | str s => rfl
    | arr xs => simp only [arrayFreeF]
    | obj kvs =>
      have hsz : jsizeP kvs ≤ f' ∧ jsizeP kvs ≤ g' := by
        simp only [jsize] at hf hg; omega
      simp only [arrayFreeF]
      apply all_congr_mem
      intro p hp
      have := jsizeP_mem hp
      exact ih f' (by omega) g' p.2 (by omega) (by omega)

theorem map_fst_mapPairs (F : Str × JValue → JValue) (kvs : List (Str × JValue)) :
    (kvs.map (fun p => (p.1, F p))).map Prod.fst = kvs.map Prod.fst := by
  rw [List.map_map]
  apply List.map_congr_left
  intro p _
  rfl

theorem canonical_obj_asc {kvs : List (Str × JValue)}
    (h : canonicalJ (.obj kvs)) : ascKeys (kvs.map Prod.fst) = true := by
  unfold canonicalJ at h
  have hj : jsize (JValue.obj kvs) = jsizeP kvs + 1 := by
    simp only [jsize]; omega
  rw [hj] at h
  simp only [canonicalF, Bool.and_eq_true] at h
  exact h.1

theorem canonical_obj_mem {kvs : List (Str × JValue)} {p : Str × JValue}
    (h : canonicalJ (.obj kvs)) (hp : p ∈ kvs) : canonicalJ p.2 := by
  unfold canonicalJ at h ⊢
  have hj : jsize (JValue.obj kvs) = jsizeP kvs + 1 := by
    simp only [jsize]; omega
  rw [hj] at h
  simp only [canonicalF, Bool.and_eq_true, List.all_eq_true] at h
  have := h.2 p hp
  rw [← canonicalF_fuel (jsizeP kvs) (jsize p.2) p.2 (jsizeP_mem hp) (le_refl _)]
  exact this

theorem arrayFree_obj_mem {kvs : List (Str × JValue)} {p : Str × JValue}
    (h : arrayFreeJ (.obj kvs)) (hp : p ∈ kvs) : arrayFreeJ p.2 := by
  unfold arrayFreeJ at h ⊢
  have hj : jsize (JValue.obj kvs) = jsizeP kvs + 1 := by
    simp only [jsize]; omega
  rw [hj] at h
  simp only [arrayFreeF, List.all_eq_true] at h
  have := h p hp
  rw [← arrayFreeF_fuel (jsizeP kvs) (jsize p.2) p.2 (jsizeP_mem hp) (le_refl _)]
  exact this

/-- On an array-free canonical object, `sampleFromSchema ∘ buildSchema`
reproduces the object structure key-for-key. -/
theorem sample_build_obj (kvs : List (Str × JValue))
    (hasc : ascKeys (kvs.map Prod.fst) = true) :
    sampleFromSchema (buildSchema (.obj kvs)) =
      .obj (kvs.map (fun p => (p.1, sampleFromSchema (buildSchema p.2)))) := by
  rw [buildSchema_obj]
  have hmk : ((kvs.map (fun p => (p.1, buildSchema p.2))).map Prod.fst) =
      kvs.map Prod.fst := map_fst_mapPairs _ kvs
  have hsorted : goSortBy Prod.fst (kvs.map (fun p => (p.1, buildSchema p.2))) =
      kvs.map (fun p => (p.1, buildSchema p.2)) :=
    goSortBy_sorted Prod.fst _ (by rw [hmk]; exact hasc)
  rw [hsorted]
  set mapped := kvs.map (fun p => (p.1, buildSchema p.2)) with hmapped
  set R := (if kvs.length > 0 then
      [(strL ("required"), JValue.arr ((goSortBy id (kvs.map Prod.fst)).map JValue.str))]
    else []) with hR
  set L := ([(strL ("properties"), JValue.obj mapped)] ++ R ++
      [(strL ("type"), JValue.str (strL ("object")))]) with hL
  have hje : jsize (JValue.obj L) = jsizeP L + 1 := by
    simp only [jsize]; omega
  show sampleFromSchemaF (jsize (JValue.obj L)) (JValue.obj L) = _
  rw [hje]
  simp only [sampleFromSchemaF]
  have htype : lookupKey L (strL ("type")) = some (.str (strL ("object"))) := by
    rw [hL, hR]
    by_cases hk : kvs = []
    · subst hk
      decide
    · have hlen : 0 < kvs.length := List.length_pos.mpr hk
      rw [if_pos hlen]
      have h1 : strL ("properties") ≠ strL ("type") := by decide
      have h2 : strL ("required") ≠ strL ("type") := by decide
      simp [lookupKey, h1, h2]
  have hst : schemaType L = strL ("object") := by
    unfold schemaType
    rw [htype]
  rw [hst]
  have hna : strL ("object") ≠ strL ("array") := by decide
  have hns : strL ("object") ≠ strL ("string") := by decide
  have hnn : strL ("object") ≠ strL ("number") := by decide
  have hni : strL ("object") ≠ strL ("integer") := by decide
  have hnb : strL ("object") ≠ strL ("boolean") := by decide
  have hnu : strL ("object") ≠ strL ("null") := by decide
  simp only [if_neg hna, if_neg hns, if_neg hnb, if_neg hnu,
    hnn, hni, Bool.or_self, if_neg (Bool.false_ne_true), decide_eq_true_eq,
    if_pos rfl]
  have hprops : lookupKey L (strL ("properties")) = some (.obj mapped) := by
    rw [hL]
    simp [lookupKey]
  rw [hprops]
  simp only [if_false, if_true]
  have hfuel : ∀ p ∈ mapped, jsize p.2 ≤ jsizeP L := by
    intro p hp
    have h1 : jsize (JValue.obj mapped) ≤ jsizeP L := by
      apply lookup_jsize_le (k := strL ("properties"))
      exact hprops ▸ (by rw [hprops])
    have h2 : jsize p.2 ≤ jsizeP mapped := jsizeP_mem hp
    have h3 : jsize (JValue.obj mapped) = jsizeP mapped + 1 := by
      simp only [jsize]; omega
    omega
  have hmap2 : mapped.map (fun p => (p.1, sampleFromSchemaF (jsizeP L) p.2)) =
      kvs.map (fun p => (p.1, sampleFromSchema (buildSchema p.2))) := by
    rw [hmapped, List.map_map]
    apply List.map_congr_left
    intro p hp
    have hin : ((fun p => (p.1, buildSchema p.2)) p) ∈ mapped := by
      rw [hmapped]
      exact List.mem_map_of_mem _ hp
    have := hfuel _ hin
    simp only [Function.comp]
    rw [sampleFromSchema_eq_of_le (by simpa using this)]
  show JValue.obj (goSortBy Prod.fst
      (mapped.map (fun p => (p.1, sampleFromSchemaF (jsizeP L) p.2)))) = _
  rw [hmap2]
  congr 1
  apply goSortBy_sorted
  rw [map_fst_mapPairs (fun p => sampleFromSchema (buildSchema p.2)) kvs]
  exact hasc

theorem profAtF_scalar (f d : Nat) (v : JValue)
    (h : match v with | .obj _ => False | .arr _ => False | _ => True) :
    profAtF f d v = [] := by
  cases f with
  | zero => rfl
  | succ f' => cases v <;> first | rfl | exact absurd h (by simp)

theorem arrayFree_not_arr {xs : List JValue} (h : arrayFreeJ (.arr xs)) : False := by
  unfold arrayFreeJ at h
  have hj : jsize (JValue.arr xs) = jsizeL xs + 1 := by
    simp only [jsize]; omega
  rw [hj] at h
  simp [arrayFreeF] at h

theorem flatMap_map {α β γ : Type} (g : α → β) (f : β → List γ) (l : List α) :
    (l.map g).flatMap f = l.flatMap (fun a => f (g a)) := by
  induction l with
  | nil => rfl
  | cons x xs ih => simp only [List.map_cons, List.flatMap_cons, ih]

theorem prof_sample_build :
    ∀ (n : Nat) (v : JValue), jsize v ≤ n → arrayFreeJ v → canonicalJ v →
    ∀ d, profAtF (jsize (sampleFromSchema (buildSchema v))) d
        (sampleFromSchema (buildSchema v)) = profAtF (jsize v) d v := by
  intro n
  induction n using Nat.strong_induction_on with
  | _ n ih =>
    intro v hn haf hc d
    cases v with
    | null =>
      have hs : sampleFromSchema (buildSchema JValue.null) = JValue.null := by decide
      rw [hs]
    | bool b =>
      have hs : sampleFromSchema (buildSchema (JValue.bool b)) = JValue.bool false := by
        have h1 : buildSchema (JValue.bool b) = typeOnlySchema ("boolean") := rfl
        rw [h1]
        decide
      rw [hs]
      rfl
    | int m =>
      have hs : sampleFromSchema (buildSchema (JValue.int m)) = JValue.int 0 := by
        have h1 : buildSchema (JValue.int m) = typeOnlySchema ("number") := rfl
        rw [h1]
        decide
      rw [hs]
      rfl
    | float l =>
      have hs : sampleFromSchema (buildSchema (JValue.float l)) = JValue.int 0 := by
        have h1 : buildSchema (JValue.float l) = typeOnlySchema ("number") := rfl
        rw [h1]
        decide
      rw [hs]
      rfl
    | str s =>
      have hs : sampleFromSchema (buildSchema (JValue.str s)) = JValue.str [] := by
        have h1 : buildSchema (JValue.str s) = typeOnlySchema ("string") := rfl
        rw [h1]
        decide
      rw [hs]
      rfl
    | arr xs => exact absurd haf (fun h => arrayFree_not_arr h)
    | obj kvs =>
      have hasc := canonical_obj_asc hc
      rw [sample_build_obj kvs hasc]
      have hjS : jsize (JValue.obj (kvs.map (fun p => (p.1, sampleFromSchema (buildSchema p.2))))) =
          jsizeP (kvs.map (fun p => (p.1, sampleFromSchema (buildSchema p.2)))) + 1 := by
        simp only [jsize]; omega
      have hjv : jsize (JValue.obj kvs) = jsizeP kvs + 1 := by
        simp only [jsize]; omega
      rw [hjS, hjv]
      simp only [profAtF]
      rw [map_fst_mapPairs]
      congr 1
      rw [flatMap_map (fun p => (p.1, sampleFromSchema (buildSchema p.2)))
        (fun p => profAtF (jsizeP (kvs.map (fun p => (p.1, sampleFromSchema (buildSchema p.2))))) (d + 1) p.2) kvs]
      apply flatMap_congr
      intro p hp
      simp only []
      have hmemS : ((fun p => (p.1, sampleFromSchema (buildSchema p.2))) p) ∈
          kvs.map (fun p => (p.1, sampleFromSchema (buildSchema p.2))) :=
        List.mem_map_of_mem _ hp
      have hfS : jsize (sampleFromSchema (buildSchema p.2)) ≤
          jsizeP (kvs.map (fun p => (p.1, sampleFromSchema (buildSchema p.2)))) := by
        have := jsizeP_mem hmemS
        simpa using this
      rw [profAt_eq_of_le hfS]
      have hsub : jsize p.2 ≤ jsizeP kvs := jsizeP_mem hp
      have hlt : jsize p.2 < n := by
        simp only [jsize] at hn
        omega
      rw [ih (jsize p.2) hlt p.2 (le_refl _) (arrayFree_obj_mem haf hp)
        (canonical_obj_mem hc hp) (d + 1)]
      exact (profAt_eq_of_le hsub).symm

/-- Claim C6, counterexample: for the object value
`{"a":[{"x":1},{}]}` the key set `{}` occurs at nesting depth 2 in `v`
but nowhere in `sampleFromSchema (buildSchema v)` (the sampled array
keeps only one element shaped after the first non-null element), so the
sample does not have the same key set as `v` at every nesting level. -/
theorem C6_counterexample :
    ¬ (∀ p : Nat × List Str,
        p ∈ keyProfile (sampleFromSchema (buildSchema
          (.obj [(strL ("a"), .arr [.obj [(strL ("x"), .int 1)], .obj []])]))) ↔
        p ∈ keyProfile
          (.obj [(strL ("a"), .arr [.obj [(strL ("x"), .int 1)], .obj []])])) := by
  intro h
  have h2 := (h (2, [])).mpr (by decide)
  exact absurd h2 (by decide)

/-- Claim C6, amended: for every canonical JSON object value composed of
scalars and objects only (no arrays), `sampleFromSchema (buildSchema v)`
yields a value with the same key set as `v` at every nesting level
(the key-set profiles agree); heterogeneous arrays break the property
because the items schema only reflects the first non-null element. -/
theorem C6_sample_build_same_keysets (kvs : List (Str × JValue))
    (haf : arrayFreeJ (.obj kvs)) (hc : canonicalJ (.obj kvs)) :
    keyProfile (sampleFromSchema (buildSchema (.obj kvs))) =
      keyProfile (.obj kvs) :=
  prof_sample_build (jsize (.obj kvs)) _ (le_refl _) haf hc 0

/-- Witness for C6 on the concrete canonical value
`{"a":1,"b":{"c":true}}`. -/
theorem C6_sample_build_same_keysets_witness :
    arrayFreeJ (.obj [(strL ("a"), JValue.int 1),
      (strL ("b"), .obj [(strL ("c"), JValue.bool true)])]) ∧
    canonicalJ (.obj [(strL ("a"), JValue.int 1),
      (strL ("b"), .obj [(strL ("c"), JValue.bool true)])]) ∧
    keyProfile (sampleFromSchema (buildSchema
      (.obj [(strL ("a"), JValue.int 1),
             (strL ("b"), .obj [(strL ("c"), JValue.bool true)])]))) =
      keyProfile (.obj [(strL ("a"), JValue.int 1),
        (strL ("b"), .obj [(strL ("c"), JValue.bool true)])]) :=
  ⟨by rfl, by rfl,
   C6_sample_build_same_keysets _ (by rfl) (by rfl)⟩

/-!
## Struct-definition fields (claim C3)

Embedding of the struct parser's `buildStructDefinition` and
`parseJSONTag` together with the `lowerFirst` helper chain.  The
character classification functions model Go's `unicode` package on the
ASCII range the struct parser actually meets (Go identifiers in the
repository are ASCII).
-/

/-- ASCII `unicode.IsUpper`. -/
def isUpperGo (c : Char) : Bool := 'A' ≤ c && c ≤ 'Z'

/-- ASCII `unicode.IsLower`. -/
def isLowerGo (c : Char) : Bool := 'a' ≤ c && c ≤ 'z'

/-- ASCII `unicode.IsLetter`. -/
def isLetterGo (c : Char) : Bool := isUpperGo c || isLowerGo c

/-- ASCII `unicode.ToLower`. -/
def toLowerGo (c : Char) : Char :=
  if isUpperGo c then Char.ofNat (c.toNat + 32) else c

/-- ASCII `unicode.ToUpper`. -/
def toUpperGo (c : Char) : Char :=
  if isLowerGo c then Char.ofNat (c.toNat - 32) else c

/-- Go's `strings.Split` on a single-character separator. -/
def splitOnCh (sep : Char) : Str → List Str
  | [] => [[]]
  | c :: r =>
    if c = sep then [] :: splitOnCh sep r
    else
      match splitOnCh sep r with
      | [] => [[c]]
      | h :: t => (c :: h) :: t

/-- Go's `strings.Index` for a single character: first index or -1
(modelled as `Option Nat`). -/
def idxOfChar : Str → Char → Option Nat
  | [], _ => none
  | c :: r, ch => if c = ch then some 0 else (idxOfChar r ch).map (· + 1)

/-- The `parseJSONTag` of the struct parser: extract the json tag name;
a tag value of exactly `-` yields the empty string, as does a missing
json key. -/
def parseJSONTag (tag : Str) : Str :=
  if tag = [] then []
  else
    match (splitOnCh ' ' tag).find? (fun part => strHasPre part (strL ("json:\""))) with
    | none => []
    | some part =>
      let p := trimPre part (strL ("json:\""))
      let p := trimSuf p (strL ("\""))
      if p = strL ("-") then []
      else
        match idxOfChar p ',' with
        | some i => p.take i
        | none => p

/-- Word-splitting step of `splitWords`, carrying the previous rune. -/
def splitWordsAux : Char → Str → Str → List Str
  | _, current, [] => [current]
  | prev, current, r :: rest =>
    let nextLower := match rest with
      | n :: _ => isLowerGo n
      | [] => false
    if isUpperGo r then
      if isLowerGo prev || isDigitGo prev || (isUpperGo prev && nextLower) then
        current :: splitWordsAux r [r] rest
      else splitWordsAux r (current ++ [r]) rest
    else if isDigitGo r then
      if !isDigitGo prev then current :: splitWordsAux r [r] rest
      else splitWordsAux r (current ++ [r]) rest
    else
      if isDigitGo prev then current :: splitWordsAux r [r] rest
      else splitWordsAux r (current ++ [r]) rest

/-- The `splitWords` helper of the struct parser. -/
def splitWords : Str → List Str
  | [] => []
  | c :: rest => splitWordsAux c [c] rest

/-- The `isAllUpper` helper. -/
def isAllUpper (s : Str) : Bool :=
  if s = [] then false
  else s.all (fun r => !isLetterGo r || isUpperGo r)

/-- Title-case a word after lower-casing it, as in the `lowerFirst` loop
body (the word is nonempty there). -/
def titleWord (w : Str) : Str :=
  match w.map toLowerGo with
  | [] => []
  | c :: r => toUpperGo c :: r

/-- The `lowerFirst` helper: lower-camel-case an identifier. -/
def lowerFirst (s : Str) : Str :=
  if s = [] then s
  else
    match splitWords s with
    | [] => s.map toLowerGo
    | w :: rest =>
      (w.map toLowerGo) ++
        rest.flatMap (fun word =>
          if word = [] then []
          else if isAllUpper word then word
          else titleWord word)

/-- One parsed field of an `ast.StructType` as the struct parser sees it:
the identifier list (empty for an embedded field), the printed type
expression, the raw tag literal (backquotes included) when present, and
the attached doc or trailing comment text. -/
structure GoField where
  names : List Str
  typeName : Str
  tag : Option Str
  doc : Str

/-- The `StructField` record of the struct parser. -/
structure StructField where
  GoName : Str
  JSONName : Str
  TypeString : Str
  Comment : Str
  Tag : Str
deriving DecidableEq

/-- The `StructDefinition` record of the struct parser. -/
structure StructDefinition where
  Name : Str
  Fields : List StructField
deriving DecidableEq

/-- The `tagLiteral` helper: the raw tag literal, or empty when the field
has no tag. -/
def tagLiteral : Option Str → Str
  | none => []
  | some t => t

/-- Embedding of `buildStructDefinition`: for each field, the json name is
taken from the tag; inside the per-identifier loop an empty json name
falls back to `lowerFirst` of the identifier, and the Go variable
`jsonName` is mutated, so later identifiers of the same field reuse the
first resolved name. -/
def buildStructDefinition (name : Str) (fieldList : List GoField) : StructDefinition :=
  StructDefinition.mk name
    (fieldList.flatMap (fun field =>
      let comment := trimSpace field.doc
      let jsonName0 : Str := match field.tag with
        | none => []
        | some t => parseJSONTag (trimCutset t (strL ("`")))
      let names := if field.names = [] then [field.typeName] else field.names
      (names.foldl (fun (acc : List StructField × Str) ident =>
        let jn := if acc.2 = [] then lowerFirst ident else acc.2
        (acc.1 ++ [StructField.mk ident jn field.typeName comment
          (tagLiteral field.tag)], jn))
        ([], jsonName0)).1))

/-- Claim C3, counterexample: for a field `Secret string` with tag exactly
`json:"-"`, the parsed `StructField` is retained but its external name is
`"secret"` — `buildStructDefinition` falls back to
`lowerFirst(internalName)` whenever `parseJSONTag` yields the empty
string — so the external (JSON) name is not empty and filtering on an
empty external name does not drop the field. -/
theorem C3_counterexample :
    (buildStructDefinition (strL ("S"))
      [GoField.mk [strL ("Secret")] (strL ("string"))
        (some (strL ("`json:\"-\"`"))) []]).Fields =
      [StructField.mk (strL ("Secret")) (strL ("secret")) (strL ("string")) []
        (strL ("`json:\"-\"`"))] ∧
    ∀ f ∈ (buildStructDefinition (strL ("S"))
      [GoField.mk [strL ("Secret")] (strL ("string"))
        (some (strL ("`json:\"-\"`"))) []]).Fields, f.JSONName ≠ [] := by
  refine ⟨by decide, by decide⟩

/-- Claim C3, amended: a field whose tag makes `parseJSONTag` return the
empty name — in particular a tag of exactly `json:"-"` — is retained in
the field list with external name `lowerFirst(internalName)`, not with an
empty external name; callers filtering on an empty external name will
therefore not drop it. -/
theorem C3_dash_tag_retained (name ident typeName doc tag : Str)
    (htag : parseJSONTag (trimCutset tag (strL ("`"))) = []) :
    (buildStructDefinition name [GoField.mk [ident] typeName (some tag) doc]).Fields =
      [StructField.mk ident (lowerFirst ident) typeName (trimSpace doc) tag] := by
  unfold buildStructDefinition
  simp [htag, tagLiteral]

/-- Witness for C3: the amendment applied to the `json:"-"` tag on field
`Secret`, whose lower-camel external name is `"secret"`. -/
theorem C3_dash_tag_retained_witness :
    parseJSONTag (trimCutset (strL ("`json:\"-\"`")) (strL ("`"))) = [] ∧
    (buildStructDefinition (strL ("S"))
      [GoField.mk [strL ("Secret")] (strL ("string"))
        (some (strL ("`json:\"-\"`"))) []]).Fields =
      [StructField.mk (strL ("Secret")) (lowerFirst (strL ("Secret")))
        (strL ("string")) (trimSpace []) (strL ("`json:\"-\"`"))] ∧
    lowerFirst (strL ("Secret")) = strL ("secret") :=
  ⟨by decide,
   C3_dash_tag_retained (strL ("S")) (strL ("Secret")) (strL ("string")) []
     (strL ("`json:\"-\"`")) (by decide),
   by decide⟩

/-!
## The conversion hub (claim C2)

`ConvertFormats` dispatches on format names before any adapter code runs.
The adapter bodies (YAML, TOML, XML, MsgPack, ... converters) call library
code outside the conversion core, so the hub is embedded parameterized
over those functions; the identity claim is decided entirely by the
dispatch structure, which is embedded exactly.
-/

/-- The per-format adapter record of `formatting.go`; a `none` entry is a
nil Go function value. -/
structure formatAdapter where
  ToJSON : Option (Str → Except Str Str)
  FromJSON : Option (Str → Except Str Str)

/-- The converter functions the hub closes over.  Their behaviour is
irrelevant to claim C2, so they are parameters of the embedding. -/
structure ExternalConverters where
  GoStructToJSON : Str → Except Str Str
  JSONToGoStruct : Str → Except Str Str
  YAMLToJSON : Str → Except Str Str
  JSONToYAML : Str → Except Str Str
  TOMLToJSON : Str → Except Str Str
  JSONToTOML : Str → Except Str Str
  XMLToJSON : Str → Except Str Str
  JSONToXML : Str → Except Str Str
  SchemaToJSON : Str → Except Str Str
  JSONToSchema : Str → Except Str Str
  GraphQLToJSON : Str → Except Str Str
  JSONToGraphQL : Str → Except Str Str
  ProtoToJSON : Str → Except Str Str
  JSONToProto : Str → Except Str Str
  TOONToJSONText : Str → Except Str Str
  JSONToTOONText : Str → Except Str Str
  MsgPackToJSON : Str → Except Str Str
  JSONToMsgPack : Str → Except Str Str
  GoStructToGraphQL : Str → Except Str Str
  GraphQLToGoStruct : Str → Except Str Str
  GoStructToProto : Str → Except Str Str
  ProtoToGoStruct : Str → Except Str Str

/-- The `adapters` registry of `formatting.go`. -/
def adapters (E : ExternalConverters) (name : Str) : Option formatAdapter :=
  if name = strL ("JSON") then
    some (formatAdapter.mk (some (fun s => .ok s)) (some (fun s => .ok s)))
  else if name = strL ("Go Struct") then
    some (formatAdapter.mk (some E.GoStructToJSON) (some E.JSONToGoStruct))
  else if name = strL ("YAML") then
    some (formatAdapter.mk (some E.YAMLToJSON) (some E.JSONToYAML))
  else if name = strL ("TOML") then
    some (formatAdapter.mk (some E.TOMLToJSON) (some E.JSONToTOML))
  else if name = strL ("XML") then
    some (formatAdapter.mk (some E.XMLToJSON) (some E.JSONToXML))
  else if name = strL ("JSON Schema") then
    some (formatAdapter.mk (some E.SchemaToJSON) (some E.JSONToSchema))
  else if name = strL ("GraphQL Schema") then
    some (formatAdapter.mk (some E.GraphQLToJSON) (some E.JSONToGraphQL))
  else if name = strL ("Protobuf") then
    some (formatAdapter.mk (some E.ProtoToJSON) (some E.JSONToProto))
  else if name = strL ("TOON") then
    some (formatAdapter.mk (some E.TOONToJSONText) (some E.JSONToTOONText))
  else if name = strL ("MsgPack") then
    some (formatAdapter.mk (some E.MsgPackToJSON) (some E.JSONToMsgPack))
  else none

/-- Embedding of `ConvertFormats` from `formatting.go`: identity on equal
formats first, then the four direct struct/GraphQL/Protobuf special
cases, then the generic JSON-hub route. -/
def ConvertFormats (E : ExternalConverters) (fromF toF input : Str) :
    Except Str Str :=
  if fromF = toF then .ok input
  else if fromF = strL ("Go Struct") ∧ toF = strL ("GraphQL Schema") then
    E.GoStructToGraphQL input
  else if fromF = strL ("GraphQL Schema") ∧ toF = strL ("Go Struct") then
    E.GraphQLToGoStruct input
  else if fromF = strL ("Go Struct") ∧ toF = strL ("Protobuf") then
    E.GoStructToProto input
  else if fromF = strL ("Protobuf") ∧ toF = strL ("Go Struct") then
    E.ProtoToGoStruct input
  else
    match adapters E fromF with
    | none => .error (strL ("unsupported source format: ") ++ fromF)
    | some fromAdapter =>
      match adapters E toF with
      | none => .error (strL ("unsupported target format: ") ++ toF)
      | some toAdapter =>
        let midE : Except Str Str :=
          if fromF = strL ("JSON") then .ok input
          else
            match fromAdapter.ToJSON with
            | some fn => fn input
            | none => .error (strL ("format ") ++ fromF ++
                strL (" cannot convert to JSON"))
        match midE with
        | .error e => .error e
        | .ok mid =>
          if toF = strL ("JSON") then .ok mid
          else
            match toAdapter.FromJSON with
            | none => .error (strL ("format ") ++ toF ++
                strL (" cannot be generated from JSON"))
            | some fn => fn mid

/-- Claim C2: for every adapter behaviour, every format name `F` — whether
registered or not — and every input text, `ConvertFormats(F, F, text)`
returns the input unchanged with no error: the `from == to` case is the
first branch of the dispatch, before any registration check or adapter
call, so formatting differences are never normalized. -/
theorem C2_convert_identity (E : ExternalConverters) (F input : Str) :
    ConvertFormats E F F input = .ok input := by
  simp [ConvertFormats]

/-!
## TOON encoder and decoder (claims C1, C9, C10)

Embedding of the TOON writer (`writeTOON` and helpers) and the
line-oriented parser (`newToonParser`, `parse`, `parseObject`,
`parseHeader`) of `formatting.go`.  The JSON text layers around them
(`json.Decoder` with `UseNumber`, `json.MarshalIndent`) translate between
JSON text and the abstract values of `JValue`; the claims are stated at
the value level.  Mutually recursive functions carry fuel (see the file
header); the top-level wrappers pick fuel large enough for every
execution the theorems mention.
-/

/-- Decimal digit character. -/
def digitChar (n : Nat) : Char := Char.ofNat (48 + n)

/-- Decimal rendering of a natural number (fuelled division loop). -/
def natToStrAux : Nat → Nat → Str
  | 0, _ => []
  | fuel + 1, n =>
    if n < 10 then [digitChar n]
    else natToStrAux fuel (n / 10) ++ [digitChar (n % 10)]

/-- Decimal rendering of a natural number. -/
def natToStr (n : Nat) : Str := natToStrAux (n + 1) n

/-- Decimal rendering of an `int64`, as `fmt` and `strconv` produce it. -/
def intToStr (i : Int) : Str :=
  if i < 0 then '-' :: natToStr (- i).toNat else natToStr i.toNat

/-- Numeric value of a digit character. -/
def digitVal (c : Char) : Nat := c.toNat - 48

/-- Digits-only decimal parse (no sign). -/
def parseNatDigits (s : Str) : Option Nat :=
  if s = [] then none
  else if s.all isDigitGo then
    some (s.foldl (fun acc c => acc * 10 + digitVal c) 0)
  else none

/-- Go's `strconv.ParseInt(s, 10, 64)` (also `strconv.Atoi` up to the
64-bit platform width): optional sign, decimal digits, 64-bit range
check. -/
def parseIntGo (s : Str) : Option Int :=
  match s with
  | '-' :: r => (parseNatDigits r).bind
      (fun n => if n ≤ 2 ^ 63 then some (-(n : Int)) else none)
  | '+' :: r => (parseNatDigits r).bind
      (fun n => if n < 2 ^ 63 then some ((n : Int)) else none)
  | r => (parseNatDigits r).bind
      (fun n => if n < 2 ^ 63 then some ((n : Int)) else none)

/-- Interior of a double-quoted Go string literal for `strconv.Unquote`:
plain characters, the escape sequences `\" \\ \n \r \t \a \b \f \v`, no
raw quote and no raw newline.  (Go additionally accepts `\x`, `\u`,
`\U` and octal escapes; they never occur in TOON output, which only
emits the five escapes of `quoteString`, and no claim involves them.) -/
def unquoteInner : Str → Option Str
  | [] => some []
  | '\\' :: r =>
    match r with
    | '"' :: t => (unquoteInner t).map (fun s => '"' :: s)
    | '\\' :: t => (unquoteInner t).map (fun s => '\\' :: s)
    | 'n' :: t => (unquoteInner t).map (fun s => '\n' :: s)
    | 'r' :: t => (unquoteInner t).map (fun s => '\r' :: s)
    | 't' :: t => (unquoteInner t).map (fun s => '\t' :: s)
    | 'a' :: t => (unquoteInner t).map (fun s => Char.ofNat 7 :: s)
    | 'b' :: t => (unquoteInner t).map (fun s => Char.ofNat 8 :: s)
    | 'f' :: t => (unquoteInner t).map (fun s => Char.ofNat 12 :: s)
    | 'v' :: t => (unquoteInner t).map (fun s => Char.ofNat 11 :: s)
    | _ => none
  | '"' :: _ => none
  | '\n' :: _ => none
  | c :: t => (unquoteInner t).map (fun s => c :: s)

/-- Go's `strconv.Unquote` on a double-quoted literal. -/
def goUnquote (s : Str) : Option Str :=
  match s with
  | '"' :: rest =>
    if rest ≠ [] ∧ rest.getLast? = some '"' then unquoteInner rest.dropLast
    else none
  | _ => none

/-- The `quoteString` of `formatting.go`: wrap in double quotes, escaping
`\" \\ \n \r \t` (the `strings.NewReplacer` there maps single
characters). -/
def quoteString (s : Str) : Str :=
  '"' :: (s.flatMap (fun c =>
    if c = '"' then ['\\', '"']
    else if c = '\\' then ['\\', '\\']
    else if c = '\n' then ['\\', 'n']
    else if c = '\r' then ['\\', 'r']
    else if c = '\t' then ['\\', 't']
    else [c])) ++ ['"']

/-- The `formatPrimitive` of `formatting.go`.  `json.Number` values print
their literal (`float` constructor); decoded `int64` values print through
the `%v` default branch as canonical decimals; arrays and objects never
reach this function from the writer (its call sites are guarded), so they
render as the empty string here. -/
def formatPrimitive (value : JValue) (delim : Char) : Str :=
  match value with
  | .null => strL ("null")
  | .bool b => if b then strL ("true") else strL ("false")
  | .int n => intToStr n
  | .float lit => lit
  | .str s => if needsQuote s delim then quoteString s else s
  | .arr _ => []
  | .obj _ => []

/-- Digit-run value used by the float range check. -/
def digitsVal (d : Str) : Nat :=
  d.foldl (fun acc c => acc * 10 + digitVal c) 0

/-- Signed exponent of a float literal's `e`/`E` part. -/
def expVal (r : Str) : Int :=
  match r with
  | '+' :: d => (digitsVal d : Int)
  | '-' :: d => -((digitsVal d : Int))
  | d => (digitsVal d : Int)

/-- The failure condition of `strconv.ParseFloat(token, 64)` on a token the
number pattern admits: the only error `atof64` can report for such input
is overflow (too-small magnitudes round to zero or a denormal without
error), and a decimal value overflows exactly when its magnitude reaches
the rounding cutoff `2^1024 - 2^970` (half an ULP above the largest
float64, the tie rounding to infinity).  The literal
`-? ip (. fp)? ([eE] ex)?` denotes `(ip ++ fp) * 10 ^ (ex - |fp|)` in
magnitude; the comparison is exact integer arithmetic. -/
def floatOverflows (s : Str) : Bool :=
  let s1 := match s with
    | '-' :: r => r
    | r => r
  let ip := s1.takeWhile isDigitGo
  let r1 := s1.dropWhile isDigitGo
  let fp := match r1 with
    | '.' :: t => t.takeWhile isDigitGo
    | _ => []
  let r2 := match r1 with
    | '.' :: t => t.dropWhile isDigitGo
    | t => t
  let ex : Int := match r2 with
    | 'e' :: t => expVal t
    | 'E' :: t => expVal t
    | _ => 0
  let m : Nat := digitsVal (ip ++ fp)
  let E : Int := ex - fp.length
  if 0 ≤ E then decide (2 ^ 1024 - 2 ^ 970 ≤ m * 10 ^ E.toNat)
  else decide ((2 ^ 1024 - 2 ^ 970) * 10 ^ (-E).toNat ≤ m)

/-- The `parsePrimitiveToken` of `formatting.go`.  The float branch returns
a float only when `strconv.ParseFloat` succeeds (`floatOverflows` is its
exact failure condition on pattern-matching input) and otherwise falls
through to returning the token as a string; a successful parse yields the
`float64` value, represented here by its literal (IEEE value semantics
are not modelled and no claim depends on the represented value). -/
def parsePrimitiveToken (token0 : Str) : JValue :=
  let token := trimSpace token0
  if token = [] then .str []
  else if strHasPre token (strL ("\"")) && strHasSuf token (strL ("\"")) then
    match goUnquote token with
    | some s => .str s
    | none => .str token
  else if token = strL ("true") then .bool true
  else if token = strL ("false") then .bool false
  else if token = strL ("null") then .null
  else if numberPattern token then
    if containsAnyOf token (strL (".eE")) then
      if floatOverflows token then .str token else .float token
    else
      match parseIntGo token with
      | some i => .int i
      | none => .str token
  else .str token

/-- The `splitDelimited` state machine of `formatting.go`: input left to
process, in-quotes flag, escaped flag, current cell, accumulated cells. -/
def splitDelimitedAux (delim : Char) : Str → Bool → Bool → Str → List Str → List Str
  | [], _, _, current, acc =>
    if current.length > 0 then acc ++ [trimSpace current] else acc
  | ch :: rest, inQuotes, escaped, current, acc =>
    if escaped then
      splitDelimitedAux delim rest inQuotes false (current ++ [ch]) acc
    else if ch = '\\' then
      splitDelimitedAux delim rest inQuotes true current acc
    else if ch = '"' then
      splitDelimitedAux delim rest (!inQuotes) false (current ++ [ch]) acc
    else if ch = delim ∧ inQuotes = false then
      splitDelimitedAux delim rest inQuotes false [] (acc ++ [trimSpace current])
    else
      splitDelimitedAux delim rest inQuotes false (current ++ [ch]) acc

/-- The `splitDelimited` of `formatting.go`. -/
def splitDelimited (input : Str) (delim : Char) : List Str :=
  splitDelimitedAux delim input false false [] []

/-- Scalar test: Go's `switch v.(type) { case map..., []any: }` fallthrough. -/
def isScalar (v : JValue) : Bool :=
  match v with
  | .obj _ => false
  | .arr _ => false
  | _ => true

/-- The `allPrimitives` of `formatting.go`. -/
def allPrimitives (arr : List JValue) : Bool :=
  arr.all isScalar

/-- The `sameFieldSet` of `formatting.go`. -/
def sameFieldSet (fields : List Str) (obj : List (Str × JValue)) : Bool :=
  fields.length = obj.length &&
  fields.all (fun f => (lookupKey obj f).isSome)

/-- Row-collection loop of `detectTabular`: every remaining element must
be a mapping with the same field set. -/
def collectRows (fields : List Str) : List JValue → Option (List (List (Str × JValue)))
  | [] => some []
  | v :: rest =>
    match v with
    | .obj o =>
      if sameFieldSet fields o then (collectRows fields rest).map (fun t => o :: t)
      else none
    | _ => none

/-- The `detectTabular` of `formatting.go`: all elements are mappings with
one identical key set and only scalar field values. -/
def detectTabular (arr : List JValue) : Option (List Str × List (List (Str × JValue))) :=
  match arr with
  | [] => none
  | first :: rest =>
    match first with
    | .obj f0 =>
      let fields := orderedKeys f0
      match collectRows fields rest with
      | none => none
      | some tailRows =>
        let rows := f0 :: tailRows
        if rows.all (fun row => fields.all (fun f =>
            match lookupKey row f with
            | some w => isScalar w
            | none => false)) then
          some (fields, rows)
        else none
    | _ => none

/-- Join a list of strings with a separator (`strings.Join`). -/
def joinWith (sep : Str) : List Str → Str
  | [] => []
  | [x] => x
  | x :: y :: r => x ++ sep ++ joinWith sep (y :: r)

/-- The `joinPrimitiveArray` of `formatting.go`. -/
def joinPrimitiveArray (arr : List JValue) (delim : Char) : Str :=
  joinWith [delim] (arr.map (fun v => formatPrimitive v delim))

/-- The 2-space indentation of `writeIndent`. -/
def indentStr (depth : Nat) : Str :=
  (List.replicate depth [' ', ' ']).flatten

/-- One rendered tabular row: comma-joined formatted field values. -/
def tabularRowLine (fields : List Str) (row : List (Str × JValue)) (depth : Nat) : Str :=
  indentStr depth ++
  joinWith (strL (",")) (fields.map (fun f =>
    formatPrimitive ((lookupKey row f).getD .null) ',')) ++ strL ("\n")

mutual
/-- The `writeTOON` of `formatting.go` (fuelled). -/
def writeTOONF : Nat → Str → JValue → Nat → Char → Str
  | 0, _, _, _, _ => []
  | fuel + 1, key, value, depth, docDelim =>
    match value with
    | .obj v =>
      (if key ≠ [] then indentStr depth ++ key ++ strL (":") ++ strL ("\n") else []) ++
      writeObjEntriesF fuel (goSortBy Prod.fst v)
        (if key ≠ [] then depth + 1 else depth) docDelim
    | .arr v => writeTOONArrayF fuel key v depth docDelim
    | _ =>
      indentStr depth ++
      (if key ≠ [] then key ++ strL (": ") ++ formatPrimitive value docDelim
       else formatPrimitive value docDelim) ++ strL ("\n")
termination_by structural fuel _ _ _ _ => fuel
/-- The key loop of `writeTOON`'s mapping case: iterate the sorted
bindings (Go iterates `orderedKeys` and indexes the map; on duplicate-free
association lists this is the key-sorted pair list). -/
def writeObjEntriesF : Nat → List (Str × JValue) → Nat → Char → Str
  | 0, _, _, _ => []
  | _ + 1, [], _, _ => []
  | fuel + 1, (k, v) :: rest, depth, docDelim =>
    writeTOONF fuel k v depth docDelim ++ writeObjEntriesF fuel rest depth docDelim
termination_by structural fuel _ _ _ => fuel
/-- The `writeTOONArray` of `formatting.go` (fuelled). -/
def writeTOONArrayF : Nat → Str → List JValue → Nat → Char → Str
  | 0, _, _, _, _ => []
  | fuel + 1, key, arr, depth, docDelim =>
    let length := arr.length
    let det := detectTabular arr
    let headerCore : Str :=
      match det with
      | some (fields, _) =>
        strL ("[") ++ natToStr length ++ strL ("]") ++ [lbr] ++
          joinWith (strL (",")) fields ++ [rbr] ++ strL (":") ++ strL ("\n")
      | none =>
        if allPrimitives arr then
          strL ("[") ++ natToStr length ++ strL ("]: ") ++
            joinPrimitiveArray arr ',' ++ strL ("\n")
        else strL ("[") ++ natToStr length ++ strL ("]:") ++ strL ("\n")
    let headLine := indentStr depth ++ key ++ headerCore
    match det with
    | some (fields, rows) =>
      headLine ++ (rows.map (fun row => tabularRowLine fields row (depth + 1))).flatten
    | none =>
      if allPrimitives arr then headLine
      else headLine ++ writeListEntriesF fuel arr depth docDelim
termination_by structural fuel _ _ _ _ => fuel
/-- The `writeListEntries` of `formatting.go` (fuelled). -/
def writeListEntriesF : Nat → List JValue → Nat → Char → Str
  | 0, _, _, _ => []
  | _ + 1, [], _, _ => []
  | fuel + 1, item :: rest, depth, docDelim =>
    (indentStr (depth + 1) ++
      match item with
      | .obj o => writeListObjectF fuel o depth docDelim
      | .arr a => writeArrayListItemF fuel a depth docDelim
      | _ => strL ("- ") ++ formatPrimitive item docDelim ++ strL ("\n")) ++
    writeListEntriesF fuel rest depth docDelim
termination_by structural fuel _ _ _ => fuel
/-- The `writeListObject` of `formatting.go` (fuelled). -/
def writeListObjectF : Nat → List (Str × JValue) → Nat → Char → Str
  | 0, _, _, _ => []
  | fuel + 1, o, depth, docDelim =>
    if o = [] then strL ("-") ++ strL ("\n")
    else
      match goSortBy Prod.fst o with
      | [] => strL ("-") ++ strL ("\n")
      | (k, v) :: rest =>
        strL ("-") ++ strL (" ") ++ writeInlineFieldF fuel k v depth docDelim ++
        writeListObjRestF fuel rest depth docDelim ++
        strL ("\n")
termination_by structural fuel _ _ _ => fuel
/-- The non-first bindings of `writeListObject`: each rendered on a fresh
line through `writeTOON` at depth+2. -/
def writeListObjRestF : Nat → List (Str × JValue) → Nat → Char → Str
  | 0, _, _, _ => []
  | _ + 1, [], _, _ => []
  | fuel + 1, (k, v) :: rest, depth, docDelim =>
    strL ("\n") ++ writeTOONF fuel k v (depth + 2) docDelim ++
    writeListObjRestF fuel rest depth docDelim
termination_by structural fuel _ _ _ => fuel
/-- The `writeInlineField` of `formatting.go` (fuelled). -/
def writeInlineFieldF : Nat → Str → JValue → Nat → Char → Str
  | 0, _, _, _, _ => []
  | fuel + 1, key, value, depth, docDelim =>
    match value with
    | .obj _ =>
      key ++ strL (":") ++ strL ("\n") ++ writeTOONF fuel [] value (depth + 2) docDelim
    | .arr a => writeFieldArrayInlineF fuel key a (depth + 1) docDelim
    | _ => key ++ strL (": ") ++ formatPrimitive value docDelim
termination_by structural fuel _ _ _ _ => fuel
/-- The `writeFieldArrayInline` of `formatting.go` (fuelled). -/
def writeFieldArrayInlineF : Nat → Str → List JValue → Nat → Char → Str
  | 0, _, _, _, _ => []
  | fuel + 1, key, arr, depth, docDelim =>
    match detectTabular arr with
    | some (fields, rows) =>
      key ++ strL ("[") ++ natToStr arr.length ++ strL ("]") ++ [lbr] ++
        joinWith (strL (",")) fields ++ [rbr] ++ strL (":") ++ strL ("\n") ++
        (rows.map (fun row => tabularRowLine fields row (depth + 1))).flatten
    | none =>
      if allPrimitives arr then
        key ++ strL ("[") ++ natToStr arr.length ++ strL ("]: ") ++
          joinPrimitiveArray arr ','
      else
        key ++ strL ("[") ++ natToStr arr.length ++ strL ("]:") ++ strL ("\n") ++
        writeListEntriesF fuel arr depth docDelim
termination_by structural fuel _ _ _ _ => fuel
/-- The `writeArrayListItem` of `formatting.go` (fuelled). -/
def writeArrayListItemF : Nat → List JValue → Nat → Char → Str
  | 0, _, _, _ => []
  | fuel + 1, arr, depth, docDelim =>
    match detectTabular arr with
    | some (fields, rows) =>
      strL ("- [") ++ natToStr arr.length ++ strL ("]") ++ [lbr] ++
        joinWith (strL (",")) fields ++ [rbr] ++ strL (":") ++ strL ("\n") ++
        (rows.map (fun row => tabularRowLine fields row (depth + 2))).flatten
    | none =>
      if allPrimitives arr then
        strL ("- [") ++ natToStr arr.length ++ strL ("]: ") ++
          joinPrimitiveArray arr ',' ++ strL ("\n")
      else
        strL ("- [") ++ natToStr arr.length ++ strL ("]:") ++ strL ("\n") ++
        writeListEntriesF fuel arr (depth + 1) docDelim
termination_by structural fuel _ _ _ => fuel
end

/-- Trailing-newline trim of `JSONToTOON`
(`strings.TrimRight(builder.String(), "\n")`). -/
def trimRightNl (s : Str) : Str :=
  (s.reverse.dropWhile (fun c => c = '\n')).reverse

/-- Value-level `JSONToTOON`: encode a decoded JSON value as TOON text. -/
def encodeTOON (v : JValue) : Str :=
  trimRightNl (writeTOONF (jsize v + 2) [] v 0 ',')

/-- Go's `strings.ReplaceAll(input, "\r\n", "\n")`. -/
def replaceCRLF : Str → Str
  | [] => []
  | '\r' :: '\n' :: r => '\n' :: replaceCRLF r
  | c :: r => c :: replaceCRLF r

/-- The `countIndent` of `formatting.go`: number of leading two-space
pairs. -/
def countIndent : Str → Nat
  | ' ' :: ' ' :: r => countIndent r + 1
  | _ => 0

/-- One pre-processed input line of the TOON parser (`toonLine`). -/
structure toonLine where
  depth : Nat
  text : Str
  number : Nat
deriving DecidableEq

/-- The `newToonParser` preprocessing: split on newlines, drop blank
lines, record indentation depth, trimmed text and 1-based line number. -/
def newToonLines (input : Str) : List toonLine :=
  ((splitOnCh '\n' (replaceCRLF input)).enum).filterMap (fun p =>
    if trimSpace p.2 = [] then none
    else some (toonLine.mk (countIndent p.2) (trimSpace p.2) (p.1 + 1)))

/-- Go's `strings.Cut(s, ":")` for a single-character separator:
(before, after, found). -/
def cutChar (s : Str) (sep : Char) : Str × Str × Bool :=
  match idxOfChar s sep with
  | none => (s, [], false)
  | some i => (s.take i, s.drop (i + 1), true)

/-- Character class `[A-Za-z0-9._"]` of the header pattern. -/
def headerClassChar (c : Char) : Bool :=
  isUpperGo c || isLowerGo c || isDigitGo c || c = '.' || c = '_' || c = '"'

/-- Occurrence test for the two-character sequence closing-brace colon,
used by the optional brace group of the header pattern. -/
def hasBraceColon : Str → Bool
  | [] => false
  | [_] => false
  | a :: b :: r => (a = rbr && b = ':') || hasBraceColon (b :: r)

/-- Matcher for the `headerRegex` of `formatting.go`,
`^[A-Za-z0-9._"]*\[\d+[|\t]?\](?:\{.*\})?:`.  The leading class excludes
`[`, and the digit run excludes `|`, tab and `]`, so the greedy scans
below are exact; the optional brace group with its greedy `.*` matches
iff a `{` follows the bracket and the sequence brace-colon occurs later
in the line. -/
def headerRegexMatch (s : Str) : Bool :=
  match s.dropWhile headerClassChar with
  | '[' :: r1 =>
    if (r1.takeWhile isDigitGo) = [] then false
    else
      match (match r1.dropWhile isDigitGo with
             | '|' :: t => t
             | '\t' :: t => t
             | t => t) with
      | ']' :: r4 =>
        match r4 with
        | ':' :: _ => true
        | c :: r5 => c = lbr && hasBraceColon r5
        | [] => false
      | _ => false
  | _ => false

/-- Row construction of the tabular branch of `parseHeader`: map
assignments `row[field] = parsePrimitiveToken(values[idx])` in field
order. -/
def buildRow (fields values : List Str) : List (Str × JValue) :=
  (fields.zip values).foldl
    (fun m kv => mapInsert kv.1 (parsePrimitiveToken kv.2) m) []

/-- The bounded row-reading loop of the tabular branch of `parseHeader`:
`for i := 0; i < length && p.idx < len(p.lines); i++`, checking the row
depth and the delimited-value count against the declared field count. -/
def parseRows (lines : List toonLine) (fields : List Str) (delim : Char)
    (depth : Nat) : Nat → Nat → List (List (Str × JValue)) →
    Except Str (List (List (Str × JValue)) × Nat)
  | 0, idx, acc => .ok (acc, idx)
  | count + 1, idx, acc =>
    match lines[idx]? with
    | none => .ok (acc, idx)
    | some rowLine =>
      if rowLine.depth ≠ depth + 1 then
        .error (strL ("expected row at line ") ++ natToStr rowLine.number)
      else
        let values := splitDelimited rowLine.text delim
        if values.length ≠ fields.length then
          .error (strL ("row width mismatch near line ") ++ natToStr rowLine.number)
        else
          parseRows lines fields delim depth count (idx + 1)
            (acc ++ [buildRow fields values])

mutual
/-- The `parseObject` loop of `formatting.go` (fuelled; `acc` is the
result map under construction, the returned `Nat` is the parser index). -/
def parseObjectF (lines : List toonLine) :
    Nat → Nat → Nat → List (Str × JValue) →
    Except Str (List (Str × JValue) × Nat)
  | 0, _, _, _ => .error (strL ("fuel exhausted"))
  | fuel + 1, depth, idx, acc =>
    match lines[idx]? with
    | none => .ok (acc, idx)
    | some line =>
      if line.depth < depth then .ok (acc, idx)
      else if line.depth > depth then
        .error (strL ("unexpected indentation near line ") ++ natToStr line.number)
      else if strHasPre line.text (strL ("[")) then .ok (acc, idx)
      else
        match cutChar line.text ':' with
        | (_, _, false) =>
          .error (strL ("expected key on line ") ++ natToStr line.number)
        | (key0, rest, true) =>
          let key := trimSpace key0
          let value := trimSpace rest
          if headerRegexMatch line.text then
            match parseHeaderF lines fuel depth idx with
            | .error e => .error e
            | .ok (arr, idx') =>
              parseObjectF lines fuel depth idx' (mapInsert key arr acc)
          else if value = [] then
            match parseObjectF lines fuel (depth + 1) (idx + 1) [] with
            | .error e => .error e
            | .ok (nested, idx') =>
              parseObjectF lines fuel depth idx' (mapInsert key (.obj nested) acc)
          else
            parseObjectF lines fuel depth (idx + 1)
              (mapInsert key (parsePrimitiveToken value) acc)
termination_by structural fuel _ _ _ => fuel
/-- The `parseHeader` of `formatting.go` (fuelled).  The parser only calls
it with the index on an existing line; the `none` branch is an artifact
of the embedding. -/
def parseHeaderF (lines : List toonLine) :
    Nat → Nat → Nat → Except Str (JValue × Nat)
  | 0, _, _ => .error (strL ("fuel exhausted"))
  | fuel + 1, depth, idx0 =>
    match lines[idx0]? with
    | none => .error (strL ("invalid header"))
    | some line =>
      let idx := idx0 + 1
      let text := line.text
      let cut := cutChar text ':'
      let inline := trimSpace cut.2.1
      let header := cut.1
      match idxOfChar header '[' with
      | none => .error (strL ("invalid header on line ") ++ natToStr line.number)
      | some bracketStart =>
        let bracket0 := header.drop bracketStart
        let bracket := match idxOfChar bracket0 lbr with
          | some i => bracket0.take i
          | none => bracket0
        let brace := match idxOfChar bracket0 lbr with
          | some i => bracket0.drop i
          | none => []
        let lengthText := trimCutset bracket (strL ("[]\t|"))
        match parseIntGo lengthText with
        | none => .error (strL ("invalid length on line ") ++ natToStr line.number)
        | some length =>
          let delimiter := if containsChar header '\t' then '\t'
            else if containsChar header '|' then '|' else ','
          if inline ≠ [] then
            .ok (.arr ((splitDelimited inline delimiter).map parsePrimitiveToken),
              idx)
          else if brace ≠ [] then
            let fieldList := trimCutset brace [lbr, rbr]
            let fields := splitDelimited fieldList delimiter
            match parseRows lines fields delimiter depth length.toNat idx [] with
            | .error e => .error e
            | .ok (rows, idx') => .ok (.arr (rows.map .obj), idx')
          else
            match parseItemsF lines fuel depth idx [] with
            | .error e => .error e
            | .ok (items, idx') => .ok (.arr items, idx')
termination_by structural fuel _ _ => fuel
/-- The unbounded list-item loop at the end of `parseHeader` (fuelled).
In the nested-header sub-case Go decrements the index and re-enters
`parseHeader` on the full item line, dash prefix included. -/
def parseItemsF (lines : List toonLine) :
    Nat → Nat → Nat → List JValue → Except Str (List JValue × Nat)
  | 0, _, _, _ => .error (strL ("fuel exhausted"))
  | fuel + 1, depth, idx, acc =>
    match lines[idx]? with
    | none => .ok (acc, idx)
    | some itemLine =>
      if itemLine.depth < depth + 1 then .ok (acc, idx)
      else if itemLine.depth > depth + 1 then
        .error (strL ("unexpected indentation in list near line ") ++
          natToStr itemLine.number)
      else if !strHasPre itemLine.text (strL ("-")) then .ok (acc, idx)
      else
        let content := trimSpace (trimPre itemLine.text (strL ("-")))
        if content = [] then
          parseItemsF lines fuel depth (idx + 1) (acc ++ [.obj []])
        else if containsChar content ':' then
          let cut := cutChar content ':'
          let subKey := trimSpace cut.1
          let rest := trimSpace cut.2.1
          if rest = [] then
            match parseObjectF lines fuel (depth + 2) (idx + 1) [] with
            | .error e => .error e
            | .ok (o, idx') =>
              parseItemsF lines fuel depth idx' (acc ++ [.obj [(subKey, .obj o)]])
          else
            parseItemsF lines fuel depth (idx + 1)
              (acc ++ [.obj [(subKey, parsePrimitiveToken rest)]])
        else if headerRegexMatch content then
          match parseHeaderF lines fuel (depth + 1) idx with
          | .error e => .error e
          | .ok (arr, idx') => parseItemsF lines fuel depth idx' (acc ++ [arr])
        else
          parseItemsF lines fuel depth (idx + 1)
            (acc ++ [parsePrimitiveToken content])
termination_by structural fuel _ _ _ => fuel
end

/-- The `parse` of `formatting.go`: value-level `TOONToJSON` front end
(the trailing `json.MarshalIndent` renders the returned value). -/
def toonParse (input : Str) : Except Str JValue :=
  let lines := newToonLines input
  match lines[0]? with
  | none => .ok (.obj [])
  | some line =>
    if strHasPre line.text (strL ("[")) then
      match parseHeaderF lines (lines.length + 1) 0 0 with
      | .error e => .error e
      | .ok (v, _) => .ok v
    else if ¬containsChar line.text ':' ∧ lines.length = 1 then
      .ok (parsePrimitiveToken line.text)
    else
      match parseObjectF lines (lines.length + 1) 0 0 [] with
      | .error e => .error e
      | .ok (m, _) => .ok (.obj m)

/-!
## String lemmas for the TOON round-trip arguments
-/

theorem splitOnCh_no_sep {sep : Char} : ∀ {A : Str}, sep ∉ A →
    splitOnCh sep A = [A] := by
  intro A
  induction A with
  | nil => intro _; rfl
  | cons c r ih =>
    intro h
    have hc : ¬(c = sep) := fun he => h (he ▸ List.mem_cons_self c r)
    have hr : sep ∉ r := fun hm => h (List.mem_cons_of_mem _ hm)
    simp only [splitOnCh, if_neg hc, ih hr]

theorem splitOnCh_append_sep {sep : Char} : ∀ {A : Str} (B : Str), sep ∉ A →
    splitOnCh sep (A ++ sep :: B) = A :: splitOnCh sep B := by
  intro A
  induction A with
  | nil => intro B _; simp [splitOnCh]
  | cons c r ih =>
    intro B h
    have hc : ¬(c = sep) := fun he => h (he ▸ List.mem_cons_self c r)
    have hr : sep ∉ r := fun hm => h (List.mem_cons_of_mem _ hm)
    simp only [List.cons_append, splitOnCh, if_neg hc, List.append_eq]
    rw [ih B hr]

theorem replaceCRLF_id : ∀ {s : Str}, '\r' ∉ s → replaceCRLF s = s := by
  intro s
  induction s with
  | nil => intro _; rfl
  | cons c r ih =>
    intro h
    have hc : ¬(c = '\r') := fun he => h (he ▸ List.mem_cons_self c r)
    have hr := ih (fun hm => h (List.mem_cons_of_mem _ hm))
    rw [replaceCRLF.eq_def]
    split
    · rename_i heq
      exact absurd heq (by simp)
    · rename_i t heq
      injection heq with h1 _
      exact absurd h1 hc
    · rename_i c2 r2 hnc heq
      injection heq with h1 h2
      subst h1
      rw [← h2, hr]

theorem dropWhile_id_of_head {p : Char → Bool} : ∀ {s : Str},
    (∀ h, s.head? = some h → p h = false) → s.dropWhile p = s := by
  intro s h
  cases s with
  | nil => rfl
  | cons c r =>
    have := h c rfl
    simp [List.dropWhile, this]

theorem trimSpace_id {s : Str}
    (h1 : ∀ h, s.head? = some h → isSpaceGo h = false)
    (h2 : ∀ h, s.getLast? = some h → isSpaceGo h = false) :
    trimSpace s = s := by
  unfold trimSpace
  rw [dropWhile_id_of_head h1]
  rw [dropWhile_id_of_head (p := isSpaceGo) ?_]
  · exact List.reverse_reverse s
  · intro h hh
    apply h2
    rwa [List.head?_reverse] at hh

theorem trimSpace_two_space {c : Str}
    (h1 : ∀ h, c.head? = some h → isSpaceGo h = false)
    (h2 : ∀ h, c.getLast? = some h → isSpaceGo h = false) :
    trimSpace (' ' :: ' ' :: c) = c := by
  unfold trimSpace
  have hd : (' ' :: ' ' :: c).dropWhile isSpaceGo = c.dropWhile isSpaceGo := by
    simp [List.dropWhile, isSpaceGo]
  rw [hd, dropWhile_id_of_head h1]
  rw [dropWhile_id_of_head (p := isSpaceGo) ?_]
  · exact List.reverse_reverse c
  · intro h hh
    apply h2
    rwa [List.head?_reverse] at hh

theorem countIndent_zero {c : Str}
    (h : ∀ h, c.head? = some h → h ≠ ' ') : countIndent c = 0 := by
  rw [countIndent.eq_def]
  split
  · exact absurd rfl (h ' ' rfl)
  · rfl

theorem countIndent_two_space (c : Str)
    (h : ∀ h, c.head? = some h → h ≠ ' ') :
    countIndent (' ' :: ' ' :: c) = 1 := by
  have h0 : countIndent c = 0 := countIndent_zero h
  have hstep : countIndent (' ' :: ' ' :: c) = countIndent c + 1 := rfl
  rw [hstep, h0]

theorem idxOfChar_append {ch : Char} : ∀ {A : Str} (B : Str), ch ∉ A →
    idxOfChar (A ++ ch :: B) ch = some A.length := by
  intro A
  induction A with
  | nil => intro B _; simp [idxOfChar]
  | cons c r ih =>
    intro B h
    have hc : ¬(c = ch) := fun he => h (he ▸ List.mem_cons_self c r)
    have hr : ch ∉ r := fun hm => h (List.mem_cons_of_mem _ hm)
    have e : (c :: r) ++ ch :: B = c :: (r ++ ch :: B) := rfl
    rw [e]
    show (if c = ch then some 0 else (idxOfChar (r ++ ch :: B) ch).map (fun x => x + 1))
      = some (c :: r).length
    rw [if_neg hc, ih B hr]
    rfl

theorem idxOfChar_not_mem {ch : Char} : ∀ {A : Str}, ch ∉ A →
    idxOfChar A ch = none := by
  intro A
  induction A with
  | nil => intro _; rfl
  | cons c r ih =>
    intro h
    have hc : ¬(c = ch) := fun he => h (he ▸ List.mem_cons_self c r)
    have hr : ch ∉ r := fun hm => h (List.mem_cons_of_mem _ hm)
    simp [idxOfChar, hc, ih hr]

theorem cutChar_append {ch : Char} {A : Str} (B : Str) (h : ch ∉ A) :
    cutChar (A ++ ch :: B) ch = (A, B, true) := by
  have h1 : (A ++ ch :: B).take A.length = A := List.take_left A (ch :: B)
  have h2 : (A ++ ch :: B).drop (A.length + 1) = B := by
    have e1 : A ++ ch :: B = (A ++ [ch]) ++ B := by simp
    have e2 : A.length + 1 = (A ++ [ch]).length := by simp
    rw [e1, e2, List.drop_left]
  unfold cutChar
  rw [idxOfChar_append B h]
  show ((A ++ ch :: B).take A.length, (A ++ ch :: B).drop (A.length + 1), true) = (A, B, true)
  rw [h1, h2]

theorem cutChar_not_mem {ch : Char} {A : Str} (h : ch ∉ A) :
    cutChar A ch = (A, [], false) := by
  unfold cutChar
  rw [idxOfChar_not_mem h]

/-- C10: for every input whose lines (after CRLF normalisation and
splitting on newlines) are all blank or whitespace-only — including the
empty input — `TOONToJSON` succeeds and returns the empty object. -/
theorem C10_blank_input_empty_object (s : Str)
    (h : ∀ l ∈ splitOnCh '\n' (replaceCRLF s), trimSpace l = []) :
    toonParse s = .ok (.obj []) := by
  have hlines : newToonLines s = [] := by
    unfold newToonLines
    apply List.filterMap_eq_nil_iff.mpr
    intro p hp
    have hmem : p.2 ∈ splitOnCh '\n' (replaceCRLF s) := by
      have e := List.enum_map_snd (splitOnCh '\n' (replaceCRLF s))
      rw [← e]
      exact List.mem_map_of_mem _ hp
    simp [h p.2 hmem]
  unfold toonParse
  rw [hlines]
  rfl

theorem C10_blank_input_empty_object_witness :
    (∀ l ∈ splitOnCh '\n' (replaceCRLF (strL ("  \n\t\n "))), trimSpace l = []) ∧
    toonParse (strL ("  \n\t\n ")) = .ok (.obj []) :=
  ⟨by decide, C10_blank_input_empty_object _ (by decide)⟩

theorem digitChar_isDigit {m : Nat} (h : m < 10) : isDigitGo (digitChar m) = true := by
  interval_cases m <;> decide

theorem digitVal_digitChar {m : Nat} (h : m < 10) : digitVal (digitChar m) = m := by
  interval_cases m <;> decide

theorem natToStrAux_spec : ∀ fuel n, n < fuel →
    natToStrAux fuel n ≠ [] ∧ (natToStrAux fuel n).all isDigitGo = true ∧
      (natToStrAux fuel n).foldl (fun acc c => acc * 10 + digitVal c) 0 = n := by
  intro fuel
  induction fuel with
  | zero => intro n h; omega
  | succ f ih =>
    intro n h
    have e0 : natToStrAux (f + 1) n = if n < 10 then [digitChar n]
        else natToStrAux f (n / 10) ++ [digitChar (n % 10)] := rfl
    by_cases h10 : n < 10
    · have e : natToStrAux (f + 1) n = [digitChar n] := by
        rw [e0, if_pos h10]
      rw [e]
      refine ⟨by simp, ?_, ?_⟩
      · simp [digitChar_isDigit h10]
      · simp [List.foldl, digitVal_digitChar h10]
    · have e : natToStrAux (f + 1) n
          = natToStrAux f (n / 10) ++ [digitChar (n % 10)] := by
        rw [e0, if_neg h10]
      have hlt : n / 10 < f := by omega
      obtain ⟨hne, hall, hval⟩ := ih (n / 10) hlt
      have hm : n % 10 < 10 := Nat.mod_lt _ (by norm_num)
      rw [e]
      refine ⟨by simp, ?_, ?_⟩
      · rw [List.all_append, hall]
        simp [digitChar_isDigit hm]
      · rw [List.foldl_append, hval]
        simp [List.foldl, digitVal_digitChar hm]
        omega

theorem natToStr_ne_nil (n : Nat) : natToStr n ≠ [] :=
  (natToStrAux_spec (n + 1) n (Nat.lt_succ_self n)).1

theorem natToStr_all_digits (n : Nat) : (natToStr n).all isDigitGo = true :=
  (natToStrAux_spec (n + 1) n (Nat.lt_succ_self n)).2.1

theorem natToStr_mem_digit {n : Nat} {c : Char} (h : c ∈ natToStr n) :
    isDigitGo c = true :=
  List.all_eq_true.mp (natToStr_all_digits n) _ h

theorem natToStr_val (n : Nat) :
    (natToStr n).foldl (fun acc c => acc * 10 + digitVal c) 0 = n :=
  (natToStrAux_spec (n + 1) n (Nat.lt_succ_self n)).2.2

theorem parseNatDigits_natToStr (n : Nat) :
    parseNatDigits (natToStr n) = some n := by
  unfold parseNatDigits
  rw [if_neg (natToStr_ne_nil n)]
  simp [natToStr_all_digits n, natToStr_val n]

theorem digit_ne {c : Char} (x : Char) (h : isDigitGo c = true)
    (hx : isDigitGo x = false) : c ≠ x := by
  intro he
  rw [he] at h
  simp [h] at hx

theorem containsChar_false {s : Str} {c : Char} (h : ∀ x ∈ s, x ≠ c) :
    containsChar s c = false := by
  simp [containsChar]
  intro x hx
  exact h x hx

theorem parseIntGo_natToStr {n : Nat} (h : n < 2 ^ 63) :
    parseIntGo (natToStr n) = some (n : Int) := by
  rw [parseIntGo.eq_def]
  split
  · rename_i r heq
    exfalso
    have hm : '-' ∈ natToStr n := by rw [heq]; exact List.mem_cons_self _ _
    exact absurd (natToStr_mem_digit hm) (by decide)
  · rename_i r heq
    exfalso
    have hm : '+' ∈ natToStr n := by rw [heq]; exact List.mem_cons_self _ _
    exact absurd (natToStr_mem_digit hm) (by decide)
  · rename_i r hne1 hne2
    rw [parseNatDigits_natToStr]
    simp
    omega

theorem trimCutset_wrap (a b : Char) (inn cutset : Str)
    (ha : containsChar cutset a = true) (hb : containsChar cutset b = true)
    (hne : inn ≠ [])
    (hh : ∀ c, inn.head? = some c → containsChar cutset c = false)
    (hl : ∀ c, inn.getLast? = some c → containsChar cutset c = false) :
    trimCutset (a :: (inn ++ [b])) cutset = inn := by
  unfold trimCutset
  have e1 : (a :: (inn ++ [b])).dropWhile (fun c => containsChar cutset c)
      = inn ++ [b] := by
    rw [List.dropWhile_cons]
    rw [if_pos ha]
    apply dropWhile_id_of_head
    intro c hc
    apply hh
    cases inn with
    | nil => exact absurd rfl hne
    | cons x t => simpa using hc
  rw [e1]
  have e2 : (inn ++ [b]).reverse = b :: inn.reverse := by simp
  rw [e2, List.dropWhile_cons, if_pos hb]
  rw [dropWhile_id_of_head ?_]
  · exact List.reverse_reverse inn
  · intro c hc
    apply hl
    rwa [List.head?_reverse] at hc

/-- The header portion before the colon of a tabular TOON block,
`[N]` followed by the brace group. -/
def tabularHeaderCore (n : Nat) (inner : Str) : Str :=
  '[' :: (natToStr n ++ ']' :: lbr :: (inner ++ [rbr]))

/-- A full tabular header line `[N]` brace group colon. -/
def tabularHeaderLine (n : Nat) (inner : Str) : Str :=
  tabularHeaderCore n inner ++ [':']

/-- The data rows of a tabular block: each row text indented by two
spaces, rows separated by newlines. -/
def rowBlock : List Str → Str
  | [] => []
  | [r] => ' ' :: ' ' :: r
  | r :: rest => ' ' :: ' ' :: (r ++ '\n' :: rowBlock rest)

/-- A complete tabular TOON text: header line, newline, data rows. -/
def tabularText (n : Nat) (inner : Str) (rows : List Str) : Str :=
  tabularHeaderLine n inner ++ '\n' :: rowBlock rows

/-- The pre-processed lines the TOON parser sees for `tabularText`. -/
def tabularLines (n : Nat) (inner : Str) (rows : List Str) : List toonLine :=
  toonLine.mk 0 (tabularHeaderLine n inner) 1 ::
    (List.enumFrom 1 rows).map (fun p => toonLine.mk 1 p.2 (p.1 + 1))

theorem not_mem_headerCore {n : Nat} {inner : Str} {x : Char}
    (hx : isDigitGo x = false) (hin : x ∉ inner)
    (h1 : x ≠ '[') (h2 : x ≠ ']') (h3 : x ≠ lbr) (h4 : x ≠ rbr) :
    x ∉ tabularHeaderCore n inner := by
  intro hmem
  simp only [tabularHeaderCore, List.mem_cons, List.mem_append] at hmem
  rcases hmem with h | h
  · exact h1 h
  rcases h with h | h
  · exact absurd (natToStr_mem_digit h) (by rw [hx]; exact Bool.false_ne_true)
  rcases h with h | h
  · exact h2 h
  rcases h with h | h
  · exact h3 h
  rcases h with h | h
  · exact hin h
  rcases h with h | h
  · exact h4 h
  · cases h

theorem not_mem_headerLine {n : Nat} {inner : Str} {x : Char}
    (hx : isDigitGo x = false) (hin : x ∉ inner)
    (h1 : x ≠ '[') (h2 : x ≠ ']') (h3 : x ≠ lbr) (h4 : x ≠ rbr) (h5 : x ≠ ':') :
    x ∉ tabularHeaderLine n inner := by
  intro hmem
  simp only [tabularHeaderLine, List.mem_append, List.mem_cons,
    List.not_mem_nil, or_false] at hmem
  rcases hmem with h | h
  · exact not_mem_headerCore hx hin h1 h2 h3 h4 h
  · exact h5 h

theorem mem_rowBlock : ∀ {rows : List Str} {c : Char}, c ∈ rowBlock rows →
    c = ' ' ∨ c = '\n' ∨ ∃ r ∈ rows, c ∈ r := by
  intro rows
  induction rows with
  | nil => intro c h; cases h
  | cons r rest ih =>
    intro c h
    cases rest with
    | nil =>
      simp only [show rowBlock [r] = ' ' :: ' ' :: r from rfl, List.mem_cons] at h
      rcases h with h | h | h
      · exact Or.inl h
      · exact Or.inl h
      · exact Or.inr (Or.inr ⟨r, List.mem_cons_self _ _, h⟩)
    | cons r2 rest2 =>
      rw [show rowBlock (r :: r2 :: rest2)
          = ' ' :: ' ' :: (r ++ '\n' :: rowBlock (r2 :: rest2)) from rfl] at h
      simp only [List.mem_cons, List.mem_append] at h
      rcases h with h | h | h
      · exact Or.inl h
      · exact Or.inl h
      rcases h with h | h
      · exact Or.inr (Or.inr ⟨r, List.mem_cons_self _ _, h⟩)
      rcases h with h | h
      · exact Or.inr (Or.inl h)
      · rcases ih h with h' | h' | ⟨r', hr', hc⟩
        · exact Or.inl h'
        · exact Or.inr (Or.inl h')
        · exact Or.inr (Or.inr ⟨r', List.mem_cons_of_mem _ hr', hc⟩)

theorem rowBlock_splitOnCh : ∀ (rows : List Str), rows ≠ [] →
    (∀ r ∈ rows, '\n' ∉ r) →
    splitOnCh '\n' (rowBlock rows) = rows.map (fun r => ' ' :: ' ' :: r) := by
  intro rows
  induction rows with
  | nil => intro h _; exact absurd rfl h
  | cons r rest ih =>
    intro _ h
    have hr : '\n' ∉ ' ' :: ' ' :: r := by
      simp only [List.mem_cons]
      push_neg
      exact ⟨by decide, by decide, h r (List.mem_cons_self _ _)⟩
    cases rest with
    | nil =>
      rw [show rowBlock [r] = ' ' :: ' ' :: r from rfl]
      rw [splitOnCh_no_sep hr]
      rfl
    | cons r2 rest2 =>
      have e : rowBlock (r :: r2 :: rest2)
          = (' ' :: ' ' :: r) ++ '\n' :: rowBlock (r2 :: rest2) := by
        rw [show rowBlock (r :: r2 :: rest2)
            = ' ' :: ' ' :: (r ++ '\n' :: rowBlock (r2 :: rest2)) from rfl]
        simp
      rw [e, splitOnCh_append_sep _ hr,
        ih (by simp) (fun x hx => h x (List.mem_cons_of_mem _ hx))]
      rfl

theorem head_ne_space {r : Str}
    (hh : ∀ c, r.head? = some c → isSpaceGo c = false) :
    ∀ c, r.head? = some c → c ≠ ' ' := by
  intro c hc he
  have := hh c hc
  rw [he] at this
  exact absurd this (by decide)

theorem filterMap_pad_rows : ∀ (rows : List Str) (k : Nat),
    (∀ r ∈ rows, r ≠ [] ∧ (∀ c, r.head? = some c → isSpaceGo c = false) ∧
      (∀ c, r.getLast? = some c → isSpaceGo c = false)) →
    (List.enumFrom k (rows.map (fun r => ' ' :: ' ' :: r))).filterMap
      (fun p => if trimSpace p.2 = [] then none
        else some (toonLine.mk (countIndent p.2) (trimSpace p.2) (p.1 + 1)))
    = (List.enumFrom k rows).map (fun p => toonLine.mk 1 p.2 (p.1 + 1)) := by
  intro rows
  induction rows with
  | nil => intro k _; rfl
  | cons r rest ih =>
    intro k h
    obtain ⟨hne, hh, hl⟩ := h r (List.mem_cons_self _ _)
    have ht : trimSpace (' ' :: ' ' :: r) = r := trimSpace_two_space hh hl
    have hci : countIndent (' ' :: ' ' :: r) = 1 :=
      countIndent_two_space r (head_ne_space hh)
    simp only [List.map_cons, List.enumFrom, List.filterMap_cons, ht, hci]
    rw [if_neg hne]
    rw [ih (k + 1) (fun x hx => h x (List.mem_cons_of_mem _ hx))]

theorem tabular_newToonLines (n : Nat) (inner : Str) (rows : List Str)
    (hinner : ∀ c ∈ inner, c ≠ '\n' ∧ c ≠ '\r')
    (hrows_ne : rows ≠ [])
    (hrows : ∀ r ∈ rows, r ≠ [] ∧ (∀ c ∈ r, c ≠ '\n' ∧ c ≠ '\r') ∧
      (∀ c, r.head? = some c → isSpaceGo c = false) ∧
      (∀ c, r.getLast? = some c → isSpaceGo c = false)) :
    newToonLines (tabularText n inner rows) = tabularLines n inner rows := by
  have hnl : '\n' ∉ tabularHeaderLine n inner :=
    not_mem_headerLine (by decide) (fun hm => (hinner _ hm).1 rfl)
      (by decide) (by decide) (by decide) (by decide) (by decide)
  have hcr : '\r' ∉ tabularText n inner rows := by
    intro hm
    simp only [tabularText, List.mem_append, List.mem_cons] at hm
    rcases hm with hm | hm
    · exact not_mem_headerLine (by decide) (fun hmi => (hinner _ hmi).2 rfl)
        (by decide) (by decide) (by decide) (by decide) (by decide) hm
    rcases hm with hm | hm
    · exact absurd hm (by decide)
    · rcases mem_rowBlock hm with h' | h' | ⟨r', hr', hc⟩
      · exact absurd h' (by decide)
      · exact absurd h' (by decide)
      · exact ((hrows r' hr').2.1 _ hc).2 rfl
  have hsplit : splitOnCh '\n' (replaceCRLF (tabularText n inner rows))
      = tabularHeaderLine n inner :: rows.map (fun r => ' ' :: ' ' :: r) := by
    rw [replaceCRLF_id hcr]
    unfold tabularText
    rw [splitOnCh_append_sep _ hnl,
      rowBlock_splitOnCh rows hrows_ne
        (fun r hr hm => ((hrows r hr).2.1 _ hm).1 rfl)]
  have hhead : (tabularHeaderLine n inner).head? = some '[' := by
    simp [tabularHeaderLine, tabularHeaderCore]
  have hlast : (tabularHeaderLine n inner).getLast? = some ':' := by
    simp [tabularHeaderLine]
  have hth : trimSpace (tabularHeaderLine n inner) = tabularHeaderLine n inner := by
    apply trimSpace_id
    · intro c hc; rw [hhead] at hc; injection hc with e; rw [← e]; decide
    · intro c hc; rw [hlast] at hc; injection hc with e; rw [← e]; decide
  have hne : tabularHeaderLine n inner ≠ [] := by
    simp [tabularHeaderLine]
  have hci : countIndent (tabularHeaderLine n inner) = 0 := by
    apply countIndent_zero
    intro c hc; rw [hhead] at hc; injection hc with e; rw [← e]; decide
  unfold newToonLines
  rw [hsplit]
  have henum : (tabularHeaderLine n inner :: rows.map (fun r => ' ' :: ' ' :: r)).enum
      = (0, tabularHeaderLine n inner)
        :: List.enumFrom 1 (rows.map (fun r => ' ' :: ' ' :: r)) := rfl
  rw [henum]
  have hf : (fun (p : Nat × Str) => if trimSpace p.2 = [] then none
      else some (toonLine.mk (countIndent p.2) (trimSpace p.2) (p.1 + 1)))
      (0, tabularHeaderLine n inner)
      = some (toonLine.mk 0 (tabularHeaderLine n inner) 1) := by
    simp only [hth, hci]
    rw [if_neg hne]
  simp only [List.filterMap_cons, hf]
  rw [filterMap_pad_rows rows 1
    (fun r hr => ⟨(hrows r hr).1, (hrows r hr).2.2.1, (hrows r hr).2.2.2⟩)]
  rfl

theorem head?_mem {l : Str} {a : Char} (h : l.head? = some a) : a ∈ l := by
  cases l with
  | nil => cases h
  | cons x t =>
    injection h with e
    rw [← e]
    exact List.mem_cons_self _ _

theorem getLast?_mem {l : Str} {a : Char} (h : l.getLast? = some a) : a ∈ l := by
  rw [← List.head?_reverse] at h
  exact List.mem_reverse.mp (head?_mem h)

theorem digit_cutset_false {c : Char} (h : isDigitGo c = true) :
    containsChar (strL ("[]\t|")) c = false := by
  apply containsChar_false
  intro x hx he
  rw [he] at hx
  rw [show strL ("[]\t|") = ['[', ']', '\t', '|'] from rfl] at hx
  simp at hx
  rcases hx with h' | h' | h' | h' <;> (rw [h'] at h; exact absurd h (by decide))

theorem parseHeaderF_tabular (n : Nat) (inner : Str) (rows : List Str) (fuel : Nat)
    (hn2 : n < 2 ^ 63)
    (hinner_ne : inner ≠ [])
    (hinner : ∀ c ∈ inner, c ≠ ':' ∧ c ≠ lbr ∧ c ≠ rbr ∧ c ≠ '\n' ∧ c ≠ '\r' ∧
      c ≠ '\t' ∧ c ≠ '|') :
    parseHeaderF (tabularLines n inner rows) (fuel + 1) 0 0 =
      match parseRows (tabularLines n inner rows) (splitDelimited inner ',') ',' 0
          n 1 [] with
      | .error e => .error e
      | .ok (rs, idx2) => .ok (.arr (rs.map .obj), idx2) := by
  have hcolon : ':' ∉ tabularHeaderCore n inner :=
    not_mem_headerCore (by decide) (fun hm => (hinner _ hm).1 rfl)
      (by decide) (by decide) (by decide) (by decide)
  have hcut : cutChar (tabularHeaderLine n inner) ':' =
      (tabularHeaderCore n inner, [], true) := by
    have e : tabularHeaderLine n inner = tabularHeaderCore n inner ++ ':' :: [] := rfl
    rw [e, cutChar_append [] hcolon]
  have hidx0 : idxOfChar (tabularHeaderCore n inner) '[' = some 0 := by
    simp [tabularHeaderCore, idxOfChar]
  have hsplitCore : tabularHeaderCore n inner
      = ('[' :: (natToStr n ++ [']'])) ++ lbr :: (inner ++ [rbr]) := by
    simp [tabularHeaderCore]
  have hlbrA : lbr ∉ '[' :: (natToStr n ++ [']']) := by
    intro hm
    simp only [List.mem_cons, List.mem_append, List.not_mem_nil, or_false] at hm
    rcases hm with h | h | h
    · exact absurd h (by decide)
    · exact absurd (natToStr_mem_digit h) (by decide)
    · exact absurd h (by decide)
  have hidxbr : idxOfChar (tabularHeaderCore n inner) lbr
      = some ((natToStr n).length + 2) := by
    rw [hsplitCore, idxOfChar_append _ hlbrA]
    simp
  have hlenA : (natToStr n).length + 2 = ('[' :: (natToStr n ++ [']'])).length := by
    simp
  have htake : (tabularHeaderCore n inner).take ((natToStr n).length + 2)
      = '[' :: (natToStr n ++ [']']) := by
    rw [hsplitCore, hlenA, List.take_left]
  have hdrop : (tabularHeaderCore n inner).drop ((natToStr n).length + 2)
      = lbr :: (inner ++ [rbr]) := by
    rw [hsplitCore, hlenA, List.drop_left]
  have htrimA : trimCutset ('[' :: (natToStr n ++ [']'])) (strL ("[]\t|"))
      = natToStr n := by
    have e : ('[' : Char) :: (natToStr n ++ [']'])
        = '[' :: (natToStr n ++ [']']) := rfl
    apply trimCutset_wrap
    · decide
    · decide
    · exact natToStr_ne_nil n
    · intro c hc; exact digit_cutset_false (natToStr_mem_digit (head?_mem hc))
    · intro c hc; exact digit_cutset_false (natToStr_mem_digit (getLast?_mem hc))
  have hparse : parseIntGo (natToStr n) = some (n : Int) := parseIntGo_natToStr hn2
  have hnottab : '\t' ∉ tabularHeaderCore n inner :=
    not_mem_headerCore (by decide) (fun hm => (hinner _ hm).2.2.2.2.2.1 rfl)
      (by decide) (by decide) (by decide) (by decide)
  have hnotpipe : '|' ∉ tabularHeaderCore n inner :=
    not_mem_headerCore (by decide) (fun hm => (hinner _ hm).2.2.2.2.2.2 rfl)
      (by decide) (by decide) (by decide) (by decide)
  have htab : containsChar (tabularHeaderCore n inner) '\t' = false :=
    containsChar_false (fun x hx he => hnottab (he ▸ hx))
  have hpipe : containsChar (tabularHeaderCore n inner) '|' = false :=
    containsChar_false (fun x hx he => hnotpipe (he ▸ hx))
  have hbrace_trim : trimCutset (lbr :: (inner ++ [rbr])) [lbr, rbr] = inner := by
    apply trimCutset_wrap
    · decide
    · decide
    · exact hinner_ne
    · intro c hc
      apply containsChar_false
      intro x hx he
      have hcp := hinner c (head?_mem hc)
      simp only [List.mem_cons, List.not_mem_nil, or_false] at hx
      rcases hx with h | h
      · exact hcp.2.1 (by rw [← he, h])
      · exact hcp.2.2.1 (by rw [← he, h])
    · intro c hc
      apply containsChar_false
      intro x hx he
      have hcp := hinner c (getLast?_mem hc)
      simp only [List.mem_cons, List.not_mem_nil, or_false] at hx
      rcases hx with h | h
      · exact hcp.2.1 (by rw [← he, h])
      · exact hcp.2.2.1 (by rw [← he, h])
  have hL0 : (tabularLines n inner rows)[0]?
      = some (toonLine.mk 0 (tabularHeaderLine n inner) 1) := by
    simp [tabularLines]
  simp only [parseHeaderF, hL0, hcut, hidx0, hidxbr, htake, hdrop, htrimA,
    hparse, htab, hpipe, hbrace_trim, List.drop_zero, Int.toNat_natCast]
  simp [show trimSpace [] = [] from rfl]

theorem toonParse_tabular (n : Nat) (inner : Str) (rows : List Str)
    (hn2 : n < 2 ^ 63)
    (hinner_ne : inner ≠ [])
    (hinner : ∀ c ∈ inner, c ≠ ':' ∧ c ≠ lbr ∧ c ≠ rbr ∧ c ≠ '\n' ∧ c ≠ '\r' ∧
      c ≠ '\t' ∧ c ≠ '|')
    (hrows_ne : rows ≠ [])
    (hrows : ∀ r ∈ rows, r ≠ [] ∧ (∀ c ∈ r, c ≠ '\n' ∧ c ≠ '\r') ∧
      (∀ c, r.head? = some c → isSpaceGo c = false) ∧
      (∀ c, r.getLast? = some c → isSpaceGo c = false)) :
    toonParse (tabularText n inner rows) =
      match parseRows (tabularLines n inner rows) (splitDelimited inner ',') ',' 0
          n 1 [] with
      | .error e => .error e
      | .ok (rs, _) => .ok (.arr (rs.map .obj)) := by
  have hlines := tabular_newToonLines n inner rows
    (fun c hc => ⟨(hinner c hc).2.2.2.1, (hinner c hc).2.2.2.2.1⟩) hrows_ne hrows
  have hpre : strHasPre (tabularHeaderLine n inner) (strL ("[")) = true := by
    rw [show tabularHeaderLine n inner
        = '[' :: ((natToStr n ++ ']' :: lbr :: (inner ++ [rbr])) ++ [':'])
      from by simp [tabularHeaderLine, tabularHeaderCore]]
    rw [show strL ("[") = ['['] from rfl]
    simp [strHasPre]
  have hlen : (tabularLines n inner rows).length = rows.length + 1 := by
    simp [tabularLines]
  have hL0 : (tabularLines n inner rows)[0]?
      = some (toonLine.mk 0 (tabularHeaderLine n inner) 1) := by
    simp [tabularLines]
  unfold toonParse
  rw [hlines]
  simp only [hL0, hpre]
  rw [hlen]
  rw [parseHeaderF_tabular n inner rows (rows.length + 1) hn2 hinner_ne hinner]
  cases hpr : parseRows (tabularLines n inner rows) (splitDelimited inner ',') ','
      0 n 1 [] with
  | error e => rfl
  | ok p =>
    obtain ⟨rs, idx2⟩ := p
    rfl

instance : DecidableEq (Except Str JValue) := fun a b =>
  match a, b with
  | .ok x, .ok y => decidable_of_iff (x = y) (by simp)
  | .error x, .error y => decidable_of_iff (x = y) (by simp)
  | .ok _, .error _ => isFalse (by simp)
  | .error _, .ok _ => isFalse (by simp)

/-- C9: a tabular block whose header declares a field list and whose data
row splits into a number of delimited values different from the declared
field count makes `TOONToJSON` fail with the row-width-mismatch error (it
never silently truncates or pads the row): stated for every block
`[n]` brace `inner` brace `:` newline, two-space indent, `rowText`. -/
theorem C9_row_width_mismatch (n : Nat) (inner rowText : Str)
    (hn1 : 0 < n) (hn2 : n < 2 ^ 63)
    (hinner_ne : inner ≠ [])
    (hinner : ∀ c ∈ inner, c ≠ ':' ∧ c ≠ lbr ∧ c ≠ rbr ∧ c ≠ '\n' ∧ c ≠ '\r' ∧
      c ≠ '\t' ∧ c ≠ '|')
    (hrow_ne : rowText ≠ [])
    (hrow : ∀ c ∈ rowText, c ≠ '\n' ∧ c ≠ '\r')
    (hrow_head : ∀ c, rowText.head? = some c → isSpaceGo c = false)
    (hrow_last : ∀ c, rowText.getLast? = some c → isSpaceGo c = false)
    (hmis : (splitDelimited rowText ',').length ≠ (splitDelimited inner ',').length) :
    toonParse (tabularText n inner [rowText]) =
      .error (strL ("row width mismatch near line 2")) := by
  rw [toonParse_tabular n inner [rowText] hn2 hinner_ne hinner (by simp)
    (by intro r hr
        simp only [List.mem_singleton] at hr
        subst hr
        exact ⟨hrow_ne, hrow, hrow_head, hrow_last⟩)]
  obtain ⟨m, rfl⟩ : ∃ m, n = m + 1 := ⟨n - 1, by omega⟩
  have hL1 : (tabularLines (m + 1) inner [rowText])[1]?
      = some (toonLine.mk 1 rowText 2) := by
    simp [tabularLines]
  simp only [parseRows, hL1]
  rw [if_neg (show ¬((1 : Nat) ≠ 0 + 1) by omega), if_pos hmis]
  rfl

theorem C9_row_width_mismatch_witness :
    toonParse (tabularText 2 (strL ("id,name")) [strL ("1,a,b")]) =
      .error (strL ("row width mismatch near line 2")) :=
  C9_row_width_mismatch 2 (strL ("id,name")) (strL ("1,a,b"))
    (by decide) (by decide) (by decide) (by decide) (by decide) (by decide)
    (by intro c hc
        rw [show (strL ("1,a,b")).head? = some '1' from rfl] at hc
        injection hc with e
        subst e
        decide)
    (by intro c hc
        rw [show (strL ("1,a,b")).getLast? = some 'b' from rfl] at hc
        injection hc with e
        subst e
        decide)
    (by decide)

/-- C1 counterexample: the empty mapping is a uniform flat-field object
(one element, empty shared key set, no nested values), yet encoding
`[ttt]` — the one-element array of the empty object — and decoding the
result yields the empty array, not the original value: the empty brace
group makes the decoder read zero fields and zero rows. -/
theorem C1_counterexample :
    toonParse (encodeTOON (.arr [.obj []])) = .ok (.arr []) ∧
    (JValue.arr []) ≠ .arr [.obj []] := by
  constructor
  · decide
  · decide

theorem keyLt_trans : ∀ {a b c : Str}, keyLt a b = true → keyLt b c = true →
    keyLt a c = true := by
  intro a
  induction a with
  | nil =>
    intro b c hab hbc
    cases b with
    | nil => simp [keyLt] at hab
    | cons y t =>
      cases c with
      | nil => simp [keyLt] at hbc
      | cons z u => simp [keyLt]
  | cons x s ih =>
    intro b c hab hbc
    cases b with
    | nil => simp [keyLt] at hab
    | cons y t =>
      cases c with
      | nil => simp [keyLt] at hbc
      | cons z u =>
        simp only [keyLt] at hab hbc ⊢
        by_cases hxy : x = y
        · subst hxy
          simp only [if_pos rfl] at hab
          by_cases hyz : x = z
          · subst hyz
            simp only [if_pos rfl] at hbc ⊢
            exact ih hab hbc
          · simp only [if_neg hyz] at hbc ⊢
            exact hbc
        · simp only [if_neg hxy] at hab
          have hlt1 : x < y := of_decide_eq_true hab
          by_cases hyz : y = z
          · subst hyz
            have hxz : ¬(x = y) := hxy
            simp only [if_neg hxz]
            exact decide_eq_true hlt1
          · simp only [if_neg hyz] at hbc
            have hlt2 : y < z := of_decide_eq_true hbc
            have hlt : x < z := lt_trans hlt1 hlt2
            have hxz : ¬(x = z) := ne_of_lt hlt
            simp only [if_neg hxz]
            exact decide_eq_true hlt
  
theorem keyLt_irrefl (a : Str) : keyLt a a = false := by
  by_cases h : keyLt a a = true
  · have := keyLt_asymm h
    rw [this] at h
    exact absurd h (by simp)
  · exact Bool.eq_false_iff.mpr h

theorem ascKeys_pairwise : ∀ {ks : List Str}, ascKeys ks = true →
    ks.Pairwise (fun a b => keyLt a b = true) := by
  intro ks
  induction ks with
  | nil => intro _; exact List.Pairwise.nil
  | cons a r ih =>
    intro h
    have htail := ascKeys_tail h
    have hp := ih htail
    cases r with
    | nil => simp
    | cons b t =>
      simp only [ascKeys, Bool.and_eq_true] at h
      refine List.Pairwise.cons ?_ hp
      intro x hx
      rcases List.mem_cons.mp hx with he | hm
      · rw [he]; exact h.1
      · have hbx : keyLt b x = true :=
          (List.pairwise_cons.mp hp).1 x hm
        exact keyLt_trans h.1 hbx

theorem ascKeys_nodup {ks : List Str} (h : ascKeys ks = true) : ks.Nodup := by
  have hp := ascKeys_pairwise h
  apply List.Pairwise.imp ?_ hp
  intro a b hab he
  rw [he, keyLt_irrefl] at hab
  exact absurd hab (by simp)

theorem mapInsert_notmem {k : Str} {v : JValue} :
    ∀ {m : List (Str × JValue)}, k ∉ m.map Prod.fst →
    mapInsert k v m = m ++ [(k, v)] := by
  intro m
  induction m with
  | nil => intro _; rfl
  | cons p r ih =>
    intro h
    obtain ⟨k', v'⟩ := p
    simp only [List.map_cons, List.mem_cons] at h
    push_neg at h
    simp only [mapInsert]
    rw [if_neg (fun he => h.1 he.symm), ih h.2]
    rfl

theorem char_eq_of_toNat {c d : Char} (h : c.toNat = d.toNat) : c = d :=
  Char.ext (UInt32.ext h)

theorem digit_char_cases {c : Char} (h : isDigitGo c = true) :
    c = '0' ∨ c = '1' ∨ c = '2' ∨ c = '3' ∨ c = '4' ∨ c = '5' ∨ c = '6' ∨
    c = '7' ∨ c = '8' ∨ c = '9' := by
  simp only [isDigitGo, Bool.and_eq_true, decide_eq_true_eq] at h
  obtain ⟨h1, h2⟩ := h
  rw [Char.le_def] at h1 h2
  have hv1 : (48 : Nat) ≤ c.toNat := h1
  have hv2 : c.toNat ≤ 57 := h2
  have hd : c.toNat = 48 ∨ c.toNat = 49 ∨ c.toNat = 50 ∨ c.toNat = 51 ∨
      c.toNat = 52 ∨ c.toNat = 53 ∨ c.toNat = 54 ∨ c.toNat = 55 ∨
      c.toNat = 56 ∨ c.toNat = 57 := by omega
  rcases hd with hv | hv | hv | hv | hv | hv | hv | hv | hv | hv
  · exact Or.inl (char_eq_of_toNat (by rw [hv]; decide))
  · exact Or.inr (Or.inl (char_eq_of_toNat (by rw [hv]; decide)))
  · exact Or.inr (Or.inr (Or.inl (char_eq_of_toNat (by rw [hv]; decide))))
  · exact Or.inr (Or.inr (Or.inr (Or.inl (char_eq_of_toNat (by rw [hv]; decide)))))
  · exact Or.inr (Or.inr (Or.inr (Or.inr (Or.inl
      (char_eq_of_toNat (by rw [hv]; decide))))))
  · exact Or.inr (Or.inr (Or.inr (Or.inr (Or.inr (Or.inl
      (char_eq_of_toNat (by rw [hv]; decide)))))))
  · exact Or.inr (Or.inr (Or.inr (Or.inr (Or.inr (Or.inr (Or.inl
      (char_eq_of_toNat (by rw [hv]; decide))))))))
  · exact Or.inr (Or.inr (Or.inr (Or.inr (Or.inr (Or.inr (Or.inr (Or.inl
      (char_eq_of_toNat (by rw [hv]; decide)))))))))
  · exact Or.inr (Or.inr (Or.inr (Or.inr (Or.inr (Or.inr (Or.inr (Or.inr
      (Or.inl (char_eq_of_toNat (by rw [hv]; decide))))))))))
  · exact Or.inr (Or.inr (Or.inr (Or.inr (Or.inr (Or.inr (Or.inr (Or.inr
      (Or.inr (char_eq_of_toNat (by rw [hv]; decide))))))))))

theorem dropWhile_len_le (p : Char → Bool) (l : Str) :
    (l.dropWhile p).length ≤ l.length :=
  List.IsSuffix.length_le (List.dropWhile_suffix p)

theorem dropWhile_eq_self_head {p : Char → Bool} {l : Str} (h : l.dropWhile p = l) :
    ∀ c, l.head? = some c → p c = false := by
  intro c hc
  cases l with
  | nil => cases hc
  | cons x t =>
    injection hc with e
    by_contra hp
    have hp' : p x = true := by
      rw [e]
      exact Bool.of_not_eq_false hp
    rw [List.dropWhile_cons, if_pos hp'] at h
    have hlen := congrArg List.length h
    have hle := dropWhile_len_le p t
    simp at hlen
    omega

theorem trimSpace_eq_parts {s : Str} (ht : trimSpace s = s) :
    s.dropWhile isSpaceGo = s ∧ s.reverse.dropWhile isSpaceGo = s.reverse := by
  have h1 : ((s.dropWhile isSpaceGo).reverse.dropWhile isSpaceGo).reverse = s := ht
  have hl1 : (((s.dropWhile isSpaceGo).reverse.dropWhile isSpaceGo).reverse).length
      ≤ (s.dropWhile isSpaceGo).length := by
    rw [List.length_reverse]
    have := dropWhile_len_le isSpaceGo (s.dropWhile isSpaceGo).reverse
    simpa using this
  have hl2 : (s.dropWhile isSpaceGo).length ≤ s.length :=
    dropWhile_len_le isSpaceGo s
  have hlen : (s.dropWhile isSpaceGo).length = s.length := by
    have := congrArg List.length h1
    omega
  have hsfx : s.dropWhile isSpaceGo <:+ s := List.dropWhile_suffix isSpaceGo
  have heq : s.dropWhile isSpaceGo = s := List.IsSuffix.eq_of_length hsfx hlen
  refine ⟨heq, ?_⟩
  rw [heq] at h1
  have := congrArg List.reverse h1
  rwa [List.reverse_reverse] at this

theorem trim_head_space {s : Str} (ht : trimSpace s = s) :
    ∀ c, s.head? = some c → isSpaceGo c = false :=
  dropWhile_eq_self_head (trimSpace_eq_parts ht).1

theorem trim_last_space {s : Str} (ht : trimSpace s = s) :
    ∀ c, s.getLast? = some c → isSpaceGo c = false := by
  intro c hc
  rw [← List.head?_reverse] at hc
  exact dropWhile_eq_self_head (trimSpace_eq_parts ht).2 c hc

theorem isSpaceGo_digit_false {c : Char} (h : isDigitGo c = true) :
    isSpaceGo c = false := by
  rcases digit_char_cases h with rfl|rfl|rfl|rfl|rfl|rfl|rfl|rfl|rfl|rfl <;> decide

theorem trimSpace_id_of_all {s : Str} (h : ∀ c ∈ s, isSpaceGo c = false) :
    trimSpace s = s :=
  trimSpace_id (fun c hc => h c (head?_mem hc)) (fun c hc => h c (getLast?_mem hc))

theorem containsAnyOf_false {s chars : Str} (h : ∀ c ∈ s, c ∉ chars) :
    containsAnyOf s chars = false := by
  rw [← Bool.not_eq_true, containsAnyOf_iff]
  push_neg
  exact h

theorem natToStrAux_head : ∀ fuel n, n < fuel → 0 < n →
    ∃ c r, natToStrAux fuel n = c :: r ∧ isDigitGo c = true ∧ c ≠ '0' := by
  intro fuel
  induction fuel with
  | zero => intro n h _; omega
  | succ f ih =>
    intro n h hpos
    have e0 : natToStrAux (f + 1) n = if n < 10 then [digitChar n]
        else natToStrAux f (n / 10) ++ [digitChar (n % 10)] := rfl
    by_cases h10 : n < 10
    · refine ⟨digitChar n, [], by rw [e0, if_pos h10], digitChar_isDigit h10, ?_⟩
      interval_cases n <;> decide
    · obtain ⟨c, r, he, hd, h0⟩ := ih (n / 10) (by omega) (by omega)
      exact ⟨c, r ++ [digitChar (n % 10)],
        by rw [e0, if_neg h10, he]; rfl, hd, h0⟩

theorem numIntPart_natToStr (n : Nat) : numIntPart (natToStr n) = some [] := by
  by_cases h10 : n < 10
  · interval_cases n <;> decide
  · obtain ⟨c, r, he, hd, h0⟩ :=
      natToStrAux_head (n + 1) n (Nat.lt_succ_self n) (by omega)
    have heq : natToStr n = c :: r := he
    have hall := natToStr_all_digits n
    rw [heq] at hall
    simp only [List.all_cons, Bool.and_eq_true] at hall
    have hc19 : ('1' ≤ c && c ≤ '9') = true := by
      rcases digit_char_cases hd with rfl|rfl|rfl|rfl|rfl|rfl|rfl|rfl|rfl|rfl
      · exact absurd rfl h0
      all_goals decide
    rw [heq]
    have e2 : numIntPart (c :: r) = if c = '0' then some r
        else if ('1' ≤ c && c ≤ '9') = true then some (r.dropWhile isDigitGo)
        else none := rfl
    rw [e2, if_neg h0, if_pos hc19]
    have hnil : r.dropWhile isDigitGo = [] := by
      rw [List.dropWhile_eq_nil_iff]
      intro x hx
      exact List.all_eq_true.mp hall.2 x hx
    rw [hnil]

theorem numberPattern_natToStr (n : Nat) : numberPattern (natToStr n) = true := by
  rw [numberPattern.eq_def]
  split
  · rename_i r heq
    exfalso
    have hm : '-' ∈ natToStr n := by rw [heq]; exact List.mem_cons_self _ _
    exact absurd (natToStr_mem_digit hm) (by decide)
  · show (match numIntPart (natToStr n) with
      | none => false
      | some r2 => numFracPart r2) = true
    rw [numIntPart_natToStr]
    rfl

theorem numberPattern_negNat (n : Nat) :
    numberPattern ('-' :: natToStr n) = true := by
  have e : numberPattern ('-' :: natToStr n)
      = match numIntPart (natToStr n) with
        | none => false
        | some r => numFracPart r := rfl
  rw [e, numIntPart_natToStr]
  rfl

theorem numberPattern_intToStr (i : Int) : numberPattern (intToStr i) = true := by
  unfold intToStr
  by_cases hneg : i < 0
  · rw [if_pos hneg]
    exact numberPattern_negNat _
  · rw [if_neg hneg]
    exact numberPattern_natToStr _

theorem parseIntGo_intToStr {i : Int} (h1 : -(2 ^ 63) ≤ i) (h2 : i < 2 ^ 63) :
    parseIntGo (intToStr i) = some i := by
  unfold intToStr
  by_cases hneg : i < 0
  · rw [if_pos hneg]
    have e : parseIntGo ('-' :: natToStr (-i).toNat)
        = (parseNatDigits (natToStr (-i).toNat)).bind
          (fun n => if n ≤ 2 ^ 63 then some (-(n : Int)) else none) := rfl
    rw [e, parseNatDigits_natToStr]
    have hle : (-i).toNat ≤ 2 ^ 63 := by omega
    simp only [Option.some_bind, if_pos hle]
    congr 1
    omega
  · rw [if_neg hneg]
    rw [parseIntGo_natToStr (show i.toNat < 2 ^ 63 by omega)]
    congr 1
    omega

theorem intToStr_chars {i : Int} :
    ∀ c ∈ intToStr i, isDigitGo c = true ∨ c = '-' := by
  intro c hc
  unfold intToStr at hc
  by_cases hneg : i < 0
  · rw [if_pos hneg] at hc
    rcases List.mem_cons.mp hc with he | hm
    · exact Or.inr he
    · exact Or.inl (natToStr_mem_digit hm)
  · rw [if_neg hneg] at hc
    exact Or.inl (natToStr_mem_digit hc)

theorem intToStr_ne_nil (i : Int) : intToStr i ≠ [] := by
  unfold intToStr
  by_cases hneg : i < 0
  · rw [if_pos hneg]; simp
  · rw [if_neg hneg]; exact natToStr_ne_nil _

/-- Scalar values whose TOON cell text round-trips exactly through the
tabular writer and `splitDelimited`/`parsePrimitiveToken`: null, booleans,
64-bit integers, and strings free of quote, backslash and control
characters.  Non-integer numbers are excluded: the decoder passes them
through `strconv.ParseFloat`, whose range error turns the cell into a
string and whose successful result is a `float64` value re-rendered
canonically, so a non-canonical literal does not come back verbatim. -/
def tabularSafeScalar : JValue → Bool
  | .null => true
  | .bool _ => true
  | .int i => decide (-(2 ^ 63) ≤ i) && decide (i < 2 ^ 63)
  | .str s => s.all (fun c => !(c = '"' || c = '\\' || c = '\n' ||
      c = '\r' || c = '\t'))
  | _ => false

/-- An unquoted cell: nonempty, trim-invariant, free of commas, quotes and
backslashes, so `splitDelimited` returns it verbatim. -/
def plainCellP (c : Str) : Prop :=
  c ≠ [] ∧ trimSpace c = c ∧ ∀ x ∈ c, x ≠ ',' ∧ x ≠ '"' ∧ x ≠ '\\'

/-- A quoted cell: a double-quoted body free of quotes and backslashes. -/
def quotedCellP (c : Str) : Prop :=
  ∃ mid, c = '"' :: (mid ++ ['"']) ∧ ∀ x ∈ mid, x ≠ '"' ∧ x ≠ '\\'

/-- A delimiter-safe cell. -/
def cellP (c : Str) : Prop := plainCellP c ∨ quotedCellP c

theorem flatMap_id_of : ∀ {s : Str} {f : Char → Str},
    (∀ c ∈ s, f c = [c]) → s.flatMap f = s := by
  intro s f
  induction s with
  | nil => intro _; rfl
  | cons c t ih =>
    intro h
    rw [List.flatMap_cons, h c (List.mem_cons_self _ _),
      ih (fun x hx => h x (List.mem_cons_of_mem _ hx))]
    rfl

theorem quoteString_plain {s : Str}
    (h : ∀ c ∈ s, c ≠ '"' ∧ c ≠ '\\' ∧ c ≠ '\n' ∧ c ≠ '\r' ∧ c ≠ '\t') :
    quoteString s = '"' :: (s ++ ['"']) := by
  unfold quoteString
  rw [flatMap_id_of (fun c hc => ?_)]
  · rfl
  · obtain ⟨h1, h2, h3, h4, h5⟩ := h c hc
    rw [if_neg h1, if_neg h2, if_neg h3, if_neg h4, if_neg h5]

set_option maxHeartbeats 1000000 in
theorem unquoteInner_plain : ∀ {s : Str},
    (∀ c ∈ s, c ≠ '\\' ∧ c ≠ '"' ∧ c ≠ '\n') → unquoteInner s = some s := by
  intro s
  induction s with
  | nil => intro _; rfl
  | cons c t ih =>
    intro h
    obtain ⟨h1, h2, h3⟩ := h c (List.mem_cons_self _ _)
    rw [unquoteInner.eq_def]
    split
    · rename_i heq
      cases heq
    · rename_i r heq
      injection heq with e1 _
      exact absurd e1 h1
    · rename_i r heq
      injection heq with e1 _
      exact absurd e1 h2
    · rename_i r heq
      injection heq with e1 _
      exact absurd e1 h3
    · rename_i c2 t2 hnc heq
      injection heq with e1 e2
      subst e1
      subst e2
      rw [ih (fun x hx => h x (List.mem_cons_of_mem _ hx))]
      rfl

theorem strHasPre_quote_false {s : Str}
    (h : ∀ hd, s.head? = some hd → hd ≠ '"') :
    strHasPre s (strL ("\"")) = false := by
  cases s with
  | nil => rfl
  | cons c t =>
    have hc := h c rfl
    rw [show strL ("\"") = ['"'] from rfl]
    simp [strHasPre, hc]

theorem goUnquote_quote {s : Str}
    (h : ∀ c ∈ s, c ≠ '\\' ∧ c ≠ '"' ∧ c ≠ '\n') :
    goUnquote ('"' :: (s ++ ['"'])) = some s := by
  have e : goUnquote ('"' :: (s ++ ['"']))
      = if (s ++ ['"']) ≠ [] ∧ (s ++ ['"']).getLast? = some '"'
        then unquoteInner (s ++ ['"']).dropLast else none := rfl
  rw [e, if_pos ⟨by simp, by simp⟩]
  rw [List.dropLast_concat]
  exact unquoteInner_plain h

theorem parsePrimitiveToken_eval {t : Str} (h1 : trimSpace t = t) (h2 : t ≠ [])
    (h3 : strHasPre t (strL ("\"")) = false)
    (h4 : t ≠ strL ("true")) (h5 : t ≠ strL ("false")) (h6 : t ≠ strL ("null")) :
    parsePrimitiveToken t =
      (if numberPattern t then
        if containsAnyOf t (strL (".eE")) then
          if floatOverflows t then .str t else .float t
        else match parseIntGo t with
          | some i => .int i
          | none => .str t
      else .str t) := by
  unfold parsePrimitiveToken
  simp only [h1]
  rw [if_neg h2, h3, Bool.false_and]
  simp only [Bool.false_eq_true, if_false]
  rw [if_neg h4, if_neg h5, if_neg h6]

theorem parsePrimitiveToken_quoted {s : Str}
    (h : ∀ c ∈ s, c ≠ '\\' ∧ c ≠ '"' ∧ c ≠ '\n') :
    parsePrimitiveToken ('"' :: (s ++ ['"'])) = .str s := by
  have e2 : ('"' :: (s ++ ['"'])) = ('"' :: s) ++ ['"'] := by simp
  have hh : ∀ c, ('"' :: (s ++ ['"'])).head? = some c → isSpaceGo c = false := by
    intro c hc
    injection hc with e
    rw [← e]
    decide
  have hl : ∀ c, ('"' :: (s ++ ['"'])).getLast? = some c → isSpaceGo c = false := by
    intro c hc
    rw [e2, List.getLast?_concat] at hc
    injection hc with e
    rw [← e]
    decide
  have htrim : trimSpace ('"' :: (s ++ ['"'])) = '"' :: (s ++ ['"']) :=
    trimSpace_id hh hl
  have hpre : strHasPre ('"' :: (s ++ ['"'])) (strL ("\"")) = true := by
    rw [show strL ("\"") = ['"'] from rfl]
    simp [strHasPre]
  have hsuf : strHasSuf ('"' :: (s ++ ['"'])) (strL ("\"")) = true := by
    unfold strHasSuf
    rw [show (strL ("\"")).reverse = ['"'] from rfl]
    have hrev : ('"' :: (s ++ ['"'])).reverse = '"' :: (s.reverse ++ ['"']) := by
      simp
    rw [hrev]
    simp [strHasPre]
  unfold parsePrimitiveToken
  simp only [htrim]
  rw [if_neg (show ¬('"' :: (s ++ ['"']) = []) from List.cons_ne_nil _ _)]
  rw [hpre, hsuf]
  simp only [Bool.and_self, if_true]
  rw [goUnquote_quote h]

theorem formatPrimitive_roundtrip {v : JValue} (h : tabularSafeScalar v = true) :
    cellP (formatPrimitive v ',') ∧
    parsePrimitiveToken (formatPrimitive v ',') = v ∧
    (∀ c ∈ formatPrimitive v ',', c ≠ '\n' ∧ c ≠ '\r') := by
  cases v with
  | null =>
    exact ⟨Or.inl ⟨by decide, by decide, by decide⟩, by decide, by decide⟩
  | bool b =>
    cases b
    · exact ⟨Or.inl ⟨by decide, by decide, by decide⟩, by decide, by decide⟩
    · exact ⟨Or.inl ⟨by decide, by decide, by decide⟩, by decide, by decide⟩
  | int i =>
    simp only [tabularSafeScalar, Bool.and_eq_true, decide_eq_true_eq] at h
    obtain ⟨hi1, hi2⟩ := h
    have hfmt : formatPrimitive (.int i) ',' = intToStr i := rfl
    rw [hfmt]
    have hchars := @intToStr_chars i
    have hnospace : ∀ c ∈ intToStr i, isSpaceGo c = false := by
      intro c hc
      rcases hchars c hc with hd | he
      · exact isSpaceGo_digit_false hd
      · rw [he]; decide
    have htrim : trimSpace (intToStr i) = intToStr i := trimSpace_id_of_all hnospace
    have hplain : plainCellP (intToStr i) := by
      refine ⟨intToStr_ne_nil i, htrim, ?_⟩
      intro x hx
      rcases hchars x hx with hd | he
      · exact ⟨digit_ne ',' hd (by decide), digit_ne '"' hd (by decide),
          digit_ne '\\' hd (by decide)⟩
      · rw [he]; exact ⟨by decide, by decide, by decide⟩
    have hnonl : ∀ c ∈ intToStr i, c ≠ '\n' ∧ c ≠ '\r' := by
      intro c hc
      rcases hchars c hc with hd | he
      · exact ⟨digit_ne '\n' hd (by decide), digit_ne '\r' hd (by decide)⟩
      · rw [he]; exact ⟨by decide, by decide⟩
    refine ⟨Or.inl hplain, ?_, hnonl⟩
    have hne_t : intToStr i ≠ strL ("true") := by
      intro he
      have hm : 't' ∈ intToStr i := by rw [he]; decide
      rcases hchars 't' hm with hd | h'
      · exact absurd hd (by decide)
      · exact absurd h' (by decide)
    have hne_f : intToStr i ≠ strL ("false") := by
      intro he
      have hm : 'f' ∈ intToStr i := by rw [he]; decide
      rcases hchars 'f' hm with hd | h'
      · exact absurd hd (by decide)
      · exact absurd h' (by decide)
    have hne_n : intToStr i ≠ strL ("null") := by
      intro he
      have hm : 'u' ∈ intToStr i := by rw [he]; decide
      rcases hchars 'u' hm with hd | h'
      · exact absurd hd (by decide)
      · exact absurd h' (by decide)
    have hq : strHasPre (intToStr i) (strL ("\"")) = false := by
      apply strHasPre_quote_false
      intro hd hh
      rcases hchars hd (head?_mem hh) with hd' | h'
      · exact digit_ne '"' hd' (by decide)
      · rw [h']; decide
    rw [parsePrimitiveToken_eval htrim (intToStr_ne_nil i) hq hne_t hne_f hne_n]
    have hAny : containsAnyOf (intToStr i) (strL (".eE")) = false := by
      apply containsAnyOf_false
      intro c hc
      rcases hchars c hc with hd | he
      · intro hmem
        rw [show strL (".eE") = ['.', 'e', 'E'] from rfl] at hmem
        simp only [List.mem_cons, List.not_mem_nil, or_false] at hmem
        rcases hmem with rfl | rfl | rfl <;> exact absurd hd (by decide)
      · rw [he]; decide
    rw [if_pos (numberPattern_intToStr i)]
    rw [if_neg (show ¬(containsAnyOf (intToStr i) (strL (".eE")) = true) from by
      rw [hAny]; simp)]
    rw [parseIntGo_intToStr hi1 hi2]
  | float lit =>
    simp [tabularSafeScalar] at h
  | str s =>
    simp only [tabularSafeScalar, List.all_eq_true] at h
    have hch : ∀ c ∈ s, c ≠ '"' ∧ c ≠ '\\' ∧ c ≠ '\n' ∧ c ≠ '\r' ∧ c ≠ '\t' := by
      intro c hc
      have hb := h c hc
      simp only [Bool.not_eq_true', Bool.or_eq_false_iff,
        decide_eq_false_iff_not] at hb
      tauto
    have hfmt : formatPrimitive (.str s) ','
        = if needsQuote s ',' then quoteString s else s := rfl
    rw [hfmt]
    by_cases hqb : needsQuote s ',' = true
    · rw [if_pos hqb]
      rw [quoteString_plain hch]
      refine ⟨Or.inr ⟨s, rfl, fun x hx => ⟨(hch x hx).1, (hch x hx).2.1⟩⟩, ?_, ?_⟩
      · exact parsePrimitiveToken_quoted
          (fun c hc => ⟨(hch c hc).2.1, (hch c hc).1, (hch c hc).2.2.1⟩)
      · intro c hc
        rcases List.mem_cons.mp hc with rfl | hm
        · exact ⟨by decide, by decide⟩
        rcases List.mem_append.mp hm with hm' | hm'
        · exact ⟨(hch c hm').2.2.1, (hch c hm').2.2.2.1⟩
        · simp only [List.mem_singleton] at hm'
          rw [hm']
          exact ⟨by decide, by decide⟩
    · rw [if_neg hqb]
      rw [needsQuote_iff] at hqb
      push_neg at hqb
      obtain ⟨hne0, htrim, hnt, hnf, hnn, hnum, hspec, hctrl, hdel, hpre⟩ := hqb
      have hplain : plainCellP s := by
        refine ⟨hne0, htrim, ?_⟩
        intro x hx
        exact ⟨fun he => hdel (he ▸ hx), fun he => hspec.2.1 (he ▸ hx),
          fun he => hspec.2.2.1 (he ▸ hx)⟩
      refine ⟨Or.inl hplain, ?_, ?_⟩
      · have hq : strHasPre s (strL ("\"")) = false := by
          apply strHasPre_quote_false
          intro hd hh he
          exact hspec.2.1 (he ▸ head?_mem hh)
        rw [parsePrimitiveToken_eval htrim hne0 hq hnt hnf hnn]
        rw [if_neg (show ¬(numberPattern s = true) from hnum)]
      · intro c hc
        exact ⟨fun he => hctrl.1 (he ▸ hc), fun he => hctrl.2.1 (he ▸ hc)⟩
  | arr a => simp [tabularSafeScalar] at h
  | obj o => simp [tabularSafeScalar] at h

theorem splitAux_plain : ∀ (p : Str) (rest cur : Str) (acc : List Str),
    (∀ x ∈ p, x ≠ ',' ∧ x ≠ '"' ∧ x ≠ '\\') →
    splitDelimitedAux ',' (p ++ rest) false false cur acc
      = splitDelimitedAux ',' rest false false (cur ++ p) acc := by
  intro p
  induction p with
  | nil => intro rest cur acc _; simp
  | cons x t ih =>
    intro rest cur acc h
    obtain ⟨h1, h2, h3⟩ := h x (List.mem_cons_self _ _)
    have e0 : splitDelimitedAux ',' (x :: (t ++ rest)) false false cur acc
        = if x = '\\' then splitDelimitedAux ',' (t ++ rest) false true cur acc
          else if x = '"' then
            splitDelimitedAux ',' (t ++ rest) true false (cur ++ [x]) acc
          else if (x = ',' ∧ false = false) then
            splitDelimitedAux ',' (t ++ rest) false false [] (acc ++ [trimSpace cur])
          else splitDelimitedAux ',' (t ++ rest) false false (cur ++ [x]) acc := rfl
    rw [List.cons_append, e0, if_neg h3, if_neg h2,
      if_neg (show ¬(x = ',' ∧ false = false) from fun hx => h1 hx.1)]
    rw [ih rest (cur ++ [x]) acc (fun y hy => h y (List.mem_cons_of_mem _ hy))]
    have e1 : (cur ++ [x]) ++ t = cur ++ (x :: t) := by simp
    rw [e1]

theorem splitAux_quotes : ∀ (p : Str) (rest cur : Str) (acc : List Str),
    (∀ x ∈ p, x ≠ '"' ∧ x ≠ '\\') →
    splitDelimitedAux ',' (p ++ rest) true false cur acc
      = splitDelimitedAux ',' rest true false (cur ++ p) acc := by
  intro p
  induction p with
  | nil => intro rest cur acc _; simp
  | cons x t ih =>
    intro rest cur acc h
    obtain ⟨h2, h3⟩ := h x (List.mem_cons_self _ _)
    have e0 : splitDelimitedAux ',' (x :: (t ++ rest)) true false cur acc
        = if x = '\\' then splitDelimitedAux ',' (t ++ rest) true true cur acc
          else if x = '"' then
            splitDelimitedAux ',' (t ++ rest) false false (cur ++ [x]) acc
          else if (x = ',' ∧ true = false) then
            splitDelimitedAux ',' (t ++ rest) true false [] (acc ++ [trimSpace cur])
          else splitDelimitedAux ',' (t ++ rest) true false (cur ++ [x]) acc := rfl
    rw [List.cons_append, e0, if_neg h3, if_neg h2,
      if_neg (show ¬(x = ',' ∧ true = false) from fun hx => by
        exact absurd hx.2 (by simp))]
    rw [ih rest (cur ++ [x]) acc (fun y hy => h y (List.mem_cons_of_mem _ hy))]
    have e1 : (cur ++ [x]) ++ t = cur ++ (x :: t) := by simp
    rw [e1]

theorem splitAux_quoted_cell (mid rest cur : Str) (acc : List Str)
    (h : ∀ x ∈ mid, x ≠ '"' ∧ x ≠ '\\') :
    splitDelimitedAux ',' (('"' :: (mid ++ ['"'])) ++ rest) false false cur acc
      = splitDelimitedAux ',' rest false false (cur ++ ('"' :: (mid ++ ['"']))) acc := by
  have e0 : (('"' :: (mid ++ ['"'])) ++ rest) = '"' :: (mid ++ ('"' :: rest)) := by
    simp
  rw [e0]
  have e1 : splitDelimitedAux ',' ('"' :: (mid ++ ('"' :: rest))) false false cur acc
      = splitDelimitedAux ',' (mid ++ ('"' :: rest)) true false (cur ++ ['"']) acc := rfl
  rw [e1, splitAux_quotes mid _ _ _ h]
  have e2 : splitDelimitedAux ',' ('"' :: rest) true false ((cur ++ ['"']) ++ mid) acc
      = splitDelimitedAux ',' rest false false (((cur ++ ['"']) ++ mid) ++ ['"']) acc := rfl
  rw [e2]
  have e3 : (((cur ++ ['"']) ++ mid) ++ ['"']) = cur ++ ('"' :: (mid ++ ['"'])) := by
    simp
  rw [e3]

theorem cellP_ne_nil {c : Str} (h : cellP c) : c ≠ [] := by
  rcases h with hp | ⟨mid, he, _⟩
  · exact hp.1
  · rw [he]; simp

theorem cellP_trim {c : Str} (h : cellP c) : trimSpace c = c := by
  rcases h with hp | ⟨mid, he, _⟩
  · exact hp.2.1
  · rw [he]
    apply trimSpace_id
    · intro x hx
      injection hx with e
      rw [← e]
      decide
    · intro x hx
      rw [show ('"' :: (mid ++ ['"'])) = ('"' :: mid) ++ ['"'] from by simp,
        List.getLast?_concat] at hx
      injection hx with e
      rw [← e]
      decide

theorem splitAux_cell {c : Str} (rest cur : Str) (acc : List Str) (h : cellP c) :
    splitDelimitedAux ',' (c ++ rest) false false cur acc
      = splitDelimitedAux ',' rest false false (cur ++ c) acc := by
  rcases h with hp | ⟨mid, he, hm⟩
  · exact splitAux_plain c rest cur acc hp.2.2
  · rw [he]
    exact splitAux_quoted_cell mid rest cur acc hm

theorem splitAux_join : ∀ (cells : List Str) (acc : List Str), cells ≠ [] →
    (∀ c ∈ cells, cellP c) →
    splitDelimitedAux ',' (joinWith [','] cells) false false [] acc
      = acc ++ cells := by
  intro cells
  induction cells with
  | nil => intro acc h _; exact absurd rfl h
  | cons c t ih =>
    intro acc _ h
    have hc := h c (List.mem_cons_self _ _)
    cases t with
    | nil =>
      rw [show joinWith [','] [c] = c ++ ([] : Str) from by
        rw [show joinWith [','] [c] = c from rfl]; simp]
      rw [splitAux_cell [] [] acc hc]
      have e : splitDelimitedAux ',' ([] : Str) false false ([] ++ c) acc
          = if (([] ++ c : Str)).length > 0
            then acc ++ [trimSpace ([] ++ c)] else acc := rfl
      rw [e]
      have hne := cellP_ne_nil hc
      rw [if_pos (by simpa [List.length_pos] using hne)]
      rw [show (([] ++ c) : Str) = c from by simp, cellP_trim hc]
    | cons c2 t2 =>
      rw [show joinWith [','] (c :: c2 :: t2)
          = c ++ (',' :: joinWith [','] (c2 :: t2)) from by
        rw [show joinWith [','] (c :: c2 :: t2)
            = c ++ [','] ++ joinWith [','] (c2 :: t2) from rfl]
        simp]
      rw [splitAux_cell _ _ _ hc]
      have e : splitDelimitedAux ',' (',' :: joinWith [','] (c2 :: t2)) false false
            ([] ++ c) acc
          = splitDelimitedAux ',' (joinWith [','] (c2 :: t2)) false false []
            (acc ++ [trimSpace ([] ++ c)]) := rfl
      rw [e]
      rw [show (([] ++ c) : Str) = c from by simp, cellP_trim hc]
      rw [ih (acc ++ [c]) (by simp) (fun x hx => h x (List.mem_cons_of_mem _ hx))]
      simp

theorem splitDelimited_join (cells : List Str) (hne : cells ≠ [])
    (h : ∀ c ∈ cells, cellP c) :
    splitDelimited (joinWith [','] cells) ',' = cells := by
  unfold splitDelimited
  rw [splitAux_join cells [] hne h]
  rfl

theorem zip_fst_snd (l : List (Str × JValue)) :
    (l.map Prod.fst).zip (l.map Prod.snd) = l :=
  Eq.symm (List.zip_of_prod rfl rfl)

theorem foldl_mapInsert : ∀ (pairs : List (Str × Str)) (acc : List (Str × JValue)),
    (pairs.map Prod.fst).Nodup →
    (∀ k ∈ pairs.map Prod.fst, k ∉ acc.map Prod.fst) →
    pairs.foldl (fun m kv => mapInsert kv.1 (parsePrimitiveToken kv.2) m) acc
      = acc ++ pairs.map (fun kv => (kv.1, parsePrimitiveToken kv.2)) := by
  intro pairs
  induction pairs with
  | nil => intro acc _ _; simp
  | cons kv t ih =>
    intro acc hnd hdisj
    obtain ⟨k, val⟩ := kv
    simp only [List.map_cons, List.nodup_cons] at hnd
    simp only [List.foldl_cons]
    have hk_not : k ∉ acc.map Prod.fst := hdisj k (by simp)
    rw [mapInsert_notmem hk_not]
    rw [ih (acc ++ [(k, parsePrimitiveToken val)]) hnd.2 ?_]
    · simp
    · intro k2 hk2
      rw [List.map_append, List.mem_append]
      push_neg
      refine ⟨hdisj k2 (by simp [hk2]), ?_⟩
      simp only [List.map_cons, List.map_nil, List.mem_singleton]
      intro he
      exact hnd.1 (he ▸ hk2)

theorem buildRow_eq (ks : List Str) (vals : List Str)
    (hlen : ks.length ≤ vals.length) (hnd : ks.Nodup) :
    buildRow ks vals
      = (ks.zip vals).map (fun kv => (kv.1, parsePrimitiveToken kv.2)) := by
  unfold buildRow
  rw [foldl_mapInsert (ks.zip vals) [] ?_ ?_]
  · simp
  · rw [List.map_fst_zip ks vals hlen]
    exact hnd
  · intro k _
    simp

theorem map_lookup_self : ∀ (r : List (Str × JValue)), (r.map Prod.fst).Nodup →
    (r.map Prod.fst).map (fun f => (lookupKey r f).getD .null) = r.map Prod.snd := by
  intro r
  induction r with
  | nil => intro _; rfl
  | cons p t ih =>
    intro hnd
    obtain ⟨k, v⟩ := p
    simp only [List.map_cons, List.nodup_cons] at hnd
    simp only [List.map_cons]
    congr 1
    · simp [lookupKey]
    · rw [← ih hnd.2]
      apply List.map_congr_left
      intro f hf
      have hfk : ¬(k = f) := fun he => hnd.1 (he ▸ hf)
      simp [lookupKey, hfk]

theorem lookup_isSome : ∀ {r : List (Str × JValue)} {f : Str},
    f ∈ r.map Prod.fst → (lookupKey r f).isSome = true := by
  intro r
  induction r with
  | nil => intro f hf; cases hf
  | cons p t ih =>
    intro f hf
    obtain ⟨k, v⟩ := p
    by_cases he : k = f
    · simp [lookupKey, he]
    · simp only [List.map_cons, List.mem_cons] at hf
      rcases hf with hf | hf
      · exact absurd hf.symm he
      · simp only [lookupKey, if_neg he]
        exact ih hf

theorem tabularSafeScalar_isScalar {v : JValue} (h : tabularSafeScalar v = true) :
    isScalar v = true := by
  cases v <;> simp_all [tabularSafeScalar, isScalar]

theorem collectRows_uniform (ks : List Str) :
    ∀ (l : List (List (Str × JValue))), (∀ r ∈ l, r.map Prod.fst = ks) →
    collectRows ks (l.map .obj) = some l := by
  intro l
  induction l with
  | nil => intro _; rfl
  | cons r t ih =>
    intro h
    have hr := h r (List.mem_cons_self _ _)
    simp only [List.map_cons, collectRows]
    have hsfs : sameFieldSet ks r = true := by
      unfold sameFieldSet
      rw [Bool.and_eq_true]
      constructor
      · have := congrArg List.length hr
        simp only [List.length_map] at this
        simp [this]
      · rw [List.all_eq_true]
        intro f hf
        exact lookup_isSome (by rw [hr]; exact hf)
    rw [if_pos hsfs, ih (fun x hx => h x (List.mem_cons_of_mem _ hx))]
    rfl

theorem detectTabular_uniform (ks : List Str) (rows : List (List (Str × JValue)))
    (hks : ascKeys ks = true)
    (hrows_ne : rows ≠ [])
    (hfst : ∀ r ∈ rows, r.map Prod.fst = ks)
    (hsafe : ∀ r ∈ rows, ∀ p ∈ r, tabularSafeScalar p.2 = true) :
    detectTabular (rows.map .obj) = some (ks, rows) := by
  obtain ⟨r0, rest, rfl⟩ : ∃ r0 rest, rows = r0 :: rest := by
    cases rows with
    | nil => exact absurd rfl hrows_ne
    | cons a b => exact ⟨a, b, rfl⟩
  have hord : orderedKeys r0 = ks := by
    unfold orderedKeys
    rw [hfst r0 (List.mem_cons_self _ _)]
    have hmap : ascKeys (ks.map id) = true := by rwa [List.map_id]
    exact goSortBy_sorted id ks hmap
  have hcoll := collectRows_uniform ks rest
    (fun x hx => hfst x (List.mem_cons_of_mem _ hx))
  simp only [List.map_cons, detectTabular, hord, hcoll]
  have hscal : (r0 :: rest).all (fun row => ks.all (fun f =>
      match lookupKey row f with
      | some w => isScalar w
      | none => false)) = true := by
    rw [List.all_eq_true]
    intro row hrow
    rw [List.all_eq_true]
    intro f hf
    have hmem : f ∈ row.map Prod.fst := by rw [hfst row hrow]; exact hf
    obtain ⟨w, hw⟩ := Option.isSome_iff_exists.mp (lookup_isSome hmem)
    rw [hw]
    exact tabularSafeScalar_isScalar (hsafe row hrow (f, w) (lookup_mem hw))
  rw [if_pos hscal]

theorem head?_append_left {x B : Str} (h : x ≠ []) :
    (x ++ B).head? = x.head? := by
  cases x with
  | nil => exact absurd rfl h
  | cons c t => rfl

theorem joinWith_ne_nil : ∀ {cells : List Str}, cells ≠ [] →
    (∀ c ∈ cells, c ≠ []) → joinWith [','] cells ≠ [] := by
  intro cells hne h
  cases cells with
  | nil => exact absurd rfl hne
  | cons x t =>
    cases t with
    | nil => exact h x (List.mem_cons_self _ _)
    | cons y r =>
      rw [show joinWith [','] (x :: y :: r)
          = x ++ [','] ++ joinWith [','] (y :: r) from rfl]
      simp

theorem joinWith_head : ∀ {cells : List Str}, cells ≠ [] →
    (∀ c ∈ cells, c ≠ []) →
    ∃ c0, cells.head? = some c0 ∧ (joinWith [','] cells).head? = c0.head? := by
  intro cells hne h
  cases cells with
  | nil => exact absurd rfl hne
  | cons x t =>
    refine ⟨x, rfl, ?_⟩
    cases t with
    | nil => rfl
    | cons y r =>
      rw [show joinWith [','] (x :: y :: r)
          = x ++ ([','] ++ joinWith [','] (y :: r)) from by
        rw [show joinWith [','] (x :: y :: r)
            = x ++ [','] ++ joinWith [','] (y :: r) from rfl]
        simp]
      exact head?_append_left (h x (List.mem_cons_self _ _))

theorem joinWith_last : ∀ {cells : List Str}, cells ≠ [] →
    (∀ c ∈ cells, c ≠ []) →
    ∃ cl, cells.getLast? = some cl ∧
      (joinWith [','] cells).getLast? = cl.getLast? := by
  intro cells
  induction cells with
  | nil => intro hne _; exact absurd rfl hne
  | cons x t ih =>
    intro _ h
    cases t with
    | nil => exact ⟨x, rfl, rfl⟩
    | cons y r =>
      obtain ⟨cl, hcl, hlast⟩ := ih (by simp)
        (fun c hc => h c (List.mem_cons_of_mem _ hc))
      refine ⟨cl, by rw [← hcl]; rfl, ?_⟩
      rw [show joinWith [','] (x :: y :: r)
          = (x ++ [',']) ++ joinWith [','] (y :: r) from rfl]
      rw [List.getLast?_append_of_ne_nil _
        (joinWith_ne_nil (by simp) (fun c hc => h c (List.mem_cons_of_mem _ hc)))]
      exact hlast

theorem joinWith_mem : ∀ {cells : List Str} {c : Char},
    c ∈ joinWith [','] cells → c = ',' ∨ ∃ x ∈ cells, c ∈ x := by
  intro cells
  induction cells with
  | nil => intro c h; cases h
  | cons x t ih =>
    intro c h
    cases t with
    | nil =>
      exact Or.inr ⟨x, List.mem_cons_self _ _, h⟩
    | cons y r =>
      rw [show joinWith [','] (x :: y :: r)
          = (x ++ [',']) ++ joinWith [','] (y :: r) from rfl] at h
      rcases List.mem_append.mp h with h' | h'
      · rcases List.mem_append.mp h' with h2 | h2
        · exact Or.inr ⟨x, List.mem_cons_self _ _, h2⟩
        · simp only [List.mem_singleton] at h2
          exact Or.inl h2
      · rcases ih h' with h2 | ⟨x2, hx2, hc2⟩
        · exact Or.inl h2
        · exact Or.inr ⟨x2, List.mem_cons_of_mem _ hx2, hc2⟩

theorem cellP_head_space {c : Str} (h : cellP c) :
    ∀ x, c.head? = some x → isSpaceGo x = false :=
  trim_head_space (cellP_trim h)

theorem cellP_last_space {c : Str} (h : cellP c) :
    ∀ x, c.getLast? = some x → isSpaceGo x = false :=
  trim_last_space (cellP_trim h)

theorem head?_memG {α : Type} {l : List α} {a : α} (h : l.head? = some a) :
    a ∈ l := by
  cases l with
  | nil => cases h
  | cons x t =>
    injection h with e
    rw [← e]
    exact List.mem_cons_self _ _

theorem getLast?_memG {α : Type} {l : List α} {a : α} (h : l.getLast? = some a) :
    a ∈ l := by
  rw [← List.head?_reverse] at h
  exact List.mem_reverse.mp (head?_memG h)

/-- The formatted cell texts of one tabular row, in field order. -/
def rowCells (ks : List Str) (r : List (Str × JValue)) : List Str :=
  ks.map (fun f => formatPrimitive ((lookupKey r f).getD .null) ',')

/-- The rendered text of one tabular row (before indentation). -/
def rowTextOf (ks : List Str) (r : List (Str × JValue)) : Str :=
  joinWith [','] (rowCells ks r)

theorem rowCells_eq (ks : List Str) (r : List (Str × JValue))
    (hfst : r.map Prod.fst = ks) (hnd : ks.Nodup) :
    rowCells ks r = r.map (fun p => formatPrimitive p.2 ',') := by
  unfold rowCells
  rw [← hfst]
  have hnd' : (r.map Prod.fst).Nodup := by rwa [hfst]
  calc (r.map Prod.fst).map
        (fun f => formatPrimitive ((lookupKey r f).getD .null) ',')
      = ((r.map Prod.fst).map (fun f => (lookupKey r f).getD .null)).map
        (fun w => formatPrimitive w ',') := by
        simp [List.map_map]
    _ = (r.map Prod.snd).map (fun w => formatPrimitive w ',') := by
        rw [map_lookup_self r hnd']
    _ = r.map (fun p => formatPrimitive p.2 ',') := by
        simp [List.map_map]

theorem rowCells_cellP (ks : List Str) (r : List (Str × JValue))
    (hfst : r.map Prod.fst = ks) (hnd : ks.Nodup)
    (hsafe : ∀ p ∈ r, tabularSafeScalar p.2 = true) :
    ∀ c ∈ rowCells ks r, cellP c := by
  rw [rowCells_eq ks r hfst hnd]
  intro c hc
  obtain ⟨p, hp, rfl⟩ := List.mem_map.mp hc
  exact (formatPrimitive_roundtrip (hsafe p hp)).1

theorem rowCells_parse (ks : List Str) (r : List (Str × JValue))
    (hfst : r.map Prod.fst = ks) (hnd : ks.Nodup)
    (hsafe : ∀ p ∈ r, tabularSafeScalar p.2 = true) :
    (rowCells ks r).map parsePrimitiveToken = r.map Prod.snd := by
  rw [rowCells_eq ks r hfst hnd, List.map_map]
  apply List.map_congr_left
  intro p hp
  exact (formatPrimitive_roundtrip (hsafe p hp)).2.1

theorem rowTextOf_props (ks : List Str) (r : List (Str × JValue))
    (hks_ne : ks ≠ []) (hfst : r.map Prod.fst = ks) (hnd : ks.Nodup)
    (hsafe : ∀ p ∈ r, tabularSafeScalar p.2 = true) :
    rowTextOf ks r ≠ [] ∧
    (∀ c ∈ rowTextOf ks r, c ≠ '\n' ∧ c ≠ '\r') ∧
    (∀ c, (rowTextOf ks r).head? = some c → isSpaceGo c = false) ∧
    (∀ c, (rowTextOf ks r).getLast? = some c → isSpaceGo c = false) := by
  have hcells := rowCells_cellP ks r hfst hnd hsafe
  have hcne : ∀ c ∈ rowCells ks r, c ≠ [] := fun c hc => cellP_ne_nil (hcells c hc)
  have hne0 : rowCells ks r ≠ [] := by
    unfold rowCells
    intro he
    exact hks_ne (List.map_eq_nil_iff.mp he)
  refine ⟨joinWith_ne_nil hne0 hcne, ?_, ?_, ?_⟩
  · intro c hc
    rcases joinWith_mem hc with rfl | ⟨x, hx, hcx⟩
    · exact ⟨by decide, by decide⟩
    · have hx2 : x ∈ r.map (fun p => formatPrimitive p.2 ',') := by
        rw [← rowCells_eq ks r hfst hnd]
        exact hx
      obtain ⟨p, hp, rfl⟩ := List.mem_map.mp hx2
      exact (formatPrimitive_roundtrip (hsafe p hp)).2.2 c hcx
  · intro c hc
    obtain ⟨c0, hc0, hh⟩ := joinWith_head hne0 hcne
    rw [show rowTextOf ks r = joinWith [','] (rowCells ks r) from rfl, hh] at hc
    exact cellP_head_space (hcells c0 (head?_memG hc0)) c hc
  · intro c hc
    obtain ⟨cl, hcl, hl⟩ := joinWith_last hne0 hcne
    rw [show rowTextOf ks r = joinWith [','] (rowCells ks r) from rfl, hl] at hc
    exact cellP_last_space (hcells cl (getLast?_memG hcl)) c hc

theorem indentStr_one : indentStr 1 = [' ', ' '] := rfl

theorem tabularRowLine_eq (ks : List Str) (r : List (Str × JValue)) :
    tabularRowLine ks r 1 = [' ', ' '] ++ (rowTextOf ks r ++ ['\n']) := by
  unfold tabularRowLine rowTextOf rowCells
  rw [indentStr_one]
  rw [show strL (",") = [','] from rfl, show strL ("\n") = ['\n'] from rfl]
  simp

theorem flatten_rowBlock : ∀ {rts : List Str}, rts ≠ [] →
    (rts.map (fun rt => [' ', ' '] ++ (rt ++ ['\n']))).flatten
      = rowBlock rts ++ ['\n'] := by
  intro rts
  induction rts with
  | nil => intro h; exact absurd rfl h
  | cons rt t ih =>
    intro _
    cases t with
    | nil =>
      simp [rowBlock]
    | cons y r =>
      rw [List.map_cons, List.flatten_cons, ih (by simp)]
      rw [show rowBlock (rt :: y :: r)
          = ' ' :: ' ' :: (rt ++ '\n' :: rowBlock (y :: r)) from rfl]
      simp

theorem rowBlock_ne_nil : ∀ {rts : List Str}, rts ≠ [] → rowBlock rts ≠ [] := by
  intro rts h
  cases rts with
  | nil => exact absurd rfl h
  | cons rt t =>
    cases t with
    | nil => simp [rowBlock]
    | cons y r =>
      rw [show rowBlock (rt :: y :: r)
          = ' ' :: ' ' :: (rt ++ '\n' :: rowBlock (y :: r)) from rfl]
      simp

theorem rowBlock_getLast : ∀ {rts : List Str}, rts ≠ [] → (∀ r ∈ rts, r ≠ []) →
    ∃ rl, rts.getLast? = some rl ∧ (rowBlock rts).getLast? = rl.getLast? := by
  intro rts
  induction rts with
  | nil => intro h _; exact absurd rfl h
  | cons rt t ih =>
    intro _ h
    cases t with
    | nil =>
      refine ⟨rt, rfl, ?_⟩
      rw [show rowBlock [rt] = [' ', ' '] ++ rt from rfl]
      exact List.getLast?_append_of_ne_nil _ (h rt (List.mem_cons_self _ _))
    | cons y r =>
      obtain ⟨rl, hrl, hlast⟩ := ih (by simp)
        (fun x hx => h x (List.mem_cons_of_mem _ hx))
      refine ⟨rl, by rw [← hrl]; rfl, ?_⟩
      rw [show rowBlock (rt :: y :: r)
          = ([' ', ' '] ++ rt ++ ['\n']) ++ rowBlock (y :: r) from by
        rw [show rowBlock (rt :: y :: r)
            = ' ' :: ' ' :: (rt ++ '\n' :: rowBlock (y :: r)) from rfl]
        simp]
      rw [List.getLast?_append_of_ne_nil _ (rowBlock_ne_nil (by simp))]
      exact hlast

theorem trimRightNl_concat {X : Str} (h : ∀ c, X.getLast? = some c → c ≠ '\n') :
    trimRightNl (X ++ ['\n']) = X := by
  unfold trimRightNl
  have e : (X ++ ['\n']).reverse = '\n' :: X.reverse := by simp
  rw [e, List.dropWhile_cons, if_pos (by decide)]
  rw [dropWhile_id_of_head ?_]
  · exact List.reverse_reverse X
  · intro c hc
    rw [List.head?_reverse] at hc
    simp [h c hc]

theorem encodeTOON_tabular (ks : List Str) (rows : List (List (Str × JValue)))
    (hks : ascKeys ks = true) (hks_ne : ks ≠ [])
    (hrows_ne : rows ≠ [])
    (hfst : ∀ r ∈ rows, r.map Prod.fst = ks)
    (hsafe : ∀ r ∈ rows, ∀ p ∈ r, tabularSafeScalar p.2 = true) :
    encodeTOON (.arr (rows.map .obj))
      = tabularText rows.length (joinWith [','] ks) (rows.map (rowTextOf ks)) := by
  have hnd : ks.Nodup := ascKeys_nodup hks
  have hdet := detectTabular_uniform ks rows hks hrows_ne hfst hsafe
  have hrts_ne : rows.map (rowTextOf ks) ≠ [] := by
    intro he
    exact hrows_ne (List.map_eq_nil_iff.mp he)
  have hrtne : ∀ rt ∈ rows.map (rowTextOf ks), rt ≠ [] := by
    intro rt hrt
    obtain ⟨r, hr, hre⟩ := List.mem_map.mp hrt
    rw [← hre]
    exact (rowTextOf_props ks r hks_ne (hfst r hr) hnd (hsafe r hr)).1
  have hlastX : ∀ c, (tabularText rows.length (joinWith [','] ks)
      (rows.map (rowTextOf ks))).getLast? = some c → c ≠ '\n' := by
    intro c hc
    obtain ⟨rl, hrl, hlast⟩ := rowBlock_getLast hrts_ne hrtne
    rw [show tabularText rows.length (joinWith [','] ks) (rows.map (rowTextOf ks))
        = (tabularHeaderLine rows.length (joinWith [','] ks) ++ ['\n'])
          ++ rowBlock (rows.map (rowTextOf ks)) from by
      unfold tabularText
      simp] at hc
    rw [List.getLast?_append_of_ne_nil _ (rowBlock_ne_nil hrts_ne), hlast] at hc
    obtain ⟨r, hr, hre⟩ := List.mem_map.mp (getLast?_memG hrl)
    intro he
    have hsp := (rowTextOf_props ks r hks_ne (hfst r hr) hnd (hsafe r hr)).2.2.2 c
      (by rw [hre]; exact hc)
    rw [he] at hsp
    exact absurd hsp (by decide)
  unfold encodeTOON
  have e1 : writeTOONF (jsize (JValue.arr (rows.map .obj)) + 2) []
        (.arr (rows.map .obj)) 0 ','
      = writeTOONArrayF (jsize (JValue.arr (rows.map .obj)) + 1) []
        (rows.map .obj) 0 ',' := rfl
  rw [e1]
  suffices h : writeTOONArrayF (jsize (JValue.arr (rows.map .obj)) + 1) []
      (rows.map .obj) 0 ','
      = tabularText rows.length (joinWith [','] ks) (rows.map (rowTextOf ks))
        ++ ['\n'] by
    rw [h]
    exact trimRightNl_concat hlastX
  simp only [writeTOONArrayF, hdet]
  rw [show (rows.map (fun row => tabularRowLine ks row (0 + 1)))
      = (rows.map (rowTextOf ks)).map (fun rt => [' ', ' '] ++ (rt ++ ['\n'])) from by
    rw [List.map_map]
    apply List.map_congr_left
    intro r _
    show tabularRowLine ks r (0 + 1) = [' ', ' '] ++ (rowTextOf ks r ++ ['\n'])
    exact tabularRowLine_eq ks r]
  rw [flatten_rowBlock hrts_ne]
  unfold tabularText tabularHeaderLine tabularHeaderCore indentStr
  rw [show strL ("[") = ['['] from rfl, show strL ("]") = [']'] from rfl,
    show strL (":") = [':'] from rfl, show strL ("\n") = ['\n'] from rfl,
    show strL (",") = [','] from rfl]
  simp

theorem parseRows_ok : ∀ (c : Nat) (L : List toonLine) (fields : List Str)
    (idx : Nat) (acc : List (List (Str × JValue))) (T : Nat → Str),
    (∀ j, j < c → L[idx + j]? = some (toonLine.mk 1 (T (idx + j)) (idx + j + 1))) →
    (∀ j, j < c → (splitDelimited (T (idx + j)) ',').length = fields.length) →
    parseRows L fields ',' 0 c idx acc
      = .ok (acc ++ (List.range c).map
          (fun j => buildRow fields (splitDelimited (T (idx + j)) ',')), idx + c) := by
  intro c
  induction c with
  | zero =>
    intro L fields idx acc T _ _
    simp [parseRows]
  | succ c ih =>
    intro L fields idx acc T hline hlen
    have h0 := hline 0 (by omega)
    simp only [Nat.add_zero] at h0
    simp only [parseRows, h0]
    rw [if_neg (show ¬((toonLine.mk 1 (T idx) (idx + 1)).depth ≠ 0 + 1) from by
      simp)]
    rw [if_neg (show ¬((splitDelimited (toonLine.mk 1 (T idx) (idx + 1)).text ','
        ).length ≠ fields.length) from by
      have := hlen 0 (by omega)
      simpa using this)]
    rw [ih L fields (idx + 1)
      (acc ++ [buildRow fields (splitDelimited (toonLine.mk 1 (T idx) (idx + 1)).text ',')])
      T ?_ ?_]
    · have hmap : (List.range c).map
          (fun j => buildRow fields (splitDelimited (T (idx + 1 + j)) ','))
          = (List.range c).map
            ((fun j => buildRow fields (splitDelimited (T (idx + j)) ',')) ∘ Nat.succ) := by
        apply List.map_congr_left
        intro j _
        show buildRow fields (splitDelimited (T (idx + 1 + j)) ',')
          = buildRow fields (splitDelimited (T (idx + (j + 1))) ',')
        rw [show idx + 1 + j = idx + (j + 1) from by omega]
      rw [hmap]
      rw [show (List.range (c + 1)) = 0 :: (List.range c).map Nat.succ from by
        rw [List.range_succ_eq_map]]
      rw [List.map_cons, List.map_map]
      simp only [Nat.add_zero]
      rw [show idx + 1 + c = idx + (c + 1) from by omega]
      simp
    · intro j hj
      have := hline (j + 1) (by omega)
      rw [show idx + (j + 1) = idx + 1 + j from by omega] at this
      exact this
    · intro j hj
      have := hlen (j + 1) (by omega)
      rw [show idx + (j + 1) = idx + 1 + j from by omega] at this
      exact this

theorem getD_map_lt {α β : Type} (f : α → β) (l : List α) (d : β) (d2 : α)
    (j : Nat) (hj : j < l.length) : (l.map f).getD j d = f (l.getD j d2) := by
  have h1 : (l.map f)[j]? = some (f (l.get ⟨j, hj⟩)) := by
    rw [List.getElem?_map, List.getElem?_eq_getElem hj]
    rfl
  have h2 : l[j]? = some (l.get ⟨j, hj⟩) := List.getElem?_eq_getElem hj
  rw [List.getD_eq_getElem?_getD, h1, List.getD_eq_getElem?_getD, h2]
  rfl

theorem map_range_getD {α β : Type} : ∀ (l : List α) (d : α) (g : α → β),
    (List.range l.length).map (fun j => g (l.getD j d)) = l.map g := by
  intro l
  induction l with
  | nil => intro d g; rfl
  | cons x t ih =>
    intro d g
    rw [show (x :: t).length = t.length + 1 from rfl, List.range_succ_eq_map,
      List.map_cons, List.map_map]
    congr 1
    rw [← ih d g]
    apply List.map_congr_left
    intro j _
    rfl

theorem tabularLines_get (n : Nat) (inner : Str) (rts : List Str) (j : Nat)
    (hj : j < rts.length) :
    (tabularLines n inner rts)[1 + j]?
      = some (toonLine.mk 1 (rts.getD j []) (1 + j + 1)) := by
  unfold tabularLines
  rw [show (1 + j) = j + 1 from by omega]
  rw [List.getElem?_cons_succ, List.getElem?_map, List.getElem?_enumFrom,
    List.getElem?_eq_getElem hj]
  rw [show rts.getD j [] = rts.get ⟨j, hj⟩ from by
    rw [List.getD_eq_getElem?_getD, List.getElem?_eq_getElem hj]
    rfl]
  rw [show (1 + j) = (j + 1) from by omega]
  rfl

/-- C1 (amended): the TOON tabular round trip holds for every nonempty
array of uniform flat-field objects whose shared key list is nonempty,
strictly sorted and made of identifier-safe keys (no whitespace, colon,
comma, quote, backslash, pipe or braces), and whose field values are
tabular-safe scalars (null, booleans, 64-bit integers, strings without
quote, backslash or control characters): decoding the encoded text
returns exactly the original value.  The unrestricted claim is refuted by
the empty-object element counterexample; non-integer numbers are excluded
because their decode runs through `strconv.ParseFloat` and `float64`,
which returns the cell as a string on range error and re-renders the
value canonically on success. -/
theorem C1_tabular_round_trip (ks : List Str) (rows : List (List (Str × JValue)))
    (hks : ascKeys ks = true) (hks_ne : ks ≠ [])
    (hkeys : ∀ k ∈ ks, k ≠ [] ∧ ∀ c ∈ k, isSpaceGo c = false ∧ c ≠ ':' ∧
      c ≠ ',' ∧ c ≠ '"' ∧ c ≠ '\\' ∧ c ≠ '|' ∧ c ≠ lbr ∧ c ≠ rbr)
    (hrows_ne : rows ≠ [])
    (hN : rows.length < 2 ^ 63)
    (hfst : ∀ r ∈ rows, r.map Prod.fst = ks)
    (hsafe : ∀ r ∈ rows, ∀ p ∈ r, tabularSafeScalar p.2 = true) :
    toonParse (encodeTOON (.arr (rows.map .obj))) = .ok (.arr (rows.map .obj)) := by
  have hnd : ks.Nodup := ascKeys_nodup hks
  have hkch : ∀ k ∈ ks, ∀ c ∈ k, c ≠ '\n' ∧ c ≠ '\r' ∧ c ≠ '\t' := by
    intro k hk c hc
    have hspace := ((hkeys k hk).2 c hc).1
    refine ⟨?_, ?_, ?_⟩ <;>
      (intro he; rw [he] at hspace; exact absurd hspace (by decide))
  have hkeyP : ∀ k ∈ ks, cellP k := by
    intro k hk
    obtain ⟨hkne, hkc⟩ := hkeys k hk
    exact Or.inl ⟨hkne, trimSpace_id_of_all (fun c hc => (hkc c hc).1),
      fun x hx => ⟨(hkc x hx).2.2.1, (hkc x hx).2.2.2.1, (hkc x hx).2.2.2.2.1⟩⟩
  have hkne' : ∀ k ∈ ks, k ≠ [] := fun k hk => (hkeys k hk).1
  have hinner_ne : joinWith [','] ks ≠ [] := joinWith_ne_nil hks_ne hkne'
  have hinner_cond : ∀ c ∈ joinWith [','] ks, c ≠ ':' ∧ c ≠ lbr ∧ c ≠ rbr ∧
      c ≠ '\n' ∧ c ≠ '\r' ∧ c ≠ '\t' ∧ c ≠ '|' := by
    intro c hc
    rcases joinWith_mem hc with rfl | ⟨k, hk, hck⟩
    · exact ⟨by decide, by decide, by decide, by decide, by decide, by decide,
        by decide⟩
    · obtain ⟨hsp, hcolon, hcomma, hquote, hbs, hpipe, hlb, hrb⟩ :=
        (hkeys k hk).2 c hck
      obtain ⟨hn1, hn2, hn3⟩ := hkch k hk c hck
      exact ⟨hcolon, hlb, hrb, hn1, hn2, hn3, hpipe⟩
  have hrowprop : ∀ rt ∈ rows.map (rowTextOf ks), rt ≠ [] ∧
      (∀ c ∈ rt, c ≠ '\n' ∧ c ≠ '\r') ∧
      (∀ c, rt.head? = some c → isSpaceGo c = false) ∧
      (∀ c, rt.getLast? = some c → isSpaceGo c = false) := by
    intro rt hrt
    obtain ⟨r, hr, hre⟩ := List.mem_map.mp hrt
    rw [← hre]
    exact rowTextOf_props ks r hks_ne (hfst r hr) hnd (hsafe r hr)
  have hrts_ne : rows.map (rowTextOf ks) ≠ [] :=
    fun he => hrows_ne (List.map_eq_nil_iff.mp he)
  rw [encodeTOON_tabular ks rows hks hks_ne hrows_ne hfst hsafe]
  rw [toonParse_tabular rows.length (joinWith [','] ks) (rows.map (rowTextOf ks))
    hN hinner_ne hinner_cond hrts_ne hrowprop]
  have hfields : splitDelimited (joinWith [','] ks) ',' = ks :=
    splitDelimited_join ks hks_ne hkeyP
  rw [hfields]
  have hsplit_rt : ∀ r ∈ rows,
      splitDelimited (rowTextOf ks r) ',' = rowCells ks r := by
    intro r hr
    have hcells := rowCells_cellP ks r (hfst r hr) hnd (hsafe r hr)
    have hne0 : rowCells ks r ≠ [] := by
      unfold rowCells
      intro he
      exact hks_ne (List.map_eq_nil_iff.mp he)
    rw [show rowTextOf ks r = joinWith [','] (rowCells ks r) from rfl]
    exact splitDelimited_join (rowCells ks r) hne0 hcells
  have hgetD : ∀ j, j < rows.length → rows.getD j [] ∈ rows := by
    intro j hj
    have e : rows.getD j [] = rows.get ⟨j, hj⟩ := by
      rw [List.getD_eq_getElem?_getD, List.getElem?_eq_getElem hj]
      rfl
    rw [e]
    exact List.get_mem rows j hj
  have hT : ∀ j, j < rows.length →
      (tabularLines rows.length (joinWith [','] ks)
        (rows.map (rowTextOf ks)))[1 + j]?
      = some (toonLine.mk 1
          ((fun i => (rows.map (rowTextOf ks)).getD (i - 1) []) (1 + j))
          (1 + j + 1)) := by
    intro j hj
    have hj2 : j < (rows.map (rowTextOf ks)).length := by simpa using hj
    have := tabularLines_get rows.length (joinWith [','] ks)
      (rows.map (rowTextOf ks)) j hj2
    simpa [show 1 + j - 1 = j from by omega] using this
  have hW : ∀ j, j < rows.length →
      (splitDelimited ((fun i => (rows.map (rowTextOf ks)).getD (i - 1) [])
        (1 + j)) ',').length = ks.length := by
    intro j hj
    have e1 : (rows.map (rowTextOf ks)).getD (1 + j - 1) []
        = rowTextOf ks (rows.getD j []) := by
      rw [show 1 + j - 1 = j from by omega]
      exact getD_map_lt (rowTextOf ks) rows [] [] j hj
    show (splitDelimited ((rows.map (rowTextOf ks)).getD (1 + j - 1) []) ',').length
      = ks.length
    rw [e1, hsplit_rt _ (hgetD j hj)]
    simp [rowCells]
  rw [parseRows_ok rows.length _ ks 1 []
    (fun i => (rows.map (rowTextOf ks)).getD (i - 1) []) hT hW]
  have hbuild : ∀ r ∈ rows,
      buildRow ks (splitDelimited (rowTextOf ks r) ',') = r := by
    intro r hr
    rw [hsplit_rt r hr]
    have hlen : ks.length ≤ (rowCells ks r).length := by simp [rowCells]
    rw [buildRow_eq ks (rowCells ks r) hlen hnd]
    rw [show ((ks.zip (rowCells ks r)).map
          (fun kv => (kv.1, parsePrimitiveToken kv.2)))
        = ks.zip ((rowCells ks r).map parsePrimitiveToken) from by
      rw [List.zip_map_right]
      rfl]
    rw [rowCells_parse ks r (hfst r hr) hnd (hsafe r hr)]
    rw [← hfst r hr]
    exact zip_fst_snd r
  have hrows_eq : (List.range rows.length).map
      (fun j => buildRow ks (splitDelimited
        ((fun i => (rows.map (rowTextOf ks)).getD (i - 1) []) (1 + j)) ','))
      = rows := by
    have e2 : ∀ j ∈ List.range rows.length,
        buildRow ks (splitDelimited
          ((fun i => (rows.map (rowTextOf ks)).getD (i - 1) []) (1 + j)) ',')
        = buildRow ks (splitDelimited (rowTextOf ks (rows.getD j [])) ',') := by
      intro j hj
      have hjlt : j < rows.length := List.mem_range.mp hj
      show buildRow ks (splitDelimited
          ((rows.map (rowTextOf ks)).getD (1 + j - 1) []) ',')
        = buildRow ks (splitDelimited (rowTextOf ks (rows.getD j [])) ',')
      rw [show 1 + j - 1 = j from by omega,
        getD_map_lt (rowTextOf ks) rows [] [] j hjlt]
    rw [List.map_congr_left e2]
    rw [map_range_getD rows []
      (fun r => buildRow ks (splitDelimited (rowTextOf ks r) ','))]
    calc rows.map (fun r => buildRow ks (splitDelimited (rowTextOf ks r) ','))
        = rows.map (fun r => r) := List.map_congr_left (fun r hr => hbuild r hr)
      _ = rows := List.map_id rows
  rw [show (([] : List (List (Str × JValue)))
      ++ (List.range rows.length).map
        (fun j => buildRow ks (splitDelimited
          ((fun i => (rows.map (rowTextOf ks)).getD (i - 1) []) (1 + j)) ','))
      = rows) from by rw [List.nil_append]; exact hrows_eq]

theorem C1_tabular_round_trip_witness :
    toonParse (encodeTOON (.arr
      ([[(strL ("id"), JValue.int 1), (strL ("name"), JValue.str (strL ("a")))],
        [(strL ("id"), JValue.int 2), (strL ("name"), JValue.str (strL ("b")))]].map
        .obj)))
    = .ok (.arr
      ([[(strL ("id"), JValue.int 1), (strL ("name"), JValue.str (strL ("a")))],
        [(strL ("id"), JValue.int 2), (strL ("name"), JValue.str (strL ("b")))]].map
        .obj)) :=
  C1_tabular_round_trip [strL ("id"), strL ("name")]
    [[(strL ("id"), JValue.int 1), (strL ("name"), JValue.str (strL ("a")))],
     [(strL ("id"), JValue.int 2), (strL ("name"), JValue.str (strL ("b")))]]
    (by decide) (by decide) (by decide) (by decide) (by decide) (by decide)
    (by decide)
